import Mathlib

/-!
DigitalAssistant: the skill-dispatch and reply-normalization pipeline.

A shallow embedding of `public/app.js` (`tryLocalSkill`, `executeAISkill`,
`callAI`, `sendMessage`), of `src/skills/skill-registry.js` (`register`,
`execute`, `list`, `toPromptDescription`) and of the chat handler of
`app/main.js`, together with the pieces of the JavaScript run time those
functions rely on (strings, JSON values, `JSON.parse`, the four regular
expressions of `app.js`).

Conventions.
* A JavaScript string is a list of characters (`Str`).
* `async` functions are computations over an explicit state that either
  return a value or throw a `JsError`; the bridge (`this.api`) is an oracle.
* Built-ins whose exact output no property depends on (`toLowerCase`,
  number formatting, `JSON.stringify`) are fields of `Host`.
* Skill handlers and `fetch` are oracles too; what they are called with is
  recorded next to the result.
-/

set_option autoImplicit false

namespace DigitalAssistant

/-! ## Strings -/

/-- A JavaScript string, as the list of its characters. -/
abbrev Str := List Char

/-- WhiteSpace and LineTerminator of ECMAScript: the characters removed by
`trim` / `trimStart` and matched by the regex class `\s`. -/
def isJsSpace (c : Char) : Bool :=
  let n := c.toNat
  n == 9 || n == 10 || n == 11 || n == 12 || n == 13 || n == 32 || n == 160 ||
  n == 5760 || (8192 ≤ n && n ≤ 8202) || n == 8232 || n == 8233 || n == 8239 ||
  n == 8287 || n == 12288 || n == 65279

/-- LineTerminator of ECMAScript: what the regex atom `.` does not match. -/
def isLineTerminator (c : Char) : Bool :=
  let n := c.toNat
  n == 10 || n == 13 || n == 8232 || n == 8233

/-- White space of the JSON grammar. -/
def isJsonSpace (c : Char) : Bool :=
  let n := c.toNat
  n == 9 || n == 10 || n == 13 || n == 32

/-- `String.prototype.trimStart`. -/
def trimStart (s : Str) : Str := s.dropWhile isJsSpace

/-- `String.prototype.trimEnd`. -/
def trimEnd (s : Str) : Str := (s.reverse.dropWhile isJsSpace).reverse

/-- `String.prototype.trim`. -/
def trim (s : Str) : Str := trimEnd (trimStart s)

/-- `s.startsWith(p)`. -/
def startsWith (s p : Str) : Bool := p.isPrefixOf s

/-- `s.includes(p)`: `p` occurs in `s` as a contiguous run. -/
def includes : Str → Str → Bool
  | [], p => p.isPrefixOf []
  | c :: cs, p => p.isPrefixOf (c :: cs) || includes cs p

/-- `s.replace(pat, '')` for a string pattern: the first occurrence of `pat`
is removed. -/
def removeFirst (pat : Str) : Str → Str
  | [] => []
  | c :: cs =>
    if pat.isPrefixOf (c :: cs) then (c :: cs).drop pat.length
    else c :: removeFirst pat cs

/-- Upper-case form of an ASCII letter, any other character unchanged. -/
def asciiUpper (c : Char) : Char :=
  if 97 ≤ c.toNat ∧ c.toNat ≤ 122 then Char.ofNat (c.toNat - 32) else c

/-- Lower-case form of an ASCII letter, any other character unchanged. -/
def asciiLower (c : Char) : Char :=
  if 65 ≤ c.toNat ∧ c.toNat ≤ 90 then Char.ofNat (c.toNat + 32) else c

/-! ## Values and errors -/

/-- A JavaScript value of the kind the program handles: what `JSON.parse`
produces, plus `undefined`. A number is kept as the decimal `m * 10 ^ e` its
literal denotes. An array also carries the named properties assigned to it
(`data.skill = null` on an array payload). -/
inductive JVal where
  | undefined
  | null
  | bool (b : Bool)
  | num (m : Int) (e : Int)
  | str (s : Str)
  | arr (elems : List JVal) (props : List (Str × JVal))
  | obj (props : List (Str × JVal))

/-- A thrown `Error` object, which is a name and a message: what
`JSON.parse`, a property read on `undefined` and a bridge promise rejected by
`ipcRenderer.invoke` throw. `Thrown` also covers the other values. -/
structure JsError where
  name : Str
  message : Str

/-- `TypeError` with the given message. -/
def typeError (msg : String) : JsError := ⟨"TypeError".toList, msg.toList⟩

/-- `SyntaxError` raised by `JSON.parse`. -/
def syntaxError : JsError := ⟨"SyntaxError".toList, "Unexpected token in JSON".toList⟩

/-- `Error.prototype.toString`. -/
def JsError.toStr (e : JsError) : Str :=
  if e.name.isEmpty then e.message
  else if e.message.isEmpty then e.name
  else e.name ++ ": ".toList ++ e.message

/-- The text of `err.message || err` inside a template literal. -/
def errText (e : JsError) : Str :=
  if e.message.isEmpty then e.toStr else e.message

/-- Built-ins of the host whose exact output is left open. -/
structure Host where
  /-- `String.prototype.toLowerCase`. -/
  toLowerCase : Str → Str
  /-- `Number.prototype.toString` of the number `m * 10 ^ e`. -/
  numToString : Int → Int → Str
  /-- `JSON.stringify` (a string, or `undefined` for `undefined`). -/
  jsonStringify : JVal → JVal

/-- The double nearest to `m * 10 ^ e` is not zero: the number is truthy.
Magnitudes up to `2 ^ -1075` round to zero. -/
def numNonzero (m e : Int) : Bool :=
  m != 0 && (decide (0 ≤ e) || decide (10 ^ (-e).toNat < m.natAbs * 2 ^ 1075))

/-- ToBoolean. -/
def truthy : JVal → Bool
  | .undefined => false
  | .null => false
  | .bool b => b
  | .num m e => numNonzero m e
  | .str s => !s.isEmpty
  | .arr _ _ => true
  | .obj _ => true

/-- `typeof v === 'string'`. -/
def isString : JVal → Bool
  | .str _ => true
  | _ => false

/-- `typeof v === 'object'` (true of `null`, arrays and objects). -/
def isObjectType : JVal → Bool
  | .null => true
  | .arr _ _ => true
  | .obj _ => true
  | _ => false

/-- `v === s` for a string literal `s`. -/
def strictEqStr (v : JVal) (s : String) : Bool :=
  match v with
  | .str t => t == s.toList
  | _ => false

/-- `a || b`. -/
def jsOr (a b : JVal) : JVal := if truthy a then a else b

mutual
/-- ToString, as applied by template literals, `String(v)`, `+` with a string
and `JSON.parse`. A plain object gives `[object Object]`, the result of
`Object.prototype.toString` (an object that shadows `toString` with a
property of its own is outside the model). -/
def toStr (h : Host) : JVal → Str
  | .undefined => "undefined".toList
  | .null => "null".toList
  | .bool b => if b then "true".toList else "false".toList
  | .num m e => h.numToString m e
  | .str s => s
  | .arr xs _ => joinComma h xs
  | .obj _ => "[object Object]".toList
termination_by structural v => v
/-- `Array.prototype.join(',')`: `null` and `undefined` elements are empty. -/
def joinComma (h : Host) : List JVal → Str
  | [] => []
  | x :: r =>
    (match x with
      | .undefined => []
      | .null => []
      | _ => toStr h x) ++
    (match r with
      | [] => []
      | _ => ',' :: joinComma h r)
termination_by structural l => l
end

/-- Look a key up in a property list. -/
def lookupProp (k : Str) : List (Str × JVal) → JVal
  | [] => .undefined
  | (k', v) :: r => if k' == k then v else lookupProp k r

/-- `k in o` on a property list. -/
def hasProp (k : Str) (ps : List (Str × JVal)) : Bool := ps.any (fun p => p.1 == k)

/-- Assign a property: an existing key keeps its place, a new one goes last. -/
def assignProp (k : Str) (v : JVal) : List (Str × JVal) → List (Str × JVal)
  | [] => [(k, v)]
  | (k', v') :: r => if k' == k then (k', v) :: r else (k', v') :: assignProp k v r

/-- `v.key` for the literal keys of the program (none is an index, `length`
or a method name): a property read throws on `undefined` and `null` and is
`undefined` on the other primitives. -/
def getProp (v : JVal) (key : String) : Except JsError JVal :=
  match v with
  | .undefined => .error (typeError ("Cannot read properties of undefined (reading '" ++ key ++ "')"))
  | .null => .error (typeError ("Cannot read properties of null (reading '" ++ key ++ "')"))
  | .arr _ ps => .ok (lookupProp key.toList ps)
  | .obj ps => .ok (lookupProp key.toList ps)
  | _ => .ok .undefined

/-- `v.key = x` in strict code (a class body): throws on every primitive. -/
def setProp (v : JVal) (key : String) (x : JVal) : Except JsError JVal :=
  match v with
  | .arr xs ps => .ok (.arr xs (assignProp key.toList x ps))
  | .obj ps => .ok (.obj (assignProp key.toList x ps))
  | .undefined => .error (typeError ("Cannot set properties of undefined (setting '" ++ key ++ "')"))
  | .null => .error (typeError ("Cannot set properties of null (setting '" ++ key ++ "')"))
  | _ => .error (typeError ("Cannot create property '" ++ key ++ "' on a primitive value"))

/-- `key in v` for an object or array `v`. -/
def hasKey (v : JVal) (key : String) : Bool :=
  match v with
  | .arr _ ps => hasProp key.toList ps
  | .obj ps => hasProp key.toList ps
  | _ => false

/-! ## JSON.parse -/

/-- Position reached from `i` by skipping JSON white space. -/
def skipWs (inp : Str) (i : Nat) : Nat :=
  i + ((inp.drop i).takeWhile isJsonSpace).length

/-- Value of a hexadecimal digit. -/
def hexVal (c : Char) : Option Nat :=
  let n := c.toNat
  if 48 ≤ n ∧ n ≤ 57 then some (n - 48)
  else if 97 ≤ n ∧ n ≤ 102 then some (n - 87)
  else if 65 ≤ n ∧ n ≤ 70 then some (n - 55)
  else none

/-- The characters of a JSON string after its opening quote: the UTF-16 code
units (or code points of unescaped characters) they denote, and how many
characters were read, the closing quote included. -/
def parseStringBody : Str → Option (List Nat × Nat)
  | [] => none
  | c :: rest =>
    if c == '"' then some ([], 1)
    else if c == '\\' then
      match rest with
      | [] => none
      | e :: rest1 =>
        if e == 'u' then
          match rest1 with
          | a :: b :: c1 :: d :: rest2 =>
            match hexVal a, hexVal b, hexVal c1, hexVal d with
            | some x3, some x2, some x1, some x0 =>
              match parseStringBody rest2 with
              | some (us, n) => some ((x3 * 4096 + x2 * 256 + x1 * 16 + x0) :: us, n + 6)
              | none => none
            | _, _, _, _ => none
          | _ => none
        else
          let unit : Option Nat :=
            if e == '"' then some 34
            else if e == '\\' then some 92
            else if e == '/' then some 47
            else if e == 'b' then some 8
            else if e == 'f' then some 12
            else if e == 'n' then some 10
            else if e == 'r' then some 13
            else if e == 't' then some 9
            else none
          match unit, parseStringBody rest1 with
          | some u, some (us, n) => some (u :: us, n + 2)
          | _, _ => none
    else if c.toNat < 32 then none
    else
      match parseStringBody rest with
      | some (us, n) => some (c.toNat :: us, n + 1)
      | none => none

/-- Characters denoted by a list of code units: a surrogate pair is one
character; a lone surrogate, which a `Str` cannot hold, becomes U+FFFD. -/
def decodeUnits : List Nat → Str
  | [] => []
  | [x] => [if 55296 ≤ x ∧ x ≤ 57343 then Char.ofNat 65533 else Char.ofNat x]
  | x :: y :: r =>
    if 55296 ≤ x ∧ x ≤ 56319 ∧ 56320 ≤ y ∧ y ≤ 57343 then
      Char.ofNat (65536 + (x - 55296) * 1024 + (y - 56320)) :: decodeUnits r
    else if 55296 ≤ x ∧ x ≤ 57343 then Char.ofNat 65533 :: decodeUnits (y :: r)
    else Char.ofNat x :: decodeUnits (y :: r)

/-- The leading decimal digits of a string. -/
def takeDigits (s : Str) : Str := s.takeWhile Char.isDigit

/-- Value of a run of decimal digits. -/
def digitsVal (ds : Str) : Nat := ds.foldl (fun a c => 10 * a + (c.toNat - 48)) 0

/-- A JSON number at the head of `s`: mantissa, decimal exponent and length of
the literal. The grammar is `-? (0 | [1-9][0-9]*) (.[0-9]+)? ([eE][+-]?[0-9]+)?`. -/
def parseNumber (s : Str) : Option (Int × Int × Nat) :=
  let neg : Bool := s.head? == some '-'
  let s1 := if neg then s.drop 1 else s
  let intDs : Str := if s1.head? == some '0' then ['0'] else takeDigits s1
  if intDs.isEmpty then none
  else
    let s2 := s1.drop intDs.length
    let fracDs : Str := if s2.head? == some '.' then takeDigits (s2.drop 1) else []
    if s2.head? == some '.' && fracDs.isEmpty then none
    else
      let s3 := if s2.head? == some '.' then s2.drop (1 + fracDs.length) else s2
      let hasExp : Bool := s3.head? == some 'e' || s3.head? == some 'E'
      let s4 := s3.drop 1
      let hasSign : Bool := s4.head? == some '+' || s4.head? == some '-'
      let s5 := if hasSign then s4.drop 1 else s4
      let expDs : Str := if hasExp then takeDigits s5 else []
      if hasExp && expDs.isEmpty then none
      else
        let mag : Int := (digitsVal (intDs ++ fracDs) : Nat)
        let ex : Int := (digitsVal expDs : Nat)
        let len := (if neg then 1 else 0) + intDs.length +
          (if s2.head? == some '.' then 1 + fracDs.length else 0) +
          (if hasExp then 1 + (if hasSign then 1 else 0) + expDs.length else 0)
        some (if neg then -mag else mag,
              (if s4.head? == some '-' then -ex else ex) - (fracDs.length : Int), len)

/-- Outcome of a parsing step: `fuelOut` marks an exhausted recursion budget
(which `jsonParse` never meets, see `jsonParse_fuel`). -/
inductive PRes where
  | fuelOut
  | fail
  | done (v : JVal) (next : Nat)

mutual
/-- A JSON value starting at position `i` (white space already skipped). -/
def parseValue : Nat → Str → Nat → PRes
  | 0, _, _ => .fuelOut
  | f + 1, inp, i =>
    match inp.drop i with
    | [] => .fail
    | c :: rest =>
      if c == '{' then
        if (inp.drop (skipWs inp (i + 1))).head? == some '}' then
          .done (.obj []) (skipWs inp (i + 1) + 1)
        else parseMembers f inp (skipWs inp (i + 1)) []
      else if c == '[' then
        if (inp.drop (skipWs inp (i + 1))).head? == some ']' then
          .done (.arr [] []) (skipWs inp (i + 1) + 1)
        else parseElems f inp (skipWs inp (i + 1)) []
      else if c == '"' then
        match parseStringBody rest with
        | some (us, n) => .done (.str (decodeUnits us)) (i + 1 + n)
        | none => .fail
      else if "true".toList.isPrefixOf (c :: rest) then .done (.bool true) (i + 4)
      else if "false".toList.isPrefixOf (c :: rest) then .done (.bool false) (i + 5)
      else if "null".toList.isPrefixOf (c :: rest) then .done .null (i + 4)
      else
        match parseNumber (c :: rest) with
        | some (m, e, n) => .done (.num m e) (i + n)
        | none => .fail
/-- The members of an object from position `i`, the start of a key; `acc`
holds the members read so far. A repeated key keeps its first place and takes
the last value. -/
def parseMembers : Nat → Str → Nat → List (Str × JVal) → PRes
  | 0, _, _, _ => .fuelOut
  | f + 1, inp, i, acc =>
    match inp.drop i with
    | [] => .fail
    | c :: rest =>
      if c == '"' then
        match parseStringBody rest with
        | none => .fail
        | some (us, n) =>
          if (inp.drop (skipWs inp (i + 1 + n))).head? == some ':' then
            match parseValue f inp (skipWs inp (skipWs inp (i + 1 + n) + 1)) with
            | .done v p =>
              if (inp.drop (skipWs inp p)).head? == some ',' then
                parseMembers f inp (skipWs inp (skipWs inp p + 1))
                  (assignProp (decodeUnits us) v acc)
              else if (inp.drop (skipWs inp p)).head? == some '}' then
                .done (.obj (assignProp (decodeUnits us) v acc)) (skipWs inp p + 1)
              else .fail
            | r => r
          else .fail
      else .fail
/-- The elements of an array from position `i`, the start of an element. -/
def parseElems : Nat → Str → Nat → List JVal → PRes
  | 0, _, _, _ => .fuelOut
  | f + 1, inp, i, acc =>
    match parseValue f inp i with
    | .done v p =>
      if (inp.drop (skipWs inp p)).head? == some ',' then
        parseElems f inp (skipWs inp (skipWs inp p + 1)) (acc ++ [v])
      else if (inp.drop (skipWs inp p)).head? == some ']' then
        .done (.arr (acc ++ [v]) []) (skipWs inp p + 1)
      else .fail
    | r => r
end

/-- `JSON.parse` of a string: one value between optional white space. Every
recursive call is made with one unit of budget less and, at most two calls
later, at a later position, so `2 * length + 2` units are enough. -/
def jsonParse (inp : Str) : Except JsError JVal :=
  match parseValue (2 * inp.length + 2) inp (skipWs inp 0) with
  | .done v p => if (inp.drop p).all isJsonSpace then .ok v else .error syntaxError
  | _ => .error syntaxError

/-- `JSON.parse(v)`: the argument is first converted to a string. -/
def JSON_parse (h : Host) (v : JVal) : Except JsError JVal := jsonParse (toStr h v)

/-! ## Regular expressions -/

/-- The fragment of regular-expression syntax the program uses. Repetition is
only ever applied to a one-character atom. -/
inductive Re where
  | eps
  | chr (c : Char)
  | cls (p : Char → Bool)
  | seq (a b : Re)
  | alt (a b : Re)
  | star (p : Char → Bool)
  | group (r : Re)

/-- Greedy `x*` over the characters satisfying `p`: the longest run first,
then shorter ones, until the continuation succeeds. -/
def starRun {α : Type} (p : Char → Bool) (k : Str → Option α) : Str → Option α
  | [] => k []
  | c :: cs =>
    if p c then
      match starRun p k cs with
      | some r => some r
      | none => k (c :: cs)
    else k (c :: cs)

/-- Character comparison; under the `i` flag both sides are canonicalized.
The patterns hold ASCII letters and caseless ideographs only, for which
canonicalization is ASCII upper-casing. -/
def charMatches (ic : Bool) (c d : Char) : Bool :=
  if ic then asciiUpper c == asciiUpper d else c == d

/-- Backtracking matcher: match `r` at the head of the input and hand the
rest, with the text of the capturing group, to the continuation;
alternatives are tried in order. -/
def Re.run {α : Type} (ic : Bool) :
    Re → Str → Option Str → (Str → Option Str → Option α) → Option α
  | .eps, s, cap, k => k s cap
  | .chr c, s, cap, k =>
    match s with
    | d :: t => if charMatches ic c d then k t cap else none
    | [] => none
  | .cls p, s, cap, k =>
    match s with
    | d :: t => if p d then k t cap else none
    | [] => none
  | .seq a b, s, cap, k => Re.run ic a s cap (fun t cap1 => Re.run ic b t cap1 k)
  | .alt a b, s, cap, k =>
    match Re.run ic a s cap k with
    | some r => some r
    | none => Re.run ic b s cap k
  | .star p, s, cap, k => starRun p (fun t => k t cap) s
  | .group r, s, cap, k =>
    Re.run ic r s cap (fun t _ => k t (some (s.take (s.length - t.length))))

/-- The literal string `s` as a pattern. -/
def Re.lit (s : String) : Re := s.toList.foldr (fun c r => Re.seq (.chr c) r) .eps

/-- Alternation `a|b|...` of a non-empty list. -/
def Re.alts : List Re → Re
  | [] => .eps
  | [r] => r
  | r :: rs => .alt r (Re.alts rs)

/-- Sequence of patterns. -/
def Re.seqs : List Re → Re
  | [] => .eps
  | [r] => r
  | r :: rs => .seq r (Re.seqs rs)

/-- A successful match: `m[0]` and `m[1]`. -/
structure MatchResult where
  whole : Str
  group1 : JVal

/-- The value of `m[1]`: the text of the group, `undefined` when the group
took no part in the match. -/
def groupValue : Option Str → JVal
  | some g => .str g
  | none => .undefined

/-- Match at the head of `s`. -/
def Re.exec (ic : Bool) (r : Re) (s : Str) : Option MatchResult :=
  Re.run ic r s none (fun t cap => some ⟨s.take (s.length - t.length), groupValue cap⟩)

/-- `s.match(r)` for a regular expression without the `g` flag: the match at
the leftmost position that has one. -/
def reMatch (ic : Bool) (r : Re) : Str → Option MatchResult
  | [] => Re.exec ic r []
  | c :: cs =>
    match Re.exec ic r (c :: cs) with
    | some m => some m
    | none => reMatch ic r cs

/-- The atom `.`. -/
def dot (c : Char) : Bool := !isLineTerminator c

/-- The class `[\s\S]`. -/
def anyChar (_ : Char) : Bool := true

/-- The class `\S`. -/
def nonSpace (c : Char) : Bool := !isJsSpace c

/-- The pattern
`/(?:然後|再|接著|並|且).*(?:做成|製作|建立|產生).*(?:簡報|文件|報告|PPT|Word|Excel)/i`. -/
def compositeRe : Re :=
  Re.seqs [
    Re.alts [Re.lit "然後", Re.lit "再", Re.lit "接著", Re.lit "並", Re.lit "且"],
    .star dot,
    Re.alts [Re.lit "做成", Re.lit "製作", Re.lit "建立", Re.lit "產生"],
    .star dot,
    Re.alts [Re.lit "簡報", Re.lit "文件", Re.lit "報告", Re.lit "PPT", Re.lit "Word", Re.lit "Excel"]]

/-- The pattern `/(?:搜尋|搜索|查詢|search|幫我查|幫我搜)\s*(.+)/i`. -/
def searchRe : Re :=
  Re.seqs [
    Re.alts [Re.lit "搜尋", Re.lit "搜索", Re.lit "查詢", Re.lit "search", Re.lit "幫我查", Re.lit "幫我搜"],
    .star isJsSpace,
    .group (.seq (.cls dot) (.star dot))]

/-- The pattern `/(?:開啟|打開|open)\s*(https?:\/\/\S+)/i`. -/
def urlRe : Re :=
  Re.seqs [
    Re.alts [Re.lit "開啟", Re.lit "打開", Re.lit "open"],
    .star isJsSpace,
    .group (Re.seqs [Re.lit "http", .alt (.chr 's') .eps, Re.lit "://",
      .cls nonSpace, .star nonSpace])]

/-- The pattern `/\{[\s\S]*"skill"\s*:[\s\S]*"args"\s*:[\s\S]*\}/`. -/
def embeddedRe : Re :=
  Re.seqs [.chr '{', .star anyChar, Re.lit "\"skill\"", .star isJsSpace, .chr ':',
    .star anyChar, Re.lit "\"args\"", .star isJsSpace, .chr ':', .star anyChar, .chr '}']

/-! ## The bridge, the page and the controller state -/

/-- The capabilities of the bridge object `this.api` that the pipeline calls. -/
inductive Cap where
  | launch_app | open_url | open_path | run_command | clipboard_write
  | clipboard_read | system_info | create_ppt | create_docx | create_xlsx
  | write_file | read_file | list_files | take_screenshot | get_datetime
  | search_web | fetch_news | kill_process | set_volume | notify
  | chat_with_ai
deriving DecidableEq

/-- Behaviour of the bridge during one turn: what awaiting a call yields, a
value or a rejection with an `Error` object, which is what the promises of
`ipcRenderer.invoke` are rejected with. `AnyApi` drops that restriction. -/
abbrev Api := Cap → List JVal → Except JsError JVal

/-- What a turn does to the outside: bridge calls and changes of the page. -/
inductive Event where
  | call (cap : Cap) (args : List JVal)
  | message (role : Str) (text : JVal) (isSkillResult : Bool)
  | speak (text : JVal)
  | inputCleared
  | typingShown
  | typingHidden

/-- State of the controller: the fields of `DigitalAssistant` the pipeline
reads or writes, and the trace of events so far. -/
structure St where
  conversationHistory : List JVal
  ttsEnabled : Bool
  speechSynthesis : Bool
  log : List Event

/-- A computation of the controller: from a state, a returned value or a
thrown error, and the state reached. -/
def M (α : Type) : Type := St → Except JsError α × St

/-- Return a value. -/
def M.pure {α : Type} (a : α) : M α := fun s => (.ok a, s)

/-- Sequence two computations; an error of the first ends the sequence. -/
def M.bind {α β : Type} (x : M α) (f : α → M β) : M β := fun s =>
  match x s with
  | (.ok a, s1) => f a s1
  | (.error e, s1) => (.error e, s1)

instance : Monad M where
  pure := M.pure
  bind := M.bind

/-- Run `body`; an error it throws is passed to `handler` (`try`/`catch`). -/
def tryCatchM {α : Type} (body : M α) (handler : JsError → M α) : M α := fun s =>
  match body s with
  | (.ok a, s1) => (.ok a, s1)
  | (.error e, s1) => handler e s1

/-- A pure step that may throw. -/
def liftE {α : Type} (x : Except JsError α) : M α := fun s => (x, s)

/-- Record an event. -/
def emit (e : Event) : M Unit := fun s => (.ok (), { s with log := s.log ++ [e] })

/-- `await this.api.cap(...args)`. -/
def callApi (api : Api) (cap : Cap) (args : List JVal) : M JVal := fun s =>
  (api cap args, { s with log := s.log ++ [.call cap args] })

/-- `this.conversationHistory.push(entry)`. -/
def pushHistory (entry : JVal) : M Unit := fun s =>
  (.ok (), { s with conversationHistory := s.conversationHistory ++ [entry] })

/-- The statement
`if (this.conversationHistory.length > 40) this.conversationHistory = this.conversationHistory.slice(-40)`. -/
def truncateHistory : M Unit := fun s =>
  (.ok (), { s with conversationHistory :=
    if s.conversationHistory.length > 40 then
      s.conversationHistory.drop (s.conversationHistory.length - 40)
    else s.conversationHistory })

/-- Read `this.conversationHistory`. -/
def getHistory : M (List JVal) := fun s => (.ok s.conversationHistory, s)

/-- The history entry `{ role, content }`. -/
def historyEntry (role : String) (content : JVal) : JVal :=
  .obj [("role".toList, .str role.toList), ("content".toList, content)]

/-- `addMessage(role, text, isSkillResult)`: a skill result is escaped and
shown; otherwise `text.includes('<div')` is evaluated first, which throws
unless `text` is a string or an array. -/
def addMessage (role : String) (text : JVal) (isSkillResult : Bool) : M Unit :=
  if isSkillResult then emit (.message role.toList text true)
  else
    match text with
    | .str _ => emit (.message role.toList text false)
    | .arr _ _ => emit (.message role.toList text false)
    | .undefined => liftE (.error (typeError "Cannot read properties of undefined (reading 'includes')"))
    | .null => liftE (.error (typeError "Cannot read properties of null (reading 'includes')"))
    | _ => liftE (.error (typeError "text.includes is not a function"))

/-- `speak(text)`: nothing unless speech is enabled and available. -/
def speak (text : JVal) : M Unit := fun s =>
  if !s.ttsEnabled || !s.speechSynthesis then (.ok (), s)
  else (.ok (), { s with log := s.log ++ [.speak text] })

/-- `showTyping()`. -/
def showTyping : M Unit := emit .typingShown

/-- `hideTyping()`. -/
def hideTyping : M Unit := emit .typingHidden

/-! ## tryLocalSkill -/

/-- An entry of `launchPatterns`. -/
structure LaunchItem where
  patterns : List String
  app : String
  name : String

/-- The table `launchPatterns` of `tryLocalSkill`. -/
def launchPatterns : List LaunchItem := [
  ⟨["開啟記事本", "打開記事本", "open notepad"], "notepad", "記事本"⟩,
  ⟨["開啟計算機", "打開計算機", "open calculator"], "calculator", "計算機"⟩,
  ⟨["開啟檔案總管", "打開檔案總管", "open explorer"], "explorer", "檔案總管"⟩,
  ⟨["開啟瀏覽器", "打開瀏覽器", "open browser"], "browser", "瀏覽器"⟩,
  ⟨["開啟vscode", "打開vscode", "open vscode", "開啟編輯器"], "vscode", "VSCode"⟩,
  ⟨["開啟終端", "打開終端", "open terminal"], "terminal", "終端機"⟩,
  ⟨["開啟discord", "打開discord"], "discord", "Discord"⟩,
  ⟨["開啟spotify", "打開spotify"], "spotify", "Spotify"⟩]

/-- `patterns.some(p => lower.includes(p))`. -/
def someIncluded (lower : Str) (patterns : List String) : Bool :=
  patterns.any (fun p => includes lower p.toList)

/-- The object `{ message, speakText, isSkill: true }`. -/
def skillResult (message speakText : JVal) : JVal :=
  .obj [("message".toList, message), ("speakText".toList, speakText),
    ("isSkill".toList, .bool true)]

/-- Body of the launch loop for a matching item. -/
def launchBranch (api : Api) (item : LaunchItem) : M JVal := do
  let _ ← callApi api .launch_app [.str item.app.toList]
  pure (skillResult (.str ("已為你開啟 ".toList ++ item.name.toList))
    (.str ("已開啟".toList ++ item.name.toList)))

/-- The loop `for (const item of launchPatterns)`: the result of the first
matching item, or `none` when the loop ends without a `return`. -/
def launchLoop (api : Api) (lower : Str) : List LaunchItem → M (Option JVal)
  | [] => pure none
  | item :: rest =>
    if someIncluded lower item.patterns then do
      let r ← launchBranch api item
      pure (some r)
    else launchLoop api lower rest

/-- Body of the system-information branch. -/
def systemInfoBranch (h : Host) (api : Api) : M JVal := do
  let raw ← callApi api .system_info []
  let result ← liftE (JSON_parse h raw)
  let info ← liftE (getProp result "message" >>= JSON_parse h)
  let hostname ← liftE (getProp info "hostname")
  let cpus ← liftE (getProp info "cpus")
  let freeMemory ← liftE (getProp info "freeMemory")
  let totalMemory ← liftE (getProp info "totalMemory")
  let msg := "系統資訊\n主機: ".toList ++ toStr h hostname ++ "\nCPU: ".toList ++ toStr h cpus ++
    " 核心\n記憶體: ".toList ++ toStr h (jsOr freeMemory (.str ['?'])) ++ " / ".toList ++
    toStr h (jsOr totalMemory (.str ['?']))
  let cpus2 ← liftE (getProp info "cpus")
  pure (skillResult (.str msg)
    (.str ("你的電腦有".toList ++ toStr h cpus2 ++ "個CPU核心".toList)))

/-- Body of the clipboard branch. -/
def clipboardBranch (h : Host) (api : Api) : M JVal := do
  let raw ← callApi api .clipboard_read []
  let result ← liftE (JSON_parse h raw)
  let message ← liftE (getProp result "message")
  pure (skillResult (.str ("剪貼簿內容:\n".toList ++ toStr h (jsOr message (.str "(空)".toList))))
    (.str "已讀取剪貼簿".toList))

/-- Body of the screenshot branch. -/
def screenshotBranch (h : Host) (api : Api) : M JVal := do
  let raw ← callApi api .take_screenshot []
  let result ← liftE (JSON_parse h raw)
  let message ← liftE (getProp result "message")
  pure (skillResult message (.str "已截圖".toList))

/-- Body of the date/time branch. -/
def datetimeBranch (h : Host) (api : Api) : M JVal := do
  let raw ← callApi api .get_datetime []
  let result ← liftE (JSON_parse h raw)
  let info ← liftE (getProp result "message" >>= JSON_parse h)
  let full ← liftE (getProp info "full")
  let full2 ← liftE (getProp info "full")
  pure (skillResult full full2)

/-- Body of the web-search branch, for the match `m` of `searchRe`. -/
def searchBranch (h : Host) (api : Api) (m : MatchResult) : M JVal := do
  let _ ← callApi api .search_web [m.group1]
  pure (skillResult (.str ("已搜尋: ".toList ++ toStr h m.group1))
    (.str ("已搜尋".toList ++ toStr h m.group1)))

/-- Body of the file-listing branch. -/
def listFilesBranch (h : Host) (api : Api) : M JVal := do
  let raw ← callApi api .list_files [.str []]
  let result ← liftE (JSON_parse h raw)
  let message ← liftE (getProp result "message")
  pure (skillResult (.str ("工作目錄檔案:\n".toList ++ toStr h message)) (.str "已列出檔案".toList))

/-- Body of the URL branch, for the match `m` of `urlRe`. -/
def urlBranch (h : Host) (api : Api) (m : MatchResult) : M JVal := do
  let _ ← callApi api .open_url [m.group1]
  pure (skillResult (.str ("已開啟: ".toList ++ toStr h m.group1)) (.str "已開啟連結".toList))

/-- The phrase lists of the four keyword branches. -/
def systemInfoPhrases : List String := ["系統狀態", "系統資訊", "system info", "電腦狀態"]

/-- Phrases of the clipboard branch. -/
def clipboardPhrases : List String := ["讀取剪貼簿", "剪貼簿內容", "clipboard", "貼上內容"]

/-- Phrases of the screenshot branch. -/
def screenshotPhrases : List String := ["截圖", "螢幕截圖", "screenshot", "截取畫面"]

/-- Phrases of the date/time branch. -/
def datetimePhrases : List String :=
  ["現在幾點", "目前時間", "今天日期", "幾號", "what time", "what date", "現在時間"]

/-- Phrases of the file-listing branch. -/
def listFilesPhrases : List String := ["列出檔案", "檔案列表", "list files", "查看檔案"]

/-- The statements of `tryLocalSkill` after the search block: file listing,
raw URL, `return null`. -/
def tryLocalSkillTail (h : Host) (api : Api) (text lower : Str) : M JVal :=
  if someIncluded lower listFilesPhrases then listFilesBranch h api
  else
    match reMatch true urlRe text with
    | some m => urlBranch h api m
    | none => pure .null

/-- `tryLocalSkill(text)`: a result object, or `null` when nothing matched. -/
def tryLocalSkill (h : Host) (api : Api) (text : Str) : M JVal := do
  let lower := h.toLowerCase text
  match ← launchLoop api lower launchPatterns with
  | some r => pure r
  | none =>
    if someIncluded lower systemInfoPhrases then systemInfoBranch h api
    else if someIncluded lower clipboardPhrases then clipboardBranch h api
    else if someIncluded lower screenshotPhrases then screenshotBranch h api
    else if someIncluded lower datetimePhrases then datetimeBranch h api
    else if (reMatch true compositeRe text).isNone then
      match reMatch true searchRe text with
      | some m => searchBranch h api m
      | none => tryLocalSkillTail h api text lower
    else tryLocalSkillTail h api text lower

/-! ## executeAISkill -/

/-- `JSON.parse(raw).message`. -/
def parsedMessage (h : Host) (raw : JVal) : Except JsError JVal :=
  JSON_parse h raw >>= fun r => getProp r "message"

/-- `typeof v === 'string' ? v : JSON.stringify(v)`. -/
def stringOrJson (h : Host) (v : JVal) : JVal :=
  if isString v then v else h.jsonStringify v

/-- The `switch` of `executeAISkill`: the body of its `try` block. -/
def executeAISkillBody (h : Host) (api : Api) (skillName args : JVal) : M JVal :=
  if strictEqStr skillName "launch_app" then do
    let name ← liftE (getProp args "name")
    let raw ← callApi api .launch_app [name]
    liftE (parsedMessage h raw)
  else if strictEqStr skillName "open_url" then do
    let url ← liftE (getProp args "url")
    let _ ← callApi api .open_url [url]
    let url2 ← liftE (getProp args "url")
    pure (.str ("已開啟 ".toList ++ toStr h url2))
  else if strictEqStr skillName "open_path" then do
    let path ← liftE (getProp args "path")
    let _ ← callApi api .open_path [path]
    let path2 ← liftE (getProp args "path")
    pure (.str ("已開啟 ".toList ++ toStr h path2))
  else if strictEqStr skillName "run_command" then do
    let command ← liftE (getProp args "command")
    let raw ← callApi api .run_command [command]
    liftE (parsedMessage h raw)
  else if strictEqStr skillName "clipboard_write" then do
    let text ← liftE (getProp args "text")
    let _ ← callApi api .clipboard_write [text]
    pure (.str "已複製到剪貼簿".toList)
  else if strictEqStr skillName "clipboard_read" then do
    let raw ← callApi api .clipboard_read []
    liftE (parsedMessage h raw)
  else if strictEqStr skillName "system_info" then do
    let raw ← callApi api .system_info []
    liftE (parsedMessage h raw)
  else if strictEqStr skillName "create_ppt" then do
    let slides ← liftE (getProp args "slides_json")
    let slides2 ← liftE (getProp args "slides_json")
    let slidesStr := if isString slides then slides2 else h.jsonStringify slides2
    let title ← liftE (getProp args "title")
    let theme ← liftE (getProp args "theme")
    let raw ← callApi api .create_ppt [title, slidesStr, jsOr theme (.str "dark".toList)]
    liftE (parsedMessage h raw)
  else if strictEqStr skillName "create_docx" then do
    let title ← liftE (getProp args "title")
    let content ← liftE (getProp args "content")
    let raw ← callApi api .create_docx [title, content]
    liftE (parsedMessage h raw)
  else if strictEqStr skillName "create_xlsx" then do
    let data ← liftE (getProp args "data_json")
    let data2 ← liftE (getProp args "data_json")
    let dataStr := if isString data then data2 else h.jsonStringify data2
    let title ← liftE (getProp args "title")
    let raw ← callApi api .create_xlsx [title, dataStr]
    liftE (parsedMessage h raw)
  else if strictEqStr skillName "write_file" then do
    let filename ← liftE (getProp args "filename")
    let content ← liftE (getProp args "content")
    let raw ← callApi api .write_file [filename, content]
    liftE (parsedMessage h raw)
  else if strictEqStr skillName "read_file" then do
    let filepath ← liftE (getProp args "filepath")
    let raw ← callApi api .read_file [filepath]
    liftE (parsedMessage h raw)
  else if strictEqStr skillName "list_files" then do
    let directory ← liftE (getProp args "directory")
    let raw ← callApi api .list_files [jsOr directory (.str [])]
    liftE (parsedMessage h raw)
  else if strictEqStr skillName "take_screenshot" then do
    let raw ← callApi api .take_screenshot []
    liftE (parsedMessage h raw)
  else if strictEqStr skillName "get_datetime" then do
    let raw ← callApi api .get_datetime []
    liftE (parsedMessage h raw >>= JSON_parse h >>= fun info => getProp info "full")
  else if strictEqStr skillName "search_web" then do
    let query ← liftE (getProp args "query")
    let raw ← callApi api .search_web [query]
    liftE (parsedMessage h raw)
  else if strictEqStr skillName "fetch_news" then do
    let query ← liftE (getProp args "query")
    let maxResults ← liftE (getProp args "max_results")
    let raw ← callApi api .fetch_news [query, .str (toStr h (jsOr maxResults (.num 5 0)))]
    liftE (parsedMessage h raw)
  else if strictEqStr skillName "kill_process" then do
    let processName ← liftE (getProp args "process_name")
    let raw ← callApi api .kill_process [processName]
    liftE (parsedMessage h raw)
  else if strictEqStr skillName "set_volume" then do
    let level ← liftE (getProp args "level")
    let raw ← callApi api .set_volume [.str (toStr h level)]
    liftE (parsedMessage h raw)
  else if strictEqStr skillName "notify" then do
    let title ← liftE (getProp args "title")
    let message ← liftE (getProp args "message")
    let raw ← callApi api .notify [title, message]
    liftE (parsedMessage h raw)
  else pure (.str ("未知技能: ".toList ++ toStr h skillName))

/-- `executeAISkill(skillName, args)`: the `switch` inside `try`, and the
`catch` that turns an error into a message. -/
def executeAISkill (h : Host) (api : Api) (skillName args : JVal) : M JVal :=
  tryCatchM (executeAISkillBody h api skillName args)
    (fun err => pure (.str ("技能執行失敗: ".toList ++ errText err)))

/-- The 20 names that have a `case` in the `switch` of `executeAISkill`. -/
def handledSkills : List String :=
  ["launch_app", "open_url", "open_path", "run_command", "clipboard_write",
   "clipboard_read", "system_info", "create_ppt", "create_docx", "create_xlsx",
   "write_file", "read_file", "list_files", "take_screenshot", "get_datetime",
   "search_web", "fetch_news", "kill_process", "set_volume", "notify"]

/-! ## callAI -/

/-- An entry `{ name, description, params }` of the catalog. -/
def catalogEntry (name description : String) (params : List (String × String)) : JVal :=
  .obj [("name".toList, .str name.toList), ("description".toList, .str description.toList),
    ("params".toList, .obj (params.map (fun p => (p.1.toList, JVal.str p.2.toList))))]

/-- The array `skills` that `callAI` sends with every request. -/
def skillCatalog : JVal :=
  .arr [
    catalogEntry "launch_app" "啟動應用程式" [("name", "string")],
    catalogEntry "open_url" "開啟網址" [("url", "string")],
    catalogEntry "open_path" "開啟檔案或資料夾" [("path", "string")],
    catalogEntry "run_command" "執行系統指令" [("command", "string")],
    catalogEntry "clipboard_write" "寫入剪貼簿" [("text", "string")],
    catalogEntry "clipboard_read" "讀取剪貼簿" [],
    catalogEntry "system_info" "取得系統資訊" [],
    catalogEntry "create_ppt"
      "建立PowerPoint簡報。theme可選: dark(科技), corporate(商務白底), nature(自然綠), warm(暖色), ocean(海洋藍), minimal(極簡黑白)。根據主題自動選擇最適合的theme。"
      [("title", "string"), ("slides_json", "[\x7b\"title\":\"...\",\"content\":\"...\"\x7d]"),
       ("theme", "string")],
    catalogEntry "create_docx" "建立Word文件" [("title", "string"), ("content", "string")],
    catalogEntry "create_xlsx" "建立Excel試算表"
      [("title", "string"), ("data_json", "[[\"col1\",\"col2\"],[\"val1\",\"val2\"]]")],
    catalogEntry "write_file" "寫入文字檔案" [("filename", "string"), ("content", "string")],
    catalogEntry "read_file" "讀取檔案內容" [("filepath", "string")],
    catalogEntry "list_files" "列出目錄中的檔案" [("directory", "string")],
    catalogEntry "take_screenshot" "截取螢幕截圖" [],
    catalogEntry "get_datetime" "取得目前日期時間" [],
    catalogEntry "search_web" "用瀏覽器搜尋網頁" [("query", "string")],
    catalogEntry "fetch_news" "搜尋網路資訊並回傳內容摘要(可用於蒐集資料再製作簡報/文件)"
      [("query", "string"), ("max_results", "number(預設5)")],
    catalogEntry "kill_process" "終止指定程序" [("process_name", "string")],
    catalogEntry "set_volume" "設定系統音量(0-100)" [("level", "number")],
    catalogEntry "notify" "發送Windows桌面通知" [("title", "string"), ("message", "string")]] []

/-- `typeof rawResponse === 'string' ? JSON.parse(rawResponse) : rawResponse`. -/
def parseRaw (rawResponse : JVal) : Except JsError JVal :=
  match rawResponse with
  | .str r => jsonParse r
  | v => .ok v

/-- The double-encoding step: when `data.text` is a non-empty string that
starts with `{` after leading white space and parses to an object having a
`text` or a `skill` key, that object replaces `data`; a parse error is
swallowed. -/
def unwrapDouble (data : JVal) : Except JsError JVal := do
  let text ← getProp data "text"
  match text with
  | .str t =>
    if truthy text && startsWith (trimStart t) ['{'] then
      match jsonParse t with
      | .ok inner =>
        if truthy inner && isObjectType inner && (hasKey inner "text" || hasKey inner "skill")
        then pure inner
        else pure data
      | .error _ => pure data
    else pure data
  | _ => pure data

/-- The expression
`(embedded.text || data.text.replace(jsonMatch[0], '')).trim() || '正在執行: ' + data.skill`,
where `m0` is `jsonMatch[0]`. -/
def hoistedText (h : Host) (data embedded : JVal) (m0 : Str) : Except JsError JVal := do
  let et ← getProp embedded "text"
  let cand ←
    if truthy et then pure et
    else do
      let dt ← getProp data "text"
      match dt with
      | .str t => pure (JVal.str (removeFirst m0 t))
      | _ => throw (typeError "data.text.replace is not a function")
  match cand with
  | .str c =>
    if (trim c).isEmpty then do
      let sk ← getProp data "skill"
      pure (.str ("正在執行: ".toList ++ toStr h sk))
    else pure (.str (trim c))
  | _ => throw (typeError "(intermediate value).trim is not a function")

/-- The three assignments inside `if (embedded.skill)`, in order: the error
thrown, if any, and `data` as it stands at that point. -/
def hoistEmbedded (h : Host) (data embedded : JVal) (m0 : Str) : Except JsError Unit × JVal :=
  match getProp embedded "skill" >>= setProp data "skill" with
  | .error e => (.error e, data)
  | .ok d1 =>
    match getProp embedded "args" >>= fun a => setProp d1 "args" (jsOr a (.obj [])) with
    | .error e => (.error e, d1)
    | .ok d2 =>
      match hoistedText h d2 embedded m0 >>= setProp d2 "text" with
      | .error e => (.error e, d2)
      | .ok d3 => (.ok (), d3)

/-- The embedded-JSON step: when `data.text` is a non-empty string in which
`embeddedRe` matches, the match is parsed and, if it has a truthy `skill`,
`skill`, `args` and `text` of `data` are assigned; an error inside the `try`
block is swallowed, whatever was assigned before it stays. -/
def extractEmbedded (h : Host) (data : JVal) : Except JsError JVal := do
  let text ← getProp data "text"
  match text with
  | .str t =>
    if truthy text then
      match reMatch false embeddedRe t with
      | none => pure data
      | some m =>
        match jsonParse m.whole with
        | .error _ => pure data
        | .ok embedded =>
          match getProp embedded "skill" with
          | .error _ => pure data
          | .ok sk => if truthy sk then pure (hoistEmbedded h data embedded m.whole).2 else pure data
    else pure data
  | _ => pure data

/-- The statement `if (!data.skill) data.skill = null`. -/
def skillSentinel (data : JVal) : Except JsError JVal := do
  let sk ← getProp data "skill"
  if truthy sk then pure data else setProp data "skill" .null

/-- The normalization of a parsed payload: lines 487 to 513 of `callAI`. -/
def normalizeReply (h : Host) (data : JVal) : Except JsError JVal :=
  unwrapDouble data >>= extractEmbedded h >>= skillSentinel

/-- `callAI` from the remote call on: the request, the normalization of the
reply and the assistant entry. -/
def callAIRequest (h : Host) (api : Api) : M JVal := do
  let history ← getHistory
  let rawResponse ← callApi api .chat_with_ai
    [h.jsonStringify (.arr history []), h.jsonStringify skillCatalog]
  let data ← liftE (parseRaw rawResponse)
  let data ← liftE (normalizeReply h data)
  let text ← liftE (getProp data "text")
  pushHistory (historyEntry "assistant" (jsOr text (.str [])))
  pure data

/-- `callAI(userMessage)`. -/
def callAI (h : Host) (api : Api) (userMessage : Str) : M JVal := do
  pushHistory (historyEntry "user" (.str userMessage))
  truncateHistory
  callAIRequest h api

/-! ## sendMessage -/

/-- The `if (reply.skill)` statement of `sendMessage`, both arms. -/
def showReply (h : Host) (api : Api) (reply : JVal) : M Unit := do
  let skill ← liftE (getProp reply "skill")
  if truthy skill then do
    let skill1 ← liftE (getProp reply "skill")
    let args ← liftE (getProp reply "args")
    let result ← executeAISkill h api skill1 args
    let text ← liftE (getProp reply "text")
    addMessage "assistant"
      (.str (toStr h text ++
        (if truthy result then
          "\n<div class=\"skill-result\">".toList ++ toStr h result ++ "</div>".toList
        else []))) false
    let text2 ← liftE (getProp reply "text")
    speak text2
    let skill2 ← liftE (getProp reply "skill")
    if strictEqStr skill2 "fetch_news" && truthy result then
      pushHistory (historyEntry "assistant" (.str ("已搜尋到以下資料：\n".toList ++ toStr h result)))
    else pure ()
  else do
    let text ← liftE (getProp reply "text")
    addMessage "assistant" (jsOr text reply) false
    let text2 ← liftE (getProp reply "text")
    speak (jsOr text2 reply)

/-- `sendMessage(text)` for the text of the input box. -/
def sendMessage (h : Host) (api : Api) (text : Str) : M Unit :=
  if text.isEmpty then pure ()
  else do
    emit .inputCleared
    addMessage "user" (.str text) false
    let skillRes ← tryLocalSkill h api text
    if truthy skillRes then do
      let message ← liftE (getProp skillRes "message")
      let isSkill ← liftE (getProp skillRes "isSkill")
      addMessage "assistant" message (truthy isSkill)
      let speakText ← liftE (getProp skillRes "speakText")
      let message2 ← liftE (getProp skillRes "message")
      speak (jsOr speakText message2)
    else do
      showTyping
      tryCatchM
        (do
          let reply ← callAI h api text
          hideTyping
          showReply h api reply)
        (fun err => do
          hideTyping
          addMessage "assistant"
            (.str ("[Error]無法連線到 AI 後端。\n".toList ++ errText err ++
              "\n\n請確認 Colab 是否已啟動。".toList)) false)

/-- A turn of the conversation: `sendMessage(text)`, or `callAI(text)` on its
own, with the behaviour of the bridge during the turn. -/
inductive Turn where
  | send (api : Api) (text : Str)
  | ask (api : Api) (text : Str)

/-- The state after a turn; a turn that rejects leaves the state it reached. -/
def runTurn (h : Host) (t : Turn) (s : St) : St :=
  match t with
  | .send api text => (sendMessage h api text s).2
  | .ask api text => (callAI h api text s).2

/-- The state after a sequence of turns. -/
def runTurns (h : Host) : List Turn → St → St
  | [], s => s
  | t :: rest, s => runTurns h rest (runTurn h t s)

/-! ## A concrete host -/

/-- Decimal digits of a natural number, `fuel` bounding their count. -/
def natDigits : Nat → Nat → Str
  | 0, _ => []
  | fuel + 1, n =>
    if n < 10 then [Char.ofNat (48 + n)]
    else natDigits fuel (n / 10) ++ [Char.ofNat (48 + n % 10)]

/-- Number formatting of `stdHost`: an integer is printed in decimal, as
JavaScript prints integers below `10 ^ 21`; other numbers are printed as
mantissa and exponent. -/
def stdNumToString (m e : Int) : Str :=
  let digits (k : Int) : Str :=
    (if k < 0 then ['-'] else []) ++ natDigits (k.natAbs + 1) k.natAbs
  if e == 0 then digits m else digits m ++ 'e' :: digits e

/-- The two hexadecimal digits of a number below 256. -/
def hex2 (n : Nat) : Str :=
  let d (k : Nat) : Char := if k < 10 then Char.ofNat (48 + k) else Char.ofNat (87 + k)
  [d (n / 16), d (n % 16)]

/-- A string literal of JSON, quoted and escaped as `JSON.stringify` does. -/
def quoteJson (s : Str) : Str :=
  '"' :: (s.flatMap (fun c =>
    if c == '"' then ['\\', '"']
    else if c == '\\' then ['\\', '\\']
    else if c.toNat == 8 then ['\\', 'b']
    else if c.toNat == 12 then ['\\', 'f']
    else if c.toNat == 10 then ['\\', 'n']
    else if c.toNat == 13 then ['\\', 'r']
    else if c.toNat == 9 then ['\\', 't']
    else if c.toNat < 32 then '\\' :: 'u' :: '0' :: '0' :: hex2 c.toNat
    else [c])) ++ ['"']

mutual
/-- Text of a value as `JSON.stringify` writes it inside a document. -/
def stringifyVal : JVal → Str
  | .undefined => "null".toList
  | .null => "null".toList
  | .bool b => if b then "true".toList else "false".toList
  | .num m e => stdNumToString m e
  | .str s => quoteJson s
  | .arr xs _ => '[' :: stringifyElems xs ++ [']']
  | .obj ps => '{' :: stringifyMembers false ps ++ ['}']
termination_by structural v => v
/-- Elements of an array, separated by commas. -/
def stringifyElems : List JVal → Str
  | [] => []
  | x :: r =>
    stringifyVal x ++
    (match r with
      | [] => []
      | _ => ',' :: stringifyElems r)
termination_by structural l => l
/-- Members of an object; a member whose value is `undefined` is left out.
`sep` tells whether a member was written before. -/
def stringifyMembers (sep : Bool) : List (Str × JVal) → Str
  | [] => []
  | (k, v) :: r =>
    match v with
    | .undefined => stringifyMembers sep r
    | _ => (if sep then [','] else []) ++ quoteJson k ++ ':' :: stringifyVal v ++
        stringifyMembers true r
termination_by structural l => l
end

/-- A host for concrete runs: `toLowerCase` lowers ASCII letters (which is
what it does on text whose cased letters are ASCII). -/
def stdHost : Host where
  toLowerCase := fun s => s.map asciiLower
  numToString := stdNumToString
  jsonStringify := fun v =>
    match v with
    | .undefined => .undefined
    | _ => .str (stringifyVal v)

/-- A bridge on which every call resolves with the envelope
`{"success":true,"message":"ok"}`. -/
def okApi : Api := fun _ _ => .ok (.str "\x7b\"success\":true,\"message\":\"ok\"\x7d".toList)

/-- The state of a freshly constructed assistant. -/
def St.init : St := ⟨[], true, true, []⟩

/-! ## Specification-level definitions -/

/-- The history as `callAI` sends it: the old history with the user entry
pushed, cut to its last 40 entries. -/
def sentHistory (history : List JVal) (userMessage : Str) : List JVal :=
  if (history ++ [historyEntry "user" (.str userMessage)]).length > 40 then
    (history ++ [historyEntry "user" (.str userMessage)]).drop
      ((history ++ [historyEntry "user" (.str userMessage)]).length - 40)
  else history ++ [historyEntry "user" (.str userMessage)]

/-- A computation that only appends events `evs` to the trace, every bridge
call among them being to a capability in `P`; and when the bridge rejects one
of the calls made, the computation throws that very error. -/
def Tracks {α : Type} (api : Api) (P : Cap → Prop) (x : M α) : Prop :=
  ∀ s, ∃ evs, (x s).2 = { s with log := s.log ++ evs } ∧
    ∀ cap as, Event.call cap as ∈ evs →
      P cap ∧ ∀ e, api cap as = .error e → (x s).1 = .error e

/-- A computation that only appends events to the trace, every bridge call
among them being to a capability in `P`. -/
def Frame {α : Type} (P : Cap → Prop) (x : M α) : Prop :=
  ∀ s, ∃ evs, (x s).2 = { s with log := s.log ++ evs } ∧
    ∀ cap as, Event.call cap as ∈ evs → P cap

/-- A branch of the local matcher, as the specification describes it: when it
applies to an input, and what it does. -/
structure Branch where
  applies : Host → Str → Bool
  run : Host → Api → Str → M JVal

/-- The branches in their declared order: the eight launch items, system
information, clipboard, screenshot, date/time, web search (unless the
composite pattern matches), file listing, raw URL. -/
def localBranches : List Branch :=
  launchPatterns.map (fun item =>
    { applies := fun h text => someIncluded (h.toLowerCase text) item.patterns,
      run := fun _ api _ => launchBranch api item }) ++
  [ { applies := fun h text => someIncluded (h.toLowerCase text) systemInfoPhrases,
      run := fun h api _ => systemInfoBranch h api },
    { applies := fun h text => someIncluded (h.toLowerCase text) clipboardPhrases,
      run := fun h api _ => clipboardBranch h api },
    { applies := fun h text => someIncluded (h.toLowerCase text) screenshotPhrases,
      run := fun h api _ => screenshotBranch h api },
    { applies := fun h text => someIncluded (h.toLowerCase text) datetimePhrases,
      run := fun h api _ => datetimeBranch h api },
    { applies := fun _ text =>
        (reMatch true compositeRe text).isNone && (reMatch true searchRe text).isSome,
      run := fun h api text =>
        match reMatch true searchRe text with
        | some m => searchBranch h api m
        | none => pure .null },
    { applies := fun h text => someIncluded (h.toLowerCase text) listFilesPhrases,
      run := fun h api _ => listFilesBranch h api },
    { applies := fun _ text => (reMatch true urlRe text).isSome,
      run := fun h api text =>
        match reMatch true urlRe text with
        | some m => urlBranch h api m
        | none => pure .null } ]

/-- The matcher as the specification states it: the earliest branch that
applies is run, and `null` is returned when none applies. -/
def tryLocalSkillSpec (h : Host) (api : Api) (text : Str) : M JVal :=
  match localBranches.find? (fun b => b.applies h text) with
  | some b => b.run h api text
  | none => pure .null

/-- What it means for `r` to match a head of `s` and leave `t`: the
declarative reading of the pattern, without priorities. -/
def Re.Matches (ic : Bool) : Re → Str → Str → Prop
  | .eps, s, t => t = s
  | .chr c, s, t => ∃ d, s = d :: t ∧ charMatches ic c d = true
  | .cls p, s, t => ∃ d, s = d :: t ∧ p d = true
  | .seq a b, s, t => ∃ m, Re.Matches ic a s m ∧ Re.Matches ic b m t
  | .alt a b, s, t => Re.Matches ic a s t ∨ Re.Matches ic b s t
  | .star p, s, t => ∃ u, s = u ++ t ∧ ∀ c ∈ u, p c = true
  | .group r, s, t => Re.Matches ic r s t

/-- The word `w'` is the word `w` up to the case of ASCII letters. -/
def SameWord (w : String) (w' : Str) : Prop :=
  List.Forall₂ (fun c d => charMatches true c d = true) w.toList w'

/-- The input holds, on one line, a connector, later a verb, later a noun of
the composite pattern (case-insensitively): what `compositeRe` looks for. -/
def HasCompositePhrase (text : Str) : Prop :=
  ∃ (a conn b verb c noun d : Str) (conn0 verb0 noun0 : String),
    text = a ++ conn ++ b ++ verb ++ c ++ noun ++ d ∧
    conn0 ∈ ["然後", "再", "接著", "並", "且"] ∧ SameWord conn0 conn ∧
    verb0 ∈ ["做成", "製作", "建立", "產生"] ∧ SameWord verb0 verb ∧
    noun0 ∈ ["簡報", "文件", "報告", "PPT", "Word", "Excel"] ∧ SameWord noun0 noun ∧
    (∀ x ∈ b, isLineTerminator x = false) ∧ (∀ x ∈ c, isLineTerminator x = false)

/-- A computation that never returns `null`. -/
def NonNull (x : M JVal) : Prop := ∀ s, (x s).1 ≠ .ok .null

/-- A computation that only appends to the history, at most `n` entries. -/
def Appends {α : Type} (n : Nat) (x : M α) : Prop :=
  ∀ s, ∃ added, (x s).2.conversationHistory = s.conversationHistory ++ added ∧
    added.length ≤ n

/-- What a turn on the user text `u` does to the history: nothing, or the
history is replaced by the one sent to the remote model, followed by at most
two more entries. -/
def TurnHist {α : Type} (u : Str) (x : M α) : Prop :=
  ∀ s, (x s).2.conversationHistory = s.conversationHistory ∨
    ∃ added, (x s).2.conversationHistory = sentHistory s.conversationHistory u ++ added ∧
      added.length ≤ 2

/-- A bridge whose `chat_with_ai` resolves with the string `raw` and whose
other calls resolve as those of `okApi`. -/
def replyApi (raw : String) : Api := fun cap args =>
  match cap with
  | .chat_with_ai => .ok (.str raw.toList)
  | _ => okApi cap args

/-- A bridge on which every call resolves with the string `oops`, which is
not JSON. -/
def malformedApi : Api := fun _ _ => .ok (.str "oops".toList)

/-- A bridge on which every call is rejected. -/
def rejectingApi : Api := fun _ _ => .error ⟨"Error".toList, "bridge down".toList⟩

/-- The arguments of the `chat_with_ai` call that `callAI(u)` makes from the
state `s`. -/
def chatArgs (h : Host) (s : St) (u : Str) : List JVal :=
  [h.jsonStringify (.arr (sentHistory s.conversationHistory u) []),
   h.jsonStringify skillCatalog]

/-- The text has, somewhere in it, a run of characters that parses as a JSON
value with a `skill` key. -/
def EmbedsSkill (t : Str) : Prop :=
  ∃ (a J b : Str) (v : JVal), t = a ++ J ++ b ∧ jsonParse J = .ok v ∧ hasKey v "skill" = true

/-- The text contains no embedded skill object, neither as it stands nor in
the text of the reply it double-encodes. -/
def NoSkillObject (t : Str) : Prop :=
  ¬ EmbedsSkill t ∧
  ∀ (v : JVal) (t2 : Str), jsonParse t = .ok v → getProp v "text" = .ok (.str t2) →
    ¬ EmbedsSkill t2

/-- What follows the last occurrence of `c` in a string. -/
def afterLast (c : Char) : Str → Option Str
  | [] => none
  | d :: t =>
    match afterLast c t with
    | some r => some r
    | none => if d == c then some t else none

/-- The continuation of a pattern that ends with the literal character `c`:
what the matcher does with the rest `t` when only that literal is left. -/
def closeWith {α : Type} (c : Char) (g : Str → Option α) (t : Str) : Option α :=
  match t with
  | d :: r => if charMatches false c d then g r else none
  | [] => none

/-- The part of `embeddedRe` before its last `[\s\S]*\}`. -/
def embeddedHead : Re :=
  Re.seqs [.chr '{', .star anyChar, Re.lit "\"skill\"", .star isJsSpace, .chr ':',
    .star anyChar, Re.lit "\"args\"", .star isJsSpace, .chr ':']

/-- The text `{"skill":S,"args":A}`: how `JSON.stringify` writes an object
whose keys are `skill` and `args`, in that order, `S` and `A` being the texts
of the two values. -/
def skillJson (S A : Str) : Str :=
  "\x7b\"skill\":".toList ++ S ++ ",\"args\":".toList ++ A ++ ['}']

/-- The state in which `sendMessage(text)`, started from `s`, handles the
reply of the remote model: no local branch applied, `callAI` returned a reply
whose text is `replyText`, and the typing indicator was removed. -/
def replyState (h : Host) (s : St) (text : Str) (replyText : JVal) : St :=
  { s with
    conversationHistory := sentHistory s.conversationHistory text ++
      [historyEntry "assistant" (jsOr replyText (.str []))],
    log := s.log ++
      [.inputCleared, .message "user".toList (.str text) false, .typingShown,
       .call .chat_with_ai (chatArgs h s text), .typingHidden] }

/-- A bridge whose `chat_with_ai` resolves with a reply that asks for the
skill `fetch_news`, whose `fetch_news` resolves with the envelope
`{"success":true,"message":<message>}`, and whose other calls resolve as
those of `okApi`. -/
def newsApi (message : String) : Api := fun cap args =>
  match cap with
  | .chat_with_ai => .ok (.str
      "\x7b\"text\":\"news\",\"skill\":\"fetch_news\",\"args\":\x7b\"query\":\"x\"\x7d\x7d".toList)
  | .fetch_news => .ok (.str
      ("\x7b\"success\":true,\"message\":\"".toList ++ message.toList ++ "\"\x7d".toList))
  | _ => okApi cap args

/-- The exponent part of a JSON number: what `parseNumber` does once the
integer and fraction digits `digits` are read, with `fracLen` fraction digits,
`lenSoFar` characters consumed and `s3` left. -/
def numExp (neg : Bool) (digits : Str) (fracLen lenSoFar : Nat) (s3 : Str) :
    Option (Int × Int × Nat) :=
  let hasExp : Bool := s3.head? == some 'e' || s3.head? == some 'E'
  let s4 := s3.drop 1
  let hasSign : Bool := s4.head? == some '+' || s4.head? == some '-'
  let s5 := if hasSign then s4.drop 1 else s4
  let expDs : Str := if hasExp then takeDigits s5 else []
  if hasExp && expDs.isEmpty then none
  else
    let mag : Int := (digitsVal digits : Nat)
    let ex : Int := (digitsVal expDs : Nat)
    let len := lenSoFar +
      (if hasExp then 1 + (if hasSign then 1 else 0) + expDs.length else 0)
    some (if neg then -mag else mag,
          (if s4.head? == some '-' then -ex else ex) - (fracLen : Int), len)

/-- The fraction part of a JSON number: what `parseNumber` does once the
integer digits `intDs` are read and `s2` is left. -/
def numFrac (neg : Bool) (intDs s2 : Str) : Option (Int × Int × Nat) :=
  let fracDs : Str := if s2.head? == some '.' then takeDigits (s2.drop 1) else []
  if s2.head? == some '.' && fracDs.isEmpty then none
  else
    numExp neg (intDs ++ fracDs) fracDs.length
      ((if neg then 1 else 0) + intDs.length +
        (if s2.head? == some '.' then 1 + fracDs.length else 0))
      (if s2.head? == some '.' then s2.drop (1 + fracDs.length) else s2)

/-- The integer part of a JSON number: what `parseNumber` does after the
sign, with `s1` left. -/
def numInt (neg : Bool) (s1 : Str) : Option (Int × Int × Nat) :=
  let intDs : Str := if s1.head? == some '0' then ['0'] else takeDigits s1
  if intDs.isEmpty then none else numFrac neg intDs (s1.drop intDs.length)

/-! ## SkillRegistry -/

/-- A value thrown by a skill handler (or the reason its promise is rejected
with): an `Error` object, or any other value. -/
inductive Thrown where
  | error (e : JsError)
  | value (v : JVal)

/-- `err.message` for a caught value: the message of an `Error`; a property
read for any other value, which throws on `undefined` and `null`. -/
def Thrown.message : Thrown → Except JsError JVal
  | .error e => .ok (.str e.message)
  | .value v => getProp v "message"

/-- The `handler` of a definition: a function, given by what awaiting its
call comes to, or a value that cannot be called. -/
inductive Handler where
  | fn (f : JVal → Except Thrown JVal)
  | notCallable

/-- The `definition` object passed to `register`; a field that is missing is
`undefined`. -/
structure SkillDefinition where
  description : JVal
  parameters : JVal
  handler : Handler
  category : JVal
  confirmRequired : JVal

/-- An entry of the registry. -/
structure Skill where
  name : Str
  description : JVal
  parameters : JVal
  handler : Handler
  category : JVal
  confirmRequired : JVal

/-- The `Map` `this.skills`, keyed by skill name (a string), in insertion
order. -/
abbrev SkillMap := List (Str × Skill)

/-- `Map.prototype.get`. -/
def SkillMap.get (m : SkillMap) (name : Str) : Option Skill :=
  match m with
  | [] => none
  | (k, v) :: r => if k == name then some v else SkillMap.get r name

/-- `Map.prototype.set`: an existing key keeps its place and takes the new
value, a new key goes last. -/
def SkillMap.set (m : SkillMap) (name : Str) (skill : Skill) : SkillMap :=
  match m with
  | [] => [(name, skill)]
  | (k, v) :: r => if k == name then (k, skill) :: r else (k, v) :: SkillMap.set r name skill

/-- The entry that `register(name, definition)` stores. -/
def SkillRegistry.entry (name : Str) (definition : SkillDefinition) : Skill :=
  { name := name
    description := definition.description
    parameters := jsOr definition.parameters (.obj [])
    handler := definition.handler
    category := jsOr definition.category (.str "general".toList)
    confirmRequired := jsOr definition.confirmRequired (.bool false) }

/-- `register(name, definition)`. -/
def SkillRegistry.register (skills : SkillMap) (name : Str) (definition : SkillDefinition) :
    SkillMap :=
  skills.set name (SkillRegistry.entry name definition)

/-- The default parameter `args = {}`: it applies when the argument is
`undefined`. -/
def defaultArgs (args : JVal) : JVal :=
  match args with
  | .undefined => .obj []
  | a => a

/-- `execute(name, args)`: the value returned or the error thrown, and the
handler calls made (skill name and arguments). -/
def SkillRegistry.execute (skills : SkillMap) (name : Str) (args : JVal) :
    Except JsError JVal × List (Str × JVal) :=
  match skills.get name with
  | none =>
    (.ok (.obj [("success".toList, .bool false),
      ("error".toList, .str ("Skill not found: ".toList ++ name))]), [])
  | some skill =>
    match skill.handler with
    | .notCallable =>
      (.ok (.obj [("success".toList, .bool false),
        ("error".toList, .str "skill.handler is not a function".toList)]), [])
    | .fn f =>
      match f (defaultArgs args) with
      | .ok result =>
        (.ok (.obj [("success".toList, .bool true), ("result".toList, result)]),
          [(name, defaultArgs args)])
      | .error err =>
        match err.message with
        | .ok msg =>
          (.ok (.obj [("success".toList, .bool false), ("error".toList, msg)]),
            [(name, defaultArgs args)])
        | .error e => (.error e, [(name, defaultArgs args)])

/-- `list()`: one object `{ name, description, parameters, category }` per
entry, in the order of the map. -/
def SkillRegistry.list (skills : SkillMap) : List JVal :=
  skills.map fun entry =>
    .obj [("name".toList, .str entry.1), ("description".toList, entry.2.description),
      ("parameters".toList, entry.2.parameters), ("category".toList, entry.2.category)]

/-- `v.key` for a value `v` that is an object. -/
def propOf (v : JVal) (key : String) : JVal :=
  match v with
  | .obj ps => lookupProp key.toList ps
  | .arr _ ps => lookupProp key.toList ps
  | _ => .undefined

/-- `parts.join(sep)` for an array of strings. -/
def joinWith (sep : Str) : List Str → Str
  | [] => []
  | [x] => x
  | x :: y :: r => x ++ sep ++ joinWith sep (y :: r)

/-- The line `- name: description (params: <JSON of parameters>)` of the
template literal in `toPromptDescription`. -/
def promptLine (h : Host) (name description parameters : JVal) : Str :=
  "- ".toList ++ toStr h name ++ ": ".toList ++ toStr h description ++
    " (params: ".toList ++ toStr h (h.jsonStringify parameters) ++ ")".toList

/-- `toPromptDescription()`. -/
def SkillRegistry.toPromptDescription (h : Host) (skills : SkillMap) : Str :=
  joinWith ['\n'] ((SkillRegistry.list skills).map fun s =>
    promptLine h (propOf s "name") (propOf s "description") (propOf s "parameters"))

/-- The registry after a sequence of `register` calls. -/
def SkillRegistry.registerAll (skills : SkillMap) :
    List (Str × SkillDefinition) → SkillMap
  | [] => skills
  | (name, definition) :: rest =>
    SkillRegistry.registerAll (SkillRegistry.register skills name definition) rest

/-! ## The chat handler of the main process -/

/-- An error caught in the main process: the fields the handlers read. -/
structure NodeError where
  code : JVal
  name : Str
  message : Str

/-- A `JsError` seen as an error of the main process; it has no `code`. -/
def NodeError.ofJs (e : JsError) : NodeError := ⟨.undefined, e.name, e.message⟩

/-- A response of `fetch`: `response.ok`, `response.status` and what
`await response.json()` comes to. -/
structure FetchResponse where
  ok : Bool
  status : JVal
  json : Except NodeError JVal

/-- The network: what `await fetch(url, options)` comes to, given the URL and
the body of the request (`undefined` for a request without one). -/
abbrev Fetch := Str → JVal → Except NodeError FetchResponse

/-- `loadSettings()`: the parsed settings file, or `{}` when it cannot be read
or parsed. `file` is the text of the file, if it can be read. -/
def loadSettings (file : Option Str) : JVal :=
  match file with
  | none => .obj []
  | some s =>
    match jsonParse s with
    | .ok v => v
    | .error _ => .obj []

/-- The `try` block of the chat handler: the value returned or the error
thrown, and the requests made (URL and body). -/
def chatRequest (h : Host) (net : Fetch) (apiUrl messagesJson skillsJson : JVal) :
    Except NodeError JVal × List (Str × JVal) :=
  match parseRaw messagesJson with
  | .error e => (.error (NodeError.ofJs e), [])
  | .ok messages =>
    match parseRaw skillsJson with
    | .error e => (.error (NodeError.ofJs e), [])
    | .ok skills =>
      let url := toStr h apiUrl ++ "/chat".toList
      let body := h.jsonStringify
        (.obj [("messages".toList, messages), ("skills".toList, skills)])
      match net url body with
      | .error e => (.error e, [(url, body)])
      | .ok response =>
        if response.ok then
          match response.json with
          | .ok v => (.ok (h.jsonStringify v), [(url, body)])
          | .error e => (.error e, [(url, body)])
        else
          (.ok (h.jsonStringify (.obj [("text".toList,
            .str ("[Error] API: ".toList ++ toStr h response.status))])), [(url, body)])

/-- The handler of `skill:chat-with-ai`: the value it resolves with or the
error it rejects with, and the requests made. -/
def chatWithAiHandler (h : Host) (file : Option Str) (net : Fetch)
    (messagesJson skillsJson : JVal) : Except NodeError JVal × List (Str × JVal) :=
  match getProp (loadSettings file) "apiUrl" with
  | .error e => (.error (NodeError.ofJs e), [])
  | .ok u =>
    if !truthy (jsOr u (.str [])) then
      (.ok (h.jsonStringify (.obj [("text".toList,
        .str "[Error] 尚未設定 Colab API URL，請點擊齒輪設定。".toList)])), [])
    else
      match chatRequest h net (jsOr u (.str [])) messagesJson skillsJson with
      | (.ok v, reqs) => (.ok v, reqs)
      | (.error err, reqs) =>
        if strictEqStr err.code "ECONNREFUSED" || err.name == "FetchError".toList ||
            strictEqStr err.code "ENOTFOUND" then
          (.ok (h.jsonStringify (.obj [("text".toList,
            .str "[Error] 無法連線到 AI 後端，請確認 Colab 是否已啟動。".toList)])), reqs)
        else
          (.ok (h.jsonStringify (.obj [("text".toList,
            .str ("[Error] ".toList ++ err.message))])), reqs)

/-! ## The health check of the main process -/

/-- The handler of `skill:check-health`: the value it resolves with or the
error it rejects with, and the requests made (URL and body; the request to
`/health` has no body). An error thrown inside the `try` block, by the
request, by the read of the body or by the read of `data.model`, is dropped
by the empty `catch` clause, and the handler goes on to its last `return`. -/
def checkHealthHandler (h : Host) (file : Option Str) (net : Fetch) :
    Except NodeError JVal × List (Str × JVal) :=
  match getProp (loadSettings file) "apiUrl" with
  | .error e => (.error (NodeError.ofJs e), [])
  | .ok u =>
    if !truthy (jsOr u (.str [])) then
      (.ok (h.jsonStringify (.obj [("connected".toList, .bool false),
        ("message".toList, .str "未設定".toList)])), [])
    else
      let url := toStr h (jsOr u (.str [])) ++ "/health".toList
      let notConnected := h.jsonStringify (.obj [("connected".toList, .bool false),
        ("message".toList, .str "未連線 - 請啟動 Colab".toList)])
      match net url .undefined with
      | .error _ => (.ok notConnected, [(url, .undefined)])
      | .ok response =>
        if response.ok then
          match response.json with
          | .error _ => (.ok notConnected, [(url, .undefined)])
          | .ok data =>
            match getProp data "model" with
            | .error _ => (.ok notConnected, [(url, .undefined)])
            | .ok model =>
              (.ok (h.jsonStringify (.obj [("connected".toList, .bool true),
                ("message".toList, .str ("已連線 - ".toList ++
                  toStr h (jsOr model (.str "AI Ready".toList))))])), [(url, .undefined)])
        else (.ok notConnected, [(url, .undefined)])

/-! ## The catalog and the switch -/

/-- The name under which the page calls a capability of the bridge. -/
def Cap.name : Cap → String
  | .launch_app => "launch_app"
  | .open_url => "open_url"
  | .open_path => "open_path"
  | .run_command => "run_command"
  | .clipboard_write => "clipboard_write"
  | .clipboard_read => "clipboard_read"
  | .system_info => "system_info"
  | .create_ppt => "create_ppt"
  | .create_docx => "create_docx"
  | .create_xlsx => "create_xlsx"
  | .write_file => "write_file"
  | .read_file => "read_file"
  | .list_files => "list_files"
  | .take_screenshot => "take_screenshot"
  | .get_datetime => "get_datetime"
  | .search_web => "search_web"
  | .fetch_news => "fetch_news"
  | .kill_process => "kill_process"
  | .set_volume => "set_volume"
  | .notify => "notify"
  | .chat_with_ai => "chat_with_ai"

/-- The `name` of each entry of an array of catalog entries, in order. -/
def entryNames : JVal → List JVal
  | .arr entries _ => entries.map (fun e => match e with
      | .obj ps => lookupProp "name".toList ps
      | _ => .undefined)
  | _ => []

/-- The skill names that `callAI` advertises. -/
def advertisedNames : List JVal := entryNames skillCatalog

/-- The computation never changes the state. -/
def Quiet {α : Type} (x : M α) : Prop := ∀ s, (x s).2 = s

/-- The computation throws before any bridge call, leaving the state as it
was, or calls the capability `cap` once and changes nothing else. -/
def CallsOnce {α : Type} (cap : Cap) (x : M α) : Prop :=
  ∀ s, (∃ e, x s = (.error e, s)) ∨
    (∃ as, (x s).2 = { s with log := s.log ++ [.call cap as] })

/-! ## MCPClient -/

/-- A value of the map `this.servers`: `{ config, tools, status }`. `tools` is
`[]` after `registerServer` and `data.tools || []`, whatever the server sent,
after `connectServer`; `status` is one of the strings the class assigns. -/
structure McpServer where
  config : JVal
  tools : JVal
  status : Str

/-- The map `this.servers`, as the list of its entries in iteration order
(the order in which the keys were first registered). -/
abbrev McpServers := List (JVal × McpServer)

/-- The values that `for (const tool of v)` visits: the elements of an array,
the characters of a string; any other value of the model is not iterable. -/
def iterate (v : JVal) : Except JsError (List JVal) :=
  match v with
  | .arr elems _ => .ok elems
  | .str s => .ok (s.map (fun c => JVal.str [c]))
  | _ => .error (typeError "server.tools is not iterable")

/-- The object pushed for one tool:
`{ server, name, description, parameters }`. -/
def toolEntry (serverId tool : JVal) : Except JsError JVal := do
  let name ← getProp tool "name"
  let description ← getProp tool "description"
  let inputSchema ← getProp tool "inputSchema"
  let schema ← if truthy inputSchema then pure inputSchema else getProp tool "parameters"
  pure (.obj [("server".toList, serverId), ("name".toList, name),
    ("description".toList, description),
    ("parameters".toList, jsOr schema (.obj []))])

/-- The inner loop of `getAllTools`: the entries pushed for one server. -/
def pushTools (serverId : JVal) : List JVal → List JVal → Except JsError (List JVal)
  | [], tools => .ok tools
  | tool :: rest, tools => do
    let entry ← toolEntry serverId tool
    pushTools serverId rest (tools ++ [entry])

/-- The outer loop of `getAllTools`, from the entries of the map still to
visit and the array `tools` built so far. -/
def getAllToolsLoop : McpServers → List JVal → Except JsError (List JVal)
  | [], tools => .ok tools
  | (serverId, server) :: rest, tools =>
    if server.status != "connected".toList then getAllToolsLoop rest tools
    else do
      let serverTools ← iterate server.tools
      let tools1 ← pushTools serverId serverTools tools
      getAllToolsLoop rest tools1

/-- `getAllTools()`: the array returned, or the error thrown. -/
def MCPClient.getAllTools (servers : McpServers) : Except JsError JVal :=
  (getAllToolsLoop servers []).map (fun tools => JVal.arr tools [])

/-- The entry that describes a tool that is an object:
`parameters` is `tool.inputSchema || tool.parameters || {}`. -/
def describeTool (serverId tool : JVal) : JVal :=
  .obj [("server".toList, serverId), ("name".toList, propOf tool "name"),
    ("description".toList, propOf tool "description"),
    ("parameters".toList,
      jsOr (jsOr (propOf tool "inputSchema") (propOf tool "parameters")) (.obj []))]

/-- The elements of a value that is an array. -/
def elementsOf : JVal → List JVal
  | .arr elems _ => elems
  | _ => []

/-- The entries the connected servers account for: servers in the order of
the map, the tools of each in their stored order. -/
def connectedTools : McpServers → List JVal
  | [] => []
  | (serverId, server) :: rest =>
    (if server.status = "connected".toList then
      (elementsOf server.tools).map (describeTool serverId)
    else []) ++ connectedTools rest

/-- The tool lists are well formed: the tools of every connected server are
an array none of whose elements is `null` or `undefined`. -/
def ToolListsOk (servers : McpServers) : Prop :=
  ∀ p ∈ servers, p.2.status = "connected".toList →
    ∃ elems props, p.2.tools = .arr elems props ∧
      ∀ t ∈ elems, t ≠ .null ∧ t ≠ .undefined

/-! ## The search pattern -/

/-- The keywords of `searchRe`, in the order of its alternation. -/
def searchKeywords : List String := ["搜尋", "搜索", "查詢", "search", "幫我查", "幫我搜"]

/-- The rest of `s` after the word `w` at its head, compared the way the
matcher compares a literal. -/
def stripWord (ic : Bool) : Str → Str → Option Str
  | [], s => some s
  | _ :: _, [] => none
  | c :: w, d :: s => if charMatches ic c d then stripWord ic w s else none

/-- Two words agree, up to the case of ASCII letters, as far as both go. -/
def overlap : Str → Str → Bool
  | c :: w1, d :: w2 => asciiUpper c == asciiUpper d && overlap w1 w2
  | _, _ => true

/-- The text matches the search pattern: somewhere in it stands a keyword
(up to the case of ASCII letters) followed, after any white space, by a
character that is not a line terminator. -/
def HasSearchPhrase (text : Str) : Prop :=
  ∃ (a kw ws : Str) (d : Char) (b : Str) (k : String),
    text = a ++ kw ++ ws ++ d :: b ∧ k ∈ searchKeywords ∧ SameWord k kw ∧
    (∀ x ∈ ws, isJsSpace x = true) ∧ isLineTerminator d = false

/-! ## Skill handlers of the main process -/

/-- What a handler registered with `ipcMain.handle` comes to: the promise it
returns resolves with a value, rejects with an error, or never settles (an
exception thrown inside a callback of `exec` leaves the promise pending). -/
inductive Settled where
  | resolved (v : JVal)
  | rejected (e : NodeError)
  | pending

/-- The value of `cmd` in the handler of `skill:launch-app`: a string, or one
of the two values that the lookup `appMap[key]` finds on `Object.prototype`
for a key that is its own lower-case form. -/
inductive Command where
  | text (s : Str)
  | objectConstructor
  | objectPrototype

/-- The command inside a template literal. -/
def Command.toStr : Command → Str
  | .text s => s
  | .objectConstructor => "function Object() \x7b [native code] \x7d".toList
  | .objectPrototype => "[object Object]".toList

/-- What one call of `exec(command, options, callback)` comes to: it throws
at once (an argument it does not accept), or it runs the command and calls
back with or without an error. -/
inductive ExecOutcome where
  | threw (e : NodeError)
  | failed
  | succeeded

/-- The table `appMap` of the handler of `skill:launch-app`. -/
def appMap : List (String × String) := [
  ("notepad", "notepad.exe"), ("記事本", "notepad.exe"),
  ("calculator", "calc.exe"), ("計算機", "calc.exe"),
  ("browser", "start https://www.google.com"), ("瀏覽器", "start https://www.google.com"),
  ("explorer", "explorer.exe"), ("檔案總管", "explorer.exe"),
  ("cmd", "cmd.exe"), ("terminal", "wt.exe"), ("終端機", "wt.exe"),
  ("vscode", "code"), ("spotify", "start spotify:"), ("discord", "start discord:")]

/-- `appMap[key] || appName` for a string `appName`: the entry of the table,
an inherited property, or `appName` itself. The entries are non-empty
strings and the inherited values are objects, all truthy. -/
def launchCommand (key appName : Str) : Command :=
  match appMap.find? (fun p => p.1.toList == key) with
  | some p => .text p.2.toList
  | none =>
    if key == "constructor".toList then .objectConstructor
    else if key == "__proto__".toList then .objectPrototype
    else .text appName

/-- The object `{ success, message }`. -/
def envelope (success : Bool) (message : Str) : JVal :=
  .obj [("success".toList, .bool success), ("message".toList, .str message)]

/-- The handler of `skill:launch-app`: what its promise comes to, and the
commands given to `exec`. The read `appName.toLowerCase()` stands before the
promise is made and outside any `try`. -/
def launchAppHandler (h : Host) (exec : Command → ExecOutcome) (appName : JVal) :
    Settled × List Command :=
  match appName with
  | .str name =>
    let cmd := launchCommand (h.toLowerCase name) name
    let first := Command.text ("start \"\" \"".toList ++ cmd.toStr ++ "\"".toList)
    match exec first with
    | .threw e => (.rejected e, [first])
    | .succeeded => (.resolved (envelope true ("已啟動: ".toList ++ name)), [first])
    | .failed =>
      match exec cmd with
      | .threw _ => (.pending, [first, cmd])
      | .failed => (.resolved (envelope false ("無法啟動: ".toList ++ name)), [first, cmd])
      | .succeeded => (.resolved (envelope true ("已啟動: ".toList ++ name)), [first, cmd])
  | .undefined =>
    (.rejected (NodeError.ofJs
      (typeError "Cannot read properties of undefined (reading 'toLowerCase')")), [])
  | .null =>
    (.rejected (NodeError.ofJs
      (typeError "Cannot read properties of null (reading 'toLowerCase')")), [])
  | _ => (.rejected (NodeError.ofJs (typeError "appName.toLowerCase is not a function")), [])

/-- The handler of `skill:open-path`. `openPath` is what awaiting
`shell.openPath(filePath)` comes to: it completes or throws an error. -/
def openPathHandler (h : Host) (openPath : JVal → Except NodeError Unit) (filePath : JVal) :
    Settled :=
  match openPath filePath with
  | .ok _ => .resolved (envelope true ("已開啟: ".toList ++ toStr h filePath))
  | .error err => .resolved (envelope false err.message)

/-- The handler of `skill:open-url`, with what awaiting
`shell.openExternal(url)` comes to. -/
def openUrlHandler (h : Host) (openExternal : JVal → Except NodeError Unit) (url : JVal) :
    Settled :=
  match openExternal url with
  | .ok _ => .resolved (envelope true ("已開啟瀏覽器: ".toList ++ toStr h url))
  | .error err => .resolved (envelope false err.message)

/-- The handler of `skill:clipboard-write`, with what the call
`clipboard.writeText(text)` comes to. The call stands outside any `try`. -/
def clipboardWriteHandler (writeText : JVal → Except NodeError Unit) (text : JVal) : Settled :=
  match writeText text with
  | .ok _ => .resolved (envelope true "已複製到剪貼簿".toList)
  | .error err => .rejected err

/-! ## executeAISkill over a bridge that may reject with any value -/

/-- A bridge whose calls may be rejected with any value: an `Error` object,
or `null`, `undefined`, a string, and so on. -/
abbrev AnyApi := Cap → List JVal → Except Thrown JVal

/-- A computation of the controller that may throw any value. -/
def MT (α : Type) : Type := St → Except Thrown α × St

/-- Return a value. -/
def MT.pure {α : Type} (a : α) : MT α := fun s => (.ok a, s)

/-- Sequence two computations; a value thrown by the first ends the
sequence. -/
def MT.bind {α β : Type} (x : MT α) (f : α → MT β) : MT β := fun s =>
  match x s with
  | (.ok a, s1) => f a s1
  | (.error e, s1) => (.error e, s1)

instance : Monad MT where
  pure := MT.pure
  bind := MT.bind

/-- A pure step that may throw an `Error`. -/
def liftT {α : Type} (x : Except JsError α) : MT α := fun s =>
  (match x with
    | .ok a => .ok a
    | .error e => .error (.error e), s)

/-- `await this.api.cap(...args)` on a bridge that may reject with any
value. -/
def callAny (api : AnyApi) (cap : Cap) (args : List JVal) : MT JVal := fun s =>
  (api cap args, { s with log := s.log ++ [.call cap args] })

/-- The `switch` of `executeAISkill`, the body of its `try` block, over a
bridge that may reject with any value. -/
def executeAISkillBodyAny (h : Host) (api : AnyApi) (skillName args : JVal) : MT JVal :=
  if strictEqStr skillName "launch_app" then do
    let name ← liftT (getProp args "name")
    let raw ← callAny api .launch_app [name]
    liftT (parsedMessage h raw)
  else if strictEqStr skillName "open_url" then do
    let url ← liftT (getProp args "url")
    let _ ← callAny api .open_url [url]
    let url2 ← liftT (getProp args "url")
    pure (.str ("已開啟 ".toList ++ toStr h url2))
  else if strictEqStr skillName "open_path" then do
    let path ← liftT (getProp args "path")
    let _ ← callAny api .open_path [path]
    let path2 ← liftT (getProp args "path")
    pure (.str ("已開啟 ".toList ++ toStr h path2))
  else if strictEqStr skillName "run_command" then do
    let command ← liftT (getProp args "command")
    let raw ← callAny api .run_command [command]
    liftT (parsedMessage h raw)
  else if strictEqStr skillName "clipboard_write" then do
    let text ← liftT (getProp args "text")
    let _ ← callAny api .clipboard_write [text]
    pure (.str "已複製到剪貼簿".toList)
  else if strictEqStr skillName "clipboard_read" then do
    let raw ← callAny api .clipboard_read []
    liftT (parsedMessage h raw)
  else if strictEqStr skillName "system_info" then do
    let raw ← callAny api .system_info []
    liftT (parsedMessage h raw)
  else if strictEqStr skillName "create_ppt" then do
    let slides ← liftT (getProp args "slides_json")
    let slides2 ← liftT (getProp args "slides_json")
    let slidesStr := if isString slides then slides2 else h.jsonStringify slides2
    let title ← liftT (getProp args "title")
    let theme ← liftT (getProp args "theme")
    let raw ← callAny api .create_ppt [title, slidesStr, jsOr theme (.str "dark".toList)]
    liftT (parsedMessage h raw)
  else if strictEqStr skillName "create_docx" then do
    let title ← liftT (getProp args "title")
    let content ← liftT (getProp args "content")
    let raw ← callAny api .create_docx [title, content]
    liftT (parsedMessage h raw)
  else if strictEqStr skillName "create_xlsx" then do
    let data ← liftT (getProp args "data_json")
    let data2 ← liftT (getProp args "data_json")
    let dataStr := if isString data then data2 else h.jsonStringify data2
    let title ← liftT (getProp args "title")
    let raw ← callAny api .create_xlsx [title, dataStr]
    liftT (parsedMessage h raw)
  else if strictEqStr skillName "write_file" then do
    let filename ← liftT (getProp args "filename")
    let content ← liftT (getProp args "content")
    let raw ← callAny api .write_file [filename, content]
    liftT (parsedMessage h raw)
  else if strictEqStr skillName "read_file" then do
    let filepath ← liftT (getProp args "filepath")
    let raw ← callAny api .read_file [filepath]
    liftT (parsedMessage h raw)
  else if strictEqStr skillName "list_files" then do
    let directory ← liftT (getProp args "directory")
    let raw ← callAny api .list_files [jsOr directory (.str [])]
    liftT (parsedMessage h raw)
  else if strictEqStr skillName "take_screenshot" then do
    let raw ← callAny api .take_screenshot []
    liftT (parsedMessage h raw)
  else if strictEqStr skillName "get_datetime" then do
    let raw ← callAny api .get_datetime []
    liftT (parsedMessage h raw >>= JSON_parse h >>= fun info => getProp info "full")
  else if strictEqStr skillName "search_web" then do
    let query ← liftT (getProp args "query")
    let raw ← callAny api .search_web [query]
    liftT (parsedMessage h raw)
  else if strictEqStr skillName "fetch_news" then do
    let query ← liftT (getProp args "query")
    let maxResults ← liftT (getProp args "max_results")
    let raw ← callAny api .fetch_news [query, .str (toStr h (jsOr maxResults (.num 5 0)))]
    liftT (parsedMessage h raw)
  else if strictEqStr skillName "kill_process" then do
    let processName ← liftT (getProp args "process_name")
    let raw ← callAny api .kill_process [processName]
    liftT (parsedMessage h raw)
  else if strictEqStr skillName "set_volume" then do
    let level ← liftT (getProp args "level")
    let raw ← callAny api .set_volume [.str (toStr h level)]
    liftT (parsedMessage h raw)
  else if strictEqStr skillName "notify" then do
    let title ← liftT (getProp args "title")
    let message ← liftT (getProp args "message")
    let raw ← callAny api .notify [title, message]
    liftT (parsedMessage h raw)
  else pure (.str ("未知技能: ".toList ++ toStr h skillName))

/-- The text of `err.message || err` inside the template literal of the
`catch` clause, for a caught value of any kind: the read of `message` throws
on `null` and `undefined`. -/
def caughtText (h : Host) (err : Thrown) : Except JsError Str :=
  match err with
  | .error e => .ok (errText e)
  | .value v =>
    match getProp v "message" with
    | .ok m => .ok (toStr h (jsOr m v))
    | .error e => .error e

/-- `executeAISkill(skillName, args)` over a bridge that may reject with any
value: the `switch` inside `try`, and the `catch` clause, whose own error,
if it throws, leaves the function. -/
def executeAISkillAny (h : Host) (api : AnyApi) (skillName args : JVal) : MT JVal := fun s =>
  match executeAISkillBodyAny h api skillName args s with
  | (.ok v, s1) => (.ok v, s1)
  | (.error err, s1) =>
    match caughtText h err with
    | .ok t => (.ok (.str ("技能執行失敗: ".toList ++ t)), s1)
    | .error e => (.error (.error e), s1)

/-- A bridge that rejects with `Error` objects only, seen as a bridge that
may reject with any value. -/
def Api.toAny (api : Api) : AnyApi := fun cap args =>
  match api cap args with
  | .ok v => .ok v
  | .error e => .error (.error e)

/-- The two models of a computation agree: the same state, and the same
result up to the embedding of `Error` objects among the thrown values. -/
def Agree {α : Type} (x : M α) (y : MT α) : Prop :=
  ∀ s, y s = ((match (x s).1 with
    | .ok a => .ok a
    | .error e => .error (.error e)), (x s).2)

/-- A thrown value that is not an `Error` object can only be the reason of a
rejected bridge call. -/
def FromBridge {α : Type} (api : AnyApi) (y : MT α) : Prop :=
  ∀ s v, (y s).1 = .error (.value v) → ∃ cap as, api cap as = .error (.value v)

/-! ## Running computations -/

@[simp] theorem run_pure {α : Type} (a : α) (s : St) : (pure a : M α) s = (.ok a, s) := rfl

@[simp] theorem run_bind {α β : Type} (x : M α) (f : α → M β) (s : St) :
    (x >>= f) s =
      match x s with
      | (.ok a, s1) => f a s1
      | (.error e, s1) => (.error e, s1) := rfl

@[simp] theorem run_liftE {α : Type} (x : Except JsError α) (s : St) : liftE x s = (x, s) := rfl

@[simp] theorem run_emit (e : Event) (s : St) :
    emit e s = (.ok (), { s with log := s.log ++ [e] }) := rfl

@[simp] theorem run_callApi (api : Api) (cap : Cap) (args : List JVal) (s : St) :
    callApi api cap args s = (api cap args, { s with log := s.log ++ [.call cap args] }) := rfl

@[simp] theorem run_tryCatchM {α : Type} (body : M α) (handler : JsError → M α) (s : St) :
    tryCatchM body handler s =
      match body s with
      | (.ok a, s1) => (.ok a, s1)
      | (.error e, s1) => handler e s1 := rfl

/-! ## Traces of computations -/

theorem tracks_pure {α : Type} (api : Api) (P : Cap → Prop) (a : α) :
    Tracks api P (Pure.pure a : M α) := by
  intro s; exact ⟨[], by simp, by simp⟩

theorem tracks_liftE {α : Type} (api : Api) (P : Cap → Prop) (x : Except JsError α) :
    Tracks api P (liftE x) := by
  intro s; exact ⟨[], by simp, by simp⟩

theorem tracks_callApi (api : Api) (P : Cap → Prop) (cap : Cap) (args : List JVal)
    (hP : P cap) : Tracks api P (callApi api cap args) := by
  intro s
  refine ⟨[.call cap args], by simp, ?_⟩
  intro c as hmem
  simp at hmem
  obtain ⟨rfl, rfl⟩ := hmem
  exact ⟨hP, fun e he => by simp [he]⟩

theorem tracks_bind {α β : Type} {api : Api} {P : Cap → Prop} {x : M α} {f : α → M β}
    (hx : Tracks api P x) (hf : ∀ a, Tracks api P (f a)) : Tracks api P (x >>= f) := by
  intro s
  obtain ⟨evs1, h1, h1c⟩ := hx s
  rcases hxs : x s with ⟨r, s1⟩
  rw [hxs] at h1 h1c
  simp only at h1 h1c
  cases r with
  | error e0 =>
    refine ⟨evs1, by simp [hxs, h1], ?_⟩
    intro c as hmem
    obtain ⟨hp, he⟩ := h1c c as hmem
    exact ⟨hp, fun e hapi => by simp [hxs, he e hapi]⟩
  | ok a =>
    obtain ⟨evs2, h2, h2c⟩ := hf a s1
    refine ⟨evs1 ++ evs2, by simp only [run_bind, hxs]; rw [h2, h1]; simp, ?_⟩
    intro c as hmem
    rcases List.mem_append.mp hmem with hm | hm
    · obtain ⟨hp, he⟩ := h1c c as hm
      exact ⟨hp, fun e hapi => by simpa using he e hapi⟩
    · obtain ⟨hp, he⟩ := h2c c as hm
      exact ⟨hp, fun e hapi => by simp [hxs, he e hapi]⟩

theorem tracks_ite {α : Type} {api : Api} {P : Cap → Prop} {c : Prop} [Decidable c]
    {x y : M α} (hx : Tracks api P x) (hy : Tracks api P y) :
    Tracks api P (if c then x else y) := by
  split <;> assumption

theorem tracks_mono {α : Type} {api : Api} {P Q : Cap → Prop} {x : M α}
    (hx : Tracks api P x) (hPQ : ∀ c, P c → Q c) : Tracks api Q x := by
  intro s
  obtain ⟨evs, h1, h2⟩ := hx s
  exact ⟨evs, h1, fun c as hm => ⟨hPQ c (h2 c as hm).1, (h2 c as hm).2⟩⟩

theorem tracks_frame {α : Type} {api : Api} {P : Cap → Prop} {x : M α}
    (hx : Tracks api P x) : Frame P x := by
  intro s
  obtain ⟨evs, h1, h2⟩ := hx s
  exact ⟨evs, h1, fun c as hm => (h2 c as hm).1⟩

theorem frame_pure {α : Type} (P : Cap → Prop) (a : α) : Frame P (Pure.pure a : M α) := by
  intro s; exact ⟨[], by simp, by simp⟩

theorem frame_liftE {α : Type} (P : Cap → Prop) (x : Except JsError α) :
    Frame P (liftE x) := by
  intro s; exact ⟨[], by simp, by simp⟩

theorem frame_emit (P : Cap → Prop) (e : Event) (he : ∀ c as, e ≠ .call c as) :
    Frame P (emit e) := by
  intro s
  refine ⟨[e], by simp, ?_⟩
  intro c as hm
  simp at hm
  exact absurd hm.symm (he c as)

theorem frame_speak (P : Cap → Prop) (t : JVal) : Frame P (speak t) := by
  intro s
  unfold DigitalAssistant.speak
  split
  · exact ⟨[], by simp, by simp⟩
  · exact ⟨[.speak t], by simp, by simp⟩

theorem frame_addMessage (P : Cap → Prop) (role : String) (t : JVal) (b : Bool) :
    Frame P (addMessage role t b) := by
  unfold DigitalAssistant.addMessage
  split
  · exact frame_emit P _ (by simp)
  · split
    · exact frame_emit P _ (by simp)
    · exact frame_emit P _ (by simp)
    · exact frame_liftE P _
    · exact frame_liftE P _
    · exact frame_liftE P _

theorem frame_bind {α β : Type} {P : Cap → Prop} {x : M α} {f : α → M β}
    (hx : Frame P x) (hf : ∀ a, Frame P (f a)) : Frame P (x >>= f) := by
  intro s
  obtain ⟨evs1, h1, h1c⟩ := hx s
  rcases hxs : x s with ⟨r, s1⟩
  rw [hxs] at h1
  simp only at h1
  cases r with
  | error e0 => exact ⟨evs1, by simp [hxs, h1], h1c⟩
  | ok a =>
    obtain ⟨evs2, h2, h2c⟩ := hf a s1
    refine ⟨evs1 ++ evs2, by simp only [run_bind, hxs]; rw [h2, h1]; simp, ?_⟩
    intro c as hmem
    rcases List.mem_append.mp hmem with hm | hm
    · exact h1c c as hm
    · exact h2c c as hm

theorem frame_tryCatchM {α : Type} {P : Cap → Prop} {x : M α} {f : JsError → M α}
    (hx : Frame P x) (hf : ∀ e, Frame P (f e)) : Frame P (tryCatchM x f) := by
  intro s
  obtain ⟨evs1, h1, h1c⟩ := hx s
  rcases hxs : x s with ⟨r, s1⟩
  rw [hxs] at h1
  simp only at h1
  cases r with
  | ok a => exact ⟨evs1, by simp [hxs, h1], h1c⟩
  | error e0 =>
    obtain ⟨evs2, h2, h2c⟩ := hf e0 s1
    refine ⟨evs1 ++ evs2, by simp only [run_tryCatchM, hxs]; rw [h2, h1]; simp, ?_⟩
    intro c as hmem
    rcases List.mem_append.mp hmem with hm | hm
    · exact h1c c as hm
    · exact h2c c as hm

theorem frame_ite {α : Type} {P : Cap → Prop} {c : Prop} [Decidable c]
    {x y : M α} (hx : Frame P x) (hy : Frame P y) : Frame P (if c then x else y) := by
  split <;> assumption

/-! ## Properties of executeAISkill -/

theorem executeAISkillBody_tracks (h : Host) (api : Api) (skillName args : JVal) :
    Tracks api (fun c => c ≠ .chat_with_ai) (executeAISkillBody h api skillName args) := by
  unfold executeAISkillBody
  repeat' first
    | exact tracks_pure _ _ _
    | exact tracks_liftE _ _ _
    | exact tracks_callApi _ _ _ _ (by decide)
    | apply tracks_bind
    | apply tracks_ite
    | intro _

theorem executeAISkill_frame (h : Host) (api : Api) (skillName args : JVal) :
    Frame (fun c => c ≠ .chat_with_ai) (executeAISkill h api skillName args) :=
  frame_tryCatchM (tracks_frame (executeAISkillBody_tracks h api skillName args))
    (fun _ => frame_pure _ _)

theorem executeAISkill_ok (h : Host) (api : Api) (skillName args : JVal) (s : St) :
    ∃ v, (executeAISkill h api skillName args s).1 = .ok v := by
  simp only [executeAISkill, run_tryCatchM]
  rcases executeAISkillBody h api skillName args s with ⟨r, s1⟩
  cases r <;> simp

/-- On a bridge that rejects with `Error` objects only, `executeAISkill` never
throws, whatever the skill name and the arguments (`undefined` included)
are: it returns a value;
when the `switch` raises an error `err` (a rejected handler call, a failed
`JSON.parse`, a property read on `undefined`) the value is
`'技能執行失敗: ' + (err.message || err)`; in particular a bridge call that was
made and rejected with `err` gives that string. -/
theorem executeAISkill_never_throws (h : Host) (api : Api) (skillName args : JVal) (s : St) :
    (∃ v, (executeAISkill h api skillName args s).1 = .ok v) ∧
    (∀ err, (executeAISkillBody h api skillName args s).1 = .error err →
      (executeAISkill h api skillName args s).1 =
        .ok (.str ("技能執行失敗: ".toList ++
          (if err.message.isEmpty then err.toStr else err.message)))) ∧
    (∀ cap as err,
      Event.call cap as ∈ (executeAISkill h api skillName args s).2.log.drop s.log.length →
      api cap as = .error err →
      (executeAISkill h api skillName args s).1 =
        .ok (.str ("技能執行失敗: ".toList ++
          (if err.message.isEmpty then err.toStr else err.message)))) := by
  have key : ∀ err, (executeAISkillBody h api skillName args s).1 = .error err →
      (executeAISkill h api skillName args s).1 =
        .ok (.str ("技能執行失敗: ".toList ++
          (if err.message.isEmpty then err.toStr else err.message))) := by
    intro err he
    simp only [executeAISkill, run_tryCatchM]
    rcases hb : executeAISkillBody h api skillName args s with ⟨r, s1⟩
    rw [hb] at he
    cases r with
    | ok v => simp at he
    | error e0 =>
      simp only at he
      cases he
      simp [errText]
  refine ⟨executeAISkill_ok h api skillName args s, key, ?_⟩
  intro cap as err hmem hapi
  apply key
  obtain ⟨evs, h1, h2⟩ := executeAISkillBody_tracks h api skillName args s
  have hst : (executeAISkill h api skillName args s).2 =
      (executeAISkillBody h api skillName args s).2 := by
    simp only [executeAISkill, run_tryCatchM]
    rcases executeAISkillBody h api skillName args s with ⟨r, s1⟩
    cases r <;> simp
  rw [hst, h1] at hmem
  simp at hmem
  exact (h2 cap as hmem).2 err hapi

/-- A concrete run: `launch_app` with a bridge that rejects every call with
the error `boom`. -/
theorem executeAISkill_never_throws_witness :
    (executeAISkill stdHost (fun _ _ => .error ⟨"Error".toList, "boom".toList⟩)
      (.str "launch_app".toList) (.obj [("name".toList, .str "notepad".toList)]) St.init).1 =
      .ok (.str "技能執行失敗: boom".toList) :=
  (executeAISkill_never_throws stdHost (fun _ _ => .error ⟨"Error".toList, "boom".toList⟩)
    (.str "launch_app".toList) (.obj [("name".toList, .str "notepad".toList)]) St.init).2.1
    ⟨"Error".toList, "boom".toList⟩ rfl



/-- C9. A skill name that is none of the 20 handled names (`skillName === n`
is false for each of them) makes `executeAISkill` return `'未知技能: ' + name`
(for a string the name itself follows the colon), whatever `args` is; the
state is unchanged, so no bridge capability is called, and nothing is thrown. -/
theorem executeAISkill_unknown (h : Host) (api : Api) (skillName args : JVal) (s : St)
    (hn : ∀ n ∈ handledSkills, strictEqStr skillName n = false) :
    executeAISkill h api skillName args s =
      (.ok (.str ("未知技能: ".toList ++ toStr h skillName)), s) := by
  simp only [handledSkills, List.mem_cons, List.mem_singleton, forall_eq_or_imp, forall_eq] at hn
  simp [executeAISkill, executeAISkillBody, hn]

/-- C9, at a concrete name: `fly_to_moon` with `undefined` arguments. -/
theorem executeAISkill_unknown_witness :
    executeAISkill stdHost (fun _ _ => .ok .null) (.str "fly_to_moon".toList) .undefined St.init =
      (.ok (.str "未知技能: fly_to_moon".toList), St.init) :=
  executeAISkill_unknown stdHost (fun _ _ => .ok .null) (.str "fly_to_moon".toList) .undefined
    St.init (by decide)

/-! ## Properties of tryLocalSkill -/

/-- The launch loop runs the first item of the table that matches. -/
theorem launchLoop_eq (api : Api) (lower : Str) (items : List LaunchItem) :
    launchLoop api lower items =
      match items.find? (fun it => someIncluded lower it.patterns) with
      | some it => launchBranch api it >>= fun r => pure (some r)
      | none => pure none := by
  induction items with
  | nil => rfl
  | cons it rest ih =>
    unfold launchLoop
    by_cases hc : someIncluded lower it.patterns = true
    · simp [List.find?_cons, hc]
    · simp only [Bool.not_eq_true] at hc
      simp [List.find?_cons, hc, ih]

theorem bind_pure_some_match {α : Type} (x : M JVal) (f : JVal → M α) (g : M α) :
    ((x >>= fun r => (pure (some r) : M (Option JVal))) >>= fun o =>
      match o with
      | some r => f r
      | none => g) = x >>= f := by
  funext s
  simp only [run_bind]
  rcases x s with ⟨r, s1⟩
  cases r <;> simp

theorem bind_pure_id (x : M JVal) : (x >>= fun r => (pure r : M JVal)) = x := by
  funext s
  simp only [run_bind]
  rcases x s with ⟨r, s1⟩
  cases r <;> simp

theorem tryLocalSkill_launch (h : Host) (api : Api) (text : Str) (item : LaunchItem)
    (hf : launchPatterns.find? (fun it => someIncluded (h.toLowerCase text) it.patterns) =
      some item) :
    tryLocalSkill h api text = launchBranch api item := by
  unfold tryLocalSkill
  simp only [launchLoop_eq, hf]
  rw [bind_pure_some_match, bind_pure_id]

theorem tryLocalSkill_no_launch (h : Host) (api : Api) (text : Str)
    (hf : launchPatterns.find? (fun it => someIncluded (h.toLowerCase text) it.patterns) =
      none) :
    tryLocalSkill h api text =
      if someIncluded (h.toLowerCase text) systemInfoPhrases then systemInfoBranch h api
      else if someIncluded (h.toLowerCase text) clipboardPhrases then clipboardBranch h api
      else if someIncluded (h.toLowerCase text) screenshotPhrases then screenshotBranch h api
      else if someIncluded (h.toLowerCase text) datetimePhrases then datetimeBranch h api
      else if (reMatch true compositeRe text).isNone then
        match reMatch true searchRe text with
        | some m => searchBranch h api m
        | none => tryLocalSkillTail h api text (h.toLowerCase text)
      else tryLocalSkillTail h api text (h.toLowerCase text) := by
  unfold tryLocalSkill
  simp only [launchLoop_eq, hf]
  funext s
  simp

theorem tryLocalSkill_refines (h : Host) (api : Api) (text : Str) :
    tryLocalSkill h api text = tryLocalSkillSpec h api text := by
  unfold tryLocalSkillSpec localBranches
  rw [List.find?_append, List.find?_map]
  cases hf : launchPatterns.find? (fun it => someIncluded (h.toLowerCase text) it.patterns) with
  | some item =>
    have hf' : List.find? ((fun b : Branch => b.applies h text) ∘ fun item : LaunchItem =>
        ({ applies := fun h text => someIncluded (h.toLowerCase text) item.patterns,
           run := fun _ api _ => launchBranch api item } : Branch)) launchPatterns = some item := hf
    rw [hf']
    simp [tryLocalSkill_launch h api text item hf]
  | none =>
    have hf' : List.find? ((fun b : Branch => b.applies h text) ∘ fun item : LaunchItem =>
        ({ applies := fun h text => someIncluded (h.toLowerCase text) item.patterns,
           run := fun _ api _ => launchBranch api item } : Branch)) launchPatterns = none := hf
    rw [hf', tryLocalSkill_no_launch h api text hf]
    simp only [Option.map_none', Option.none_or, List.find?_cons, List.find?_nil]
    unfold tryLocalSkillTail
    cases h1 : someIncluded (h.toLowerCase text) systemInfoPhrases
    swap
    · simp
    cases h2 : someIncluded (h.toLowerCase text) clipboardPhrases
    swap
    · simp
    cases h3 : someIncluded (h.toLowerCase text) screenshotPhrases
    swap
    · simp
    cases h4 : someIncluded (h.toLowerCase text) datetimePhrases
    swap
    · simp
    cases h5 : reMatch true compositeRe text <;> cases h6 : reMatch true searchRe text <;>
      cases h7 : someIncluded (h.toLowerCase text) listFilesPhrases <;>
      cases h8 : reMatch true urlRe text <;> simp [h6, h8]

/-- C5. `tryLocalSkill` is the first-match rule over the branches in their declared
order: it runs the earliest branch that applies to the input, and no other,
and returns `null` when none applies. An input matching both the search and
the URL pattern gets the search result; one with two launch phrases launches
the app declared first. -/
theorem tryLocalSkill_first_match :
    (∀ (h : Host) (api : Api) (text : Str),
      tryLocalSkill h api text = tryLocalSkillSpec h api text) ∧
    ((reMatch true searchRe "open https://example.com/search?q=a".toList).isSome = true ∧
      (reMatch true urlRe "open https://example.com/search?q=a".toList).isSome = true ∧
      ∀ api : Api, tryLocalSkill stdHost api "open https://example.com/search?q=a".toList =
        searchBranch stdHost api ⟨"search?q=a".toList, .str "?q=a".toList⟩) ∧
    (∀ api : Api, tryLocalSkill stdHost api "Open Notepad and open calculator".toList =
        launchBranch api ⟨["開啟記事本", "打開記事本", "open notepad"], "notepad", "記事本"⟩) :=
  ⟨tryLocalSkill_refines, ⟨rfl, rfl, fun _ => rfl⟩,
    fun api => tryLocalSkill_launch stdHost api _ _ rfl⟩

theorem launch_find (lower : Str)
    (hm : ∃ it ∈ launchPatterns, someIncluded lower it.patterns = true) :
    ∃ item, launchPatterns.find? (fun it => someIncluded lower it.patterns) = some item := by
  obtain ⟨it, hmem, hit⟩ := hm
  cases hf : launchPatterns.find? (fun it => someIncluded lower it.patterns) with
  | some item => exact ⟨item, rfl⟩
  | none =>
    rw [List.find?_eq_none] at hf
    exact absurd hit (by simpa using hf it hmem)

theorem sendMessage_launch (h : Host) (api : Api) (text : Str) (s : St) (item : LaunchItem)
    (hne : text ≠ [])
    (hf : launchPatterns.find? (fun it => someIncluded (h.toLowerCase text) it.patterns) =
      some item) :
    sendMessage h api text s =
      match api .launch_app [.str item.app.toList] with
      | .ok _ =>
        (.ok (), { s with log := s.log ++
          [.inputCleared, .message "user".toList (.str text) false,
           .call .launch_app [.str item.app.toList],
           .message "assistant".toList (.str ("已為你開啟 ".toList ++ item.name.toList)) true] ++
          (if s.ttsEnabled && s.speechSynthesis then
            [.speak (.str ("已開啟".toList ++ item.name.toList))] else []) })
      | .error e =>
        (.error e, { s with log := s.log ++
          [.inputCleared, .message "user".toList (.str text) false,
           .call .launch_app [.str item.app.toList]] }) := by
  unfold sendMessage
  have hne' : text.isEmpty = false := by cases text <;> simp_all
  simp only [hne', tryLocalSkill_launch h api text item hf]
  cases hapi : api .launch_app [.str item.app.toList] with
  | error e =>
    have hapi' : api .launch_app [.str item.app.data] = .error e := hapi
    simp [launchBranch, addMessage, hapi']
  | ok v =>
    have hapi' : api .launch_app [.str item.app.data] = .ok v := hapi
    simp [launchBranch, addMessage, skillResult, truthy, getProp, lookupProp, jsOr, speak, hapi']
    split
    · rename_i hh
      rcases hh with hh | hh <;> simp [hh]
    · simp_all

/-- C6. When the lower-cased input contains a declared launch phrase,
`tryLocalSkill` calls `launch_app` with the app id of the first matching item
of the table and nothing else; when that call resolves it returns
`{message: '已為你開啟 <name>', speakText: '已開啟<name>', isSkill: true}` and
`sendMessage` returns after showing it. Whatever the bridge does,
`sendMessage` makes no `chat_with_ai` call and leaves `conversationHistory`
as it was. (`sendMessage` acts on non-empty input only.) -/
theorem launch_phrase_short_circuits (h : Host) (api : Api) (text : Str) (s : St)
    (hne : text ≠ [])
    (hm : ∃ it ∈ launchPatterns, someIncluded (h.toLowerCase text) it.patterns = true) :
    ∃ item,
      launchPatterns.find? (fun it => someIncluded (h.toLowerCase text) it.patterns) =
        some item ∧
      (tryLocalSkill h api text s).2 =
        { s with log := s.log ++ [.call .launch_app [.str item.app.toList]] } ∧
      (∀ v, api .launch_app [.str item.app.toList] = .ok v →
        (tryLocalSkill h api text s).1 =
          .ok (.obj [("message".toList, .str ("已為你開啟 ".toList ++ item.name.toList)),
            ("speakText".toList, .str ("已開啟".toList ++ item.name.toList)),
            ("isSkill".toList, .bool true)]) ∧
        sendMessage h api text s =
          (.ok (), { s with log := s.log ++
            [.inputCleared, .message "user".toList (.str text) false,
             .call .launch_app [.str item.app.toList],
             .message "assistant".toList (.str ("已為你開啟 ".toList ++ item.name.toList)) true] ++
            (if s.ttsEnabled && s.speechSynthesis then
              [.speak (.str ("已開啟".toList ++ item.name.toList))] else []) })) ∧
      (∀ as, Event.call .chat_with_ai as ∉ (sendMessage h api text s).2.log.drop s.log.length) ∧
      (sendMessage h api text s).2.conversationHistory = s.conversationHistory := by
  obtain ⟨item, hf⟩ := launch_find (h.toLowerCase text) hm
  have hs := sendMessage_launch h api text s item hne hf
  have ht := tryLocalSkill_launch h api text item hf
  refine ⟨item, hf, ?_, ?_, ?_, ?_⟩
  · rw [ht]
    simp only [launchBranch, run_bind, run_callApi]
    cases api .launch_app [.str item.app.toList] <;> rfl
  · intro v hv
    rw [hv] at hs
    refine ⟨?_, hs⟩
    rw [ht]
    simp only [launchBranch, run_bind, run_callApi, hv]
    rfl
  · intro as
    rw [hs]
    cases api .launch_app [.str item.app.toList] with
    | error e => simp
    | ok v =>
      simp only [List.append_assoc, List.drop_left]
      split <;> simp
  · rw [hs]
    cases api .launch_app [.str item.app.toList] <;> rfl

/-- C6, at the input `請幫我打開計算機` with a bridge whose calls all resolve. -/
theorem launch_phrase_short_circuits_witness :
    sendMessage stdHost okApi "請幫我打開計算機".toList St.init =
      (.ok (), { St.init with log :=
        [.inputCleared, .message "user".toList (.str "請幫我打開計算機".toList) false,
         .call .launch_app [.str "calculator".toList],
         .message "assistant".toList (.str "已為你開啟 計算機".toList) true,
         .speak (.str "已開啟計算機".toList)] }) := by
  obtain ⟨item, hf, -, hok, -⟩ :=
    launch_phrase_short_circuits stdHost okApi "請幫我打開計算機".toList St.init (by decide)
      ⟨⟨["開啟計算機", "打開計算機", "open calculator"], "calculator", "計算機"⟩,
        by simp [launchPatterns], rfl⟩
  have hitem : item = ⟨["開啟計算機", "打開計算機", "open calculator"], "calculator", "計算機"⟩ :=
    (Option.some.inj (hf.symm.trans rfl)).symm ▸ rfl
  subst hitem
  exact (hok _ rfl).2

/-! ## The matcher and the declarative reading of a pattern -/

theorem starRun_isSome {α : Type} (p : Char → Bool) (k : Str → Option α) (u t : Str)
    (hu : ∀ c ∈ u, p c = true) (hk : (k t).isSome = true) :
    (starRun p k (u ++ t)).isSome = true := by
  induction u with
  | nil =>
    cases t with
    | nil => simpa [starRun] using hk
    | cons c cs =>
      simp only [List.nil_append, starRun]
      split
      · split
        · rfl
        · exact hk
      · exact hk
  | cons c cs ih =>
    have hc : p c = true := hu c (List.mem_cons_self _ _)
    have ih' := ih (fun d hd => hu d (List.mem_cons_of_mem _ hd))
    simp only [List.cons_append, starRun, hc, if_true]
    cases hrun : starRun p k (cs ++ t) with
    | none => simp [hrun] at ih'
    | some r => rfl

/-- Completeness of the matcher: when the pattern can match and leave `t`,
and the continuation accepts `t`, the run succeeds. -/
theorem Re.run_complete {α : Type} (ic : Bool) (r : Re) :
    ∀ (s t : Str) (cap : Option Str) (k : Str → Option Str → Option α),
      Re.Matches ic r s t → (∀ c, (k t c).isSome = true) →
      (Re.run ic r s cap k).isSome = true := by
  induction r with
  | eps =>
    intro s t cap k hm hk
    simp only [Re.Matches] at hm
    subst hm
    exact hk cap
  | chr c =>
    intro s t cap k hm hk
    obtain ⟨d, rfl, hd⟩ := hm
    simp [Re.run, hd, hk]
  | cls p =>
    intro s t cap k hm hk
    obtain ⟨d, rfl, hd⟩ := hm
    simp [Re.run, hd, hk]
  | seq a b iha ihb =>
    intro s t cap k hm hk
    obtain ⟨m, hma, hmb⟩ := hm
    exact iha s m cap _ hma (fun c => ihb m t c k hmb hk)
  | alt a b iha ihb =>
    intro s t cap k hm hk
    simp only [Re.run]
    cases hrun : Re.run ic a s cap k with
    | some x => rfl
    | none =>
      rcases hm with hm | hm
      · have := iha s t cap k hm hk
        simp [hrun] at this
      · exact ihb s t cap k hm hk
  | star p =>
    intro s t cap k hm hk
    obtain ⟨u, rfl, hu⟩ := hm
    exact starRun_isSome p _ u t hu (hk cap)
  | group r ih =>
    intro s t cap k hm hk
    exact ih s t cap _ hm (fun _ => hk _)

theorem Re.exec_isSome (ic : Bool) (r : Re) (s t : Str) (hm : Re.Matches ic r s t) :
    (Re.exec ic r s).isSome = true :=
  Re.run_complete ic r s t none _ hm (fun _ => rfl)

theorem reMatch_isSome (ic : Bool) (r : Re) (a s t : Str) (hm : Re.Matches ic r s t) :
    (reMatch ic r (a ++ s)).isSome = true := by
  induction a with
  | nil =>
    have he := Re.exec_isSome ic r s t hm
    cases s with
    | nil => simpa [reMatch] using he
    | cons c cs =>
      simp only [List.nil_append, reMatch]
      cases hx : Re.exec ic r (c :: cs) with
      | none => simp [hx] at he
      | some m => rfl
  | cons c cs ih =>
    simp only [List.cons_append, reMatch]
    cases hx : Re.exec ic r (c :: (cs ++ s)) with
    | none => exact ih
    | some m => rfl

theorem Re.matches_litList (ic : Bool) (w w' t : Str)
    (hw : List.Forall₂ (fun c d => charMatches ic c d = true) w w') :
    Re.Matches ic (w.foldr (fun c r => Re.seq (.chr c) r) .eps) (w' ++ t) t := by
  induction hw with
  | nil => simp [Re.Matches]
  | @cons c d l l' hcd _ ih => exact ⟨l' ++ t, ⟨d, rfl, hcd⟩, ih⟩

theorem Re.matches_lit (w : String) (w' t : Str) (hw : SameWord w w') :
    Re.Matches true (Re.lit w) (w' ++ t) t :=
  Re.matches_litList true w.toList w' t hw

theorem Re.matches_alts (ic : Bool) (rs : List Re) (r : Re) (s t : Str) (hr : r ∈ rs)
    (hm : Re.Matches ic r s t) : Re.Matches ic (Re.alts rs) s t := by
  induction rs with
  | nil => cases hr
  | cons r0 rest ih =>
    cases rest with
    | nil =>
      simp only [List.mem_singleton] at hr
      subst hr
      exact hm
    | cons r1 rest' =>
      rcases List.mem_cons.mp hr with h0 | h0
      · subst h0
        exact Or.inl hm
      · exact Or.inr (ih h0)

theorem Re.matches_alts_lit (ws : List String) (w : String) (w' t : Str) (hw : w ∈ ws)
    (hs : SameWord w w') : Re.Matches true (Re.alts (ws.map Re.lit)) (w' ++ t) t :=
  Re.matches_alts true _ (Re.lit w) _ _ (List.mem_map_of_mem _ hw) (Re.matches_lit w w' t hs)

theorem compositeRe_matches (text : Str) (hp : HasCompositePhrase text) :
    (reMatch true compositeRe text).isSome = true := by
  obtain ⟨a, conn, b, verb, c, noun, d, conn0, verb0, noun0, rfl, hc0, hc, hv0, hv, hn0, hn,
    hb, hcl⟩ := hp
  have hm : Re.Matches true compositeRe (conn ++ (b ++ (verb ++ (c ++ (noun ++ d))))) d := by
    refine ⟨_, Re.matches_alts_lit _ conn0 conn _ hc0 hc, _, ⟨b, rfl, ?_⟩, _,
      Re.matches_alts_lit _ verb0 verb _ hv0 hv, _, ⟨c, rfl, ?_⟩,
      Re.matches_alts_lit _ noun0 noun _ hn0 hn⟩
    · intro x hx
      simp [dot, hb x hx]
    · intro x hx
      simp [dot, hcl x hx]
  have := reMatch_isSome true compositeRe a _ d hm
  simpa [List.append_assoc] using this

/-! ## Bridge calls of tryLocalSkill -/

theorem launchBranch_tracks (api : Api) (item : LaunchItem) :
    Tracks api (fun c => c ≠ .search_web ∧ c ≠ .chat_with_ai) (launchBranch api item) := by
  unfold launchBranch
  repeat' first
    | exact tracks_pure _ _ _
    | exact tracks_liftE _ _ _
    | exact tracks_callApi _ _ _ _ (by decide)
    | apply tracks_bind
    | intro _

theorem tryLocalSkillTail_tracks (h : Host) (api : Api) (text lower : Str) :
    Tracks api (fun c => c ≠ .search_web ∧ c ≠ .chat_with_ai)
      (tryLocalSkillTail h api text lower) := by
  unfold tryLocalSkillTail listFilesBranch urlBranch
  repeat' first
    | exact tracks_pure _ _ _
    | exact tracks_liftE _ _ _
    | exact tracks_callApi _ _ _ _ (by decide)
    | apply tracks_bind
    | apply tracks_ite
    | split
    | intro _

theorem tryLocalSkill_tracks_composite (h : Host) (api : Api) (text : Str)
    (hg : (reMatch true compositeRe text).isSome = true) :
    Tracks api (fun c => c ≠ .search_web ∧ c ≠ .chat_with_ai) (tryLocalSkill h api text) := by
  cases hf : launchPatterns.find? (fun it => someIncluded (h.toLowerCase text) it.patterns) with
  | some item =>
    rw [tryLocalSkill_launch h api text item hf]
    exact launchBranch_tracks api item
  | none =>
    rw [tryLocalSkill_no_launch h api text hf]
    have hn : (reMatch true compositeRe text).isNone = false := by
      cases hre : reMatch true compositeRe text <;> simp_all
    simp only [hn]
    unfold systemInfoBranch clipboardBranch screenshotBranch datetimeBranch
    repeat' first
      | exact tryLocalSkillTail_tracks h api text _
      | exact tracks_pure _ _ _
      | exact tracks_liftE _ _ _
      | exact tracks_callApi _ _ _ _ (by decide)
      | apply tracks_bind
      | apply tracks_ite
      | intro _

theorem tryLocalSkill_tracks (h : Host) (api : Api) (text : Str) :
    Tracks api (fun c => c ≠ .chat_with_ai) (tryLocalSkill h api text) := by
  cases hf : launchPatterns.find? (fun it => someIncluded (h.toLowerCase text) it.patterns) with
  | some item =>
    rw [tryLocalSkill_launch h api text item hf]
    exact (tracks_mono (launchBranch_tracks api item)) (fun _ hc => hc.2)
  | none =>
    rw [tryLocalSkill_no_launch h api text hf]
    unfold systemInfoBranch clipboardBranch screenshotBranch datetimeBranch searchBranch
    repeat' first
      | exact (tracks_mono (tryLocalSkillTail_tracks h api text _)) (fun _ hc => hc.2)
      | exact tracks_pure _ _ _
      | exact tracks_liftE _ _ _
      | exact tracks_callApi _ _ _ _ (by decide)
      | apply tracks_bind
      | apply tracks_ite
      | split
      | intro _

theorem nonNull_bind {α : Type} (x : M α) (f : α → M JVal) (hf : ∀ a, NonNull (f a)) :
    NonNull (x >>= f) := by
  intro s
  simp only [run_bind]
  rcases x s with ⟨r, s1⟩
  cases r with
  | error e => simp
  | ok a => exact hf a s1

theorem nonNull_skillResult (m sp : JVal) : NonNull (pure (skillResult m sp)) := by
  intro s
  simp [DigitalAssistant.skillResult]

theorem localBranches_nonNull (h : Host) (api : Api) (text : Str) (b : Branch)
    (hb : b ∈ localBranches) (ha : b.applies h text = true) : NonNull (b.run h api text) := by
  simp only [localBranches, launchPatterns, List.map_cons, List.map_nil, List.cons_append,
    List.nil_append, List.mem_cons, List.mem_singleton, List.mem_nil_iff, or_false] at hb
  rcases hb with rfl | rfl | rfl | rfl | rfl | rfl | rfl | rfl | rfl | rfl | rfl | rfl | rfl |
    rfl | rfl
  all_goals simp only at ha ⊢
  all_goals first
    | (unfold launchBranch
       repeat' first
        | exact nonNull_skillResult _ _
        | apply nonNull_bind
        | intro _)
    | (unfold systemInfoBranch
       repeat' first
        | exact nonNull_skillResult _ _
        | apply nonNull_bind
        | intro _)
    | (unfold clipboardBranch
       repeat' first
        | exact nonNull_skillResult _ _
        | apply nonNull_bind
        | intro _)
    | (unfold screenshotBranch
       repeat' first
        | exact nonNull_skillResult _ _
        | apply nonNull_bind
        | intro _)
    | (unfold datetimeBranch
       repeat' first
        | exact nonNull_skillResult _ _
        | apply nonNull_bind
        | intro _)
    | (unfold listFilesBranch
       repeat' first
        | exact nonNull_skillResult _ _
        | apply nonNull_bind
        | intro _)
    | skip
  · cases hm : reMatch true searchRe text with
    | none => simp [hm] at ha
    | some m =>
      simp only
      unfold searchBranch
      repeat' first
        | exact nonNull_skillResult _ _
        | apply nonNull_bind
        | intro _
  · cases hm : reMatch true urlRe text with
    | none => simp [hm] at ha
    | some m =>
      simp only
      unfold urlBranch
      repeat' first
        | exact nonNull_skillResult _ _
        | apply nonNull_bind
        | intro _

theorem tryLocalSkill_null_iff (h : Host) (api : Api) (text : Str) (s : St) :
    ((∀ b ∈ localBranches, b.applies h text = false) →
      tryLocalSkill h api text s = (.ok .null, s)) ∧
    ((tryLocalSkill h api text s).1 = .ok .null →
      ∀ b ∈ localBranches, b.applies h text = false) := by
  rw [tryLocalSkill_refines]
  unfold tryLocalSkillSpec
  cases hf : localBranches.find? (fun b => b.applies h text) with
  | none =>
    refine ⟨fun _ => rfl, fun _ b hb => ?_⟩
    rw [List.find?_eq_none] at hf
    simpa using hf b hb
  | some b0 =>
    have hmem := List.mem_of_find?_eq_some hf
    have happ : b0.applies h text = true := by simpa using List.find?_some hf
    refine ⟨fun hall => ?_, fun hnull => ?_⟩
    · rw [hall b0 hmem] at happ
      cases happ
    · exact absurd hnull (localBranches_nonNull h api text b0 hmem happ s)

theorem sameWord_self (w : String) : SameWord w w.toList := by
  unfold SameWord
  rw [List.forall₂_same]
  intro c _
  simp [charMatches]

/-- C4, as amended. When the input holds the composite phrase on one line (a
connector, later a verb, later a noun, compared case-insensitively), the
web-search branch is not taken: `tryLocalSkill` makes no `search_web` call.
It returns `null`, sending the request to the remote path, when no branch
applies to the input (the search branch itself never applies here), and only
then. -/
theorem composite_phrase_skips_search (h : Host) (api : Api) (text : Str) (s : St)
    (hp : HasCompositePhrase text) :
    (∀ as, Event.call .search_web as ∉ (tryLocalSkill h api text s).2.log.drop s.log.length) ∧
    ((∀ b ∈ localBranches, b.applies h text = false) →
      tryLocalSkill h api text s = (.ok .null, s)) ∧
    ((tryLocalSkill h api text s).1 = .ok .null →
      ∀ b ∈ localBranches, b.applies h text = false) := by
  refine ⟨?_, tryLocalSkill_null_iff h api text s⟩
  intro as hmem
  obtain ⟨evs, h1, h2⟩ :=
    tryLocalSkill_tracks_composite h api text (compositeRe_matches text hp) s
  rw [h1] at hmem
  simp only [List.drop_left] at hmem
  exact (h2 _ _ hmem).1.1 rfl

/-- C4, at the input `搜尋台灣新聞然後做成簡報`: the result is `null` and nothing is
called. -/
theorem composite_phrase_skips_search_witness :
    tryLocalSkill stdHost okApi "搜尋台灣新聞然後做成簡報".toList St.init = (.ok .null, St.init) :=
  (composite_phrase_skips_search stdHost okApi "搜尋台灣新聞然後做成簡報".toList St.init
    ⟨"搜尋台灣新聞".toList, "然後".toList, [], "做成".toList, [], "簡報".toList, [],
      "然後", "做成", "簡報", rfl, by decide, sameWord_self _, by decide, sameWord_self _,
      by decide, sameWord_self _, by simp, by simp⟩).2.1 (by decide)

/-- C4 as stated fails. `搜尋台灣新聞然後做成簡報並列出檔案` has a search phrase and the
composite phrase, yet the file-listing branch answers it (the result is not
`null`). `搜尋新聞然後\n做成簡報` has a line break between connector and verb, so the
composite pattern does not match and the search branch answers it. -/
theorem composite_phrase_counterexample :
    ((reMatch true searchRe "搜尋台灣新聞然後做成簡報並列出檔案".toList).isSome = true ∧
      HasCompositePhrase "搜尋台灣新聞然後做成簡報並列出檔案".toList ∧
      (tryLocalSkill stdHost okApi "搜尋台灣新聞然後做成簡報並列出檔案".toList St.init).1 ≠
        .ok .null) ∧
    ((reMatch true searchRe "搜尋新聞然後\n做成簡報".toList).isSome = true ∧
      (tryLocalSkill stdHost okApi "搜尋新聞然後\n做成簡報".toList St.init).1 =
        .ok (.obj [("message".toList, .str "已搜尋: 新聞然後".toList),
          ("speakText".toList, .str "已搜尋新聞然後".toList), ("isSkill".toList, .bool true)])) := by
  refine ⟨⟨rfl, ?_, ?_⟩, rfl, rfl⟩
  · exact ⟨"搜尋台灣新聞".toList, "然後".toList, [], "做成".toList, [], "簡報".toList,
      "並列出檔案".toList, "然後", "做成", "簡報", rfl, by decide, sameWord_self _, by decide,
      sameWord_self _, by decide, sameWord_self _, by simp, by simp⟩
  · have e : (tryLocalSkill stdHost okApi "搜尋台灣新聞然後做成簡報並列出檔案".toList St.init).1 =
        .ok (.obj [("message".toList, .str "工作目錄檔案:\nok".toList),
          ("speakText".toList, .str "已列出檔案".toList), ("isSkill".toList, .bool true)]) := rfl
    rw [e]
    simp

/-! ## The history -/

theorem frame_appends {α : Type} {P : Cap → Prop} {x : M α} (hx : Frame P x) :
    Appends 0 x := by
  intro s
  obtain ⟨evs, h1, _⟩ := hx s
  exact ⟨[], by rw [h1]; simp, by simp⟩

theorem appends_pure {α : Type} (a : α) : Appends 0 (Pure.pure a : M α) :=
  (frame_appends (frame_pure (fun _ => True) a))

theorem appends_liftE {α : Type} (x : Except JsError α) : Appends 0 (liftE x) :=
  (frame_appends (frame_liftE (fun _ => True) x))

theorem appends_emit (e : Event) : Appends 0 (emit e) := by
  intro s; exact ⟨[], by simp, by simp⟩

theorem appends_callApi (api : Api) (cap : Cap) (args : List JVal) :
    Appends 0 (callApi api cap args) := by
  intro s; exact ⟨[], by simp, by simp⟩

theorem appends_getHistory : Appends 0 getHistory := by
  intro s; exact ⟨[], by simp [DigitalAssistant.getHistory], by simp⟩

theorem appends_pushHistory (e : JVal) : Appends 1 (pushHistory e) := by
  intro s; exact ⟨[e], by simp [DigitalAssistant.pushHistory], by simp⟩

theorem appends_bind {α β : Type} {n m : Nat} {x : M α} {f : α → M β}
    (hx : Appends n x) (hf : ∀ a, Appends m (f a)) : Appends (n + m) (x >>= f) := by
  intro s
  obtain ⟨a1, h1, l1⟩ := hx s
  simp only [run_bind]
  rcases hxs : x s with ⟨r, s1⟩
  rw [hxs] at h1
  simp only at h1
  cases r with
  | error e => exact ⟨a1, h1, by omega⟩
  | ok a =>
    obtain ⟨a2, h2, l2⟩ := hf a s1
    refine ⟨a1 ++ a2, ?_, by simp; omega⟩
    simp only
    rw [h2, h1, List.append_assoc]

theorem appends_tryCatchM {α : Type} {n m : Nat} {x : M α} {f : JsError → M α}
    (hx : Appends n x) (hf : ∀ e, Appends m (f e)) : Appends (n + m) (tryCatchM x f) := by
  intro s
  obtain ⟨a1, h1, l1⟩ := hx s
  simp only [run_tryCatchM]
  rcases hxs : x s with ⟨r, s1⟩
  rw [hxs] at h1
  simp only at h1
  cases r with
  | ok a => exact ⟨a1, h1, by omega⟩
  | error e =>
    obtain ⟨a2, h2, l2⟩ := hf e s1
    refine ⟨a1 ++ a2, ?_, by simp; omega⟩
    simp only
    rw [h2, h1, List.append_assoc]

theorem appends_bind0 {α β : Type} {m : Nat} {x : M α} {f : α → M β}
    (hx : Appends 0 x) (hf : ∀ a, Appends m (f a)) : Appends m (x >>= f) := by
  have := appends_bind hx hf
  rwa [Nat.zero_add] at this

theorem appends_bind1 {α β : Type} {n : Nat} {x : M α} {f : α → M β}
    (hx : Appends n x) (hf : ∀ a, Appends 0 (f a)) : Appends n (x >>= f) :=
  appends_bind hx hf

theorem appends_ite {α : Type} {n : Nat} {c : Prop} [Decidable c] {x y : M α}
    (hx : Appends n x) (hy : Appends n y) : Appends n (if c then x else y) := by
  split <;> assumption

theorem appends_mono {α : Type} {n m : Nat} {x : M α} (hx : Appends n x) (hnm : n ≤ m) :
    Appends m x := by
  intro s
  obtain ⟨a, h1, l1⟩ := hx s
  exact ⟨a, h1, by omega⟩

theorem callAIRequest_appends (h : Host) (api : Api) : Appends 1 (callAIRequest h api) := by
  unfold callAIRequest
  exact appends_bind0 appends_getHistory fun _ =>
    appends_bind0 (appends_callApi _ _ _) fun _ =>
    appends_bind0 (appends_liftE _) fun _ =>
    appends_bind0 (appends_liftE _) fun _ =>
    appends_bind0 (appends_liftE _) fun _ =>
    appends_bind1 (appends_pushHistory _) fun _ => appends_pure _

theorem callAI_history (h : Host) (api : Api) (u : Str) (s : St) :
    ∃ added, (callAI h api u s).2.conversationHistory =
        sentHistory s.conversationHistory u ++ added ∧ added.length ≤ 1 := by
  obtain ⟨a, h1, l1⟩ := callAIRequest_appends h api
    { s with conversationHistory := sentHistory s.conversationHistory u }
  refine ⟨a, ?_, l1⟩
  rw [← h1]
  simp only [callAI, run_bind, pushHistory, truncateHistory, sentHistory]

/-- The trace of `callAI`: one bridge call, the request, which carries the
history cut to its last 40 entries. -/
theorem callAI_log (h : Host) (api : Api) (u : Str) (s : St) :
    (callAI h api u s).2.log = s.log ++ [Event.call .chat_with_ai (chatArgs h s u)] := by
  unfold DigitalAssistant.callAI callAIRequest chatArgs sentHistory
  simp only [bind_assoc, run_bind]
  simp only [DigitalAssistant.pushHistory, truncateHistory, DigitalAssistant.getHistory,
    run_callApi, run_liftE, run_pure]
  cases api .chat_with_ai _ with
  | error e => simp
  | ok raw =>
    simp only
    cases parseRaw raw with
    | error e => simp
    | ok d =>
      simp only
      cases normalizeReply h d with
      | error e => simp
      | ok d2 =>
        simp only
        cases getProp d2 "text" with
        | error e => simp
        | ok t => simp

theorem showReply_appends (h : Host) (api : Api) (reply : JVal) :
    Appends 1 (showReply h api reply) := by
  unfold showReply
  refine appends_bind0 (appends_liftE _) fun _ => ?_
  refine appends_ite ?_ ?_
  · exact appends_bind0 (appends_liftE _) fun _ =>
      appends_bind0 (appends_liftE _) fun _ =>
      appends_bind0 (frame_appends (executeAISkill_frame h api _ _)) fun _ =>
      appends_bind0 (appends_liftE _) fun _ =>
      appends_bind0 (frame_appends (frame_addMessage (fun _ => True) _ _ _)) fun _ =>
      appends_bind0 (appends_liftE _) fun _ =>
      appends_bind0 (frame_appends (frame_speak (fun _ => True) _)) fun _ =>
      appends_bind0 (appends_liftE _) fun _ =>
      appends_ite (appends_pushHistory _) ((appends_mono (appends_pure _)) (by omega))
  · exact (appends_mono (appends_bind0 (appends_liftE _) fun _ =>
      appends_bind0 (frame_appends (frame_addMessage (fun _ => True) _ _ _)) fun _ =>
      appends_bind0 (appends_liftE _) fun _ =>
      (frame_appends (frame_speak (fun _ => True) _)))) (by omega)

theorem turnHist_of_appends {α : Type} {u : Str} {x : M α} (hx : Appends 0 x) :
    TurnHist u x := by
  intro s
  obtain ⟨a, h1, l1⟩ := hx s
  have : a = [] := List.length_eq_zero.mp (by omega)
  subst this
  exact Or.inl (by simpa using h1)

theorem turnHist_bind {α β : Type} {u : Str} {x : M α} {f : α → M β}
    (hx : Appends 0 x) (hf : ∀ a, TurnHist u (f a)) : TurnHist u (x >>= f) := by
  intro s
  obtain ⟨a, h1, l1⟩ := hx s
  have : a = [] := List.length_eq_zero.mp (by omega)
  subst this
  simp only [List.append_nil] at h1
  simp only [run_bind]
  rcases hxs : x s with ⟨r, s1⟩
  rw [hxs] at h1
  simp only at h1
  cases r with
  | error e => exact Or.inl h1
  | ok v =>
    have := hf v s1
    rw [h1] at this
    exact this

theorem turnHist_ite {α : Type} {u : Str} {c : Prop} [Decidable c] {x y : M α}
    (hx : TurnHist u x) (hy : TurnHist u y) : TurnHist u (if c then x else y) := by
  split <;> assumption

theorem turnHist_callAI {α : Type} (h : Host) (api : Api) (u : Str) (f : JVal → M α)
    (hf : ∀ a, Appends 1 (f a)) : TurnHist u (callAI h api u >>= f) := by
  intro s
  obtain ⟨a1, h1, l1⟩ := callAI_history h api u s
  simp only [run_bind]
  rcases hxs : DigitalAssistant.callAI h api u s with ⟨r, s1⟩
  rw [hxs] at h1
  simp only at h1
  cases r with
  | error e => exact Or.inr ⟨a1, h1, by omega⟩
  | ok v =>
    obtain ⟨a2, h2, l2⟩ := hf v s1
    refine Or.inr ⟨a1 ++ a2, ?_, by simp; omega⟩
    simp only
    rw [h2, h1, List.append_assoc]

theorem turnHist_tryCatchM {α : Type} {u : Str} {x : M α} {f : JsError → M α}
    (hx : TurnHist u x) (hf : ∀ e, Appends 0 (f e)) : TurnHist u (tryCatchM x f) := by
  intro s
  simp only [run_tryCatchM]
  have hxs' := hx s
  rcases hxs : x s with ⟨r, s1⟩
  rw [hxs] at hxs'
  simp only at hxs'
  cases r with
  | ok a => exact hxs'
  | error e =>
    obtain ⟨a2, h2, l2⟩ := hf e s1
    have : a2 = [] := List.length_eq_zero.mp (by omega)
    subst this
    simp only [List.append_nil] at h2
    simp only
    rw [h2]
    exact hxs'

theorem sendMessage_turnHist (h : Host) (api : Api) (text : Str) :
    TurnHist text (sendMessage h api text) := by
  unfold sendMessage
  refine turnHist_ite (turnHist_of_appends (appends_pure _)) ?_
  refine turnHist_bind (appends_emit _) fun _ => ?_
  refine turnHist_bind (frame_appends (frame_addMessage (fun _ => True) _ _ _)) fun _ => ?_
  refine turnHist_bind (frame_appends (tracks_frame (tryLocalSkill_tracks h api text))) fun _ => ?_
  refine turnHist_ite ?_ ?_
  · exact turnHist_of_appends
      (appends_bind0 (appends_liftE _) fun _ =>
       appends_bind0 (appends_liftE _) fun _ =>
       appends_bind0 (frame_appends (frame_addMessage (fun _ => True) _ _ _)) fun _ =>
       appends_bind0 (appends_liftE _) fun _ =>
       appends_bind0 (appends_liftE _) fun _ =>
       (frame_appends (frame_speak (fun _ => True) _)))
  · refine turnHist_bind (appends_emit _) fun _ => ?_
    refine turnHist_tryCatchM ?_ ?_
    · exact turnHist_callAI h api text _ fun _ =>
        appends_bind0 (appends_emit _) fun _ => showReply_appends h api _
    · intro e
      exact appends_bind0 (appends_emit _) fun _ =>
        (frame_appends (frame_addMessage (fun _ => True) _ _ _))

theorem sentHistory_length (hist : List JVal) (u : Str) : (sentHistory hist u).length ≤ 40 := by
  unfold sentHistory
  split
  · simp only [List.length_drop]
    omega
  · omega

theorem sentHistory_drop (hist : List JVal) (u : Str) :
    ∃ k, sentHistory hist u = hist.drop k ++ [historyEntry "user" (.str u)] := by
  unfold sentHistory
  split
  · rename_i hlen
    refine ⟨(hist ++ [historyEntry "user" (.str u)]).length - 40, ?_⟩
    rw [List.drop_append_of_le_length]
    simp only [List.length_append, List.length_singleton] at hlen ⊢
    omega
  · exact ⟨0, rfl⟩

theorem runTurn_history (h : Host) (t : Turn) (s0 : St) :
    (runTurn h t s0).conversationHistory = s0.conversationHistory ∨
    ∃ u added, (runTurn h t s0).conversationHistory =
      sentHistory s0.conversationHistory u ++ added ∧ added.length ≤ 2 := by
  cases t with
  | send api text =>
    rcases sendMessage_turnHist h api text s0 with h1 | ⟨added, h1, l1⟩
    · exact Or.inl h1
    · exact Or.inr ⟨text, added, h1, l1⟩
  | ask api text =>
    obtain ⟨added, h1, l1⟩ := callAI_history h api text s0
    exact Or.inr ⟨text, added, h1, by omega⟩

theorem runTurn_length (h : Host) (t : Turn) (s0 : St)
    (hs : s0.conversationHistory.length ≤ 42) :
    (runTurn h t s0).conversationHistory.length ≤ 42 := by
  rcases runTurn_history h t s0 with h1 | ⟨u, added, h1, l1⟩
  · rw [h1]; exact hs
  · rw [h1, List.length_append]
    have := sentHistory_length s0.conversationHistory u
    omega

theorem runTurns_length (h : Host) (turns : List Turn) :
    ∀ s : St, s.conversationHistory.length ≤ 42 →
      (runTurns h turns s).conversationHistory.length ≤ 42 := by
  induction turns with
  | nil => intro s hs; exact hs
  | cons t rest ih => intro s hs; exact ih _ (runTurn_length h t s hs)

/-- C1, as amended. From a history of at most 42 entries (the empty history of
a new assistant in particular) every sequence of turns, `sendMessage` or
`callAI` with any behaviour of the bridge, leaves at most 42 entries:
`callAI` cuts the history to its last 40 entries right after pushing the user
entry, so that every request carries at most 40 entries, and the assistant
entry and the entry added after `fetch_news` come after the cut. Every turn
leaves the old history without some prefix, followed by at most three new
entries: only the oldest entries are dropped. -/
theorem history_bounded (h : Host) (turns : List Turn) (s : St)
    (hs : s.conversationHistory.length ≤ 42) :
    (runTurns h turns s).conversationHistory.length ≤ 42 ∧
    (∀ (t : Turn) (s0 : St), ∃ k added,
      (runTurn h t s0).conversationHistory = s0.conversationHistory.drop k ++ added ∧
      added.length ≤ 3) ∧
    (∀ (api : Api) (u : Str) (s0 : St), ∃ sent, sent.length ≤ 40 ∧
      (callAI h api u s0).2.log = s0.log ++
        [Event.call .chat_with_ai
          [h.jsonStringify (.arr sent []), h.jsonStringify skillCatalog]]) := by
  refine ⟨runTurns_length h turns s hs, fun t s0 => ?_, fun api u s0 =>
    ⟨sentHistory s0.conversationHistory u, sentHistory_length _ _, callAI_log h api u s0⟩⟩
  rcases runTurn_history h t s0 with h1 | ⟨u, added, h1, l1⟩
  · exact ⟨0, [], by simpa using h1, by simp⟩
  · obtain ⟨k, hk⟩ := sentHistory_drop s0.conversationHistory u
    refine ⟨k, historyEntry "user" (.str u) :: added, ?_, by simp; omega⟩
    rw [h1, hk]
    simp

/-- C1 as amended, on a run: 21 remote turns from the empty history. -/
theorem history_bounded_witness :
    (runTurns stdHost
      (List.replicate 21 (.send (replyApi "\x7b\"text\":\"ok\"\x7d") "hi".toList))
      St.init).conversationHistory.length ≤ 42 :=
  (history_bounded stdHost
    (List.replicate 21 (.send (replyApi "\x7b\"text\":\"ok\"\x7d") "hi".toList))
    St.init (by decide)).1

set_option maxRecDepth 100000 in
/-- C1 as stated fails: after 21 remote turns from the empty history, each
answered with `{"text":"ok"}`, the history holds 41 entries. The cut to 40
happens before the assistant entry is pushed. -/
theorem history_exceeds_40 :
    (runTurns stdHost
      (List.replicate 21 (.send (replyApi "\x7b\"text\":\"ok\"\x7d") "hi".toList))
      St.init).conversationHistory.length = 41 ∧
    ¬ (runTurns stdHost
      (List.replicate 21 (.send (replyApi "\x7b\"text\":\"ok\"\x7d") "hi".toList))
      St.init).conversationHistory.length ≤ 40 := by
  have e : (runTurns stdHost
      (List.replicate 21 (.send (replyApi "\x7b\"text\":\"ok\"\x7d") "hi".toList))
      St.init).conversationHistory.length = 41 := by rfl
  exact ⟨e, by rw [e]; decide⟩

/-! ## sendMessage and failures on the local path -/

/-- C7 fails on the local-skill path, which `sendMessage` awaits outside its
`try`: with a bridge whose `system_info` resolves with text that is not JSON,
`sendMessage('system info')` rejects with the `SyntaxError` of `JSON.parse`,
and with a bridge that rejects `launch_app`, `sendMessage('打開記事本')` rejects
with that error; in both runs the trace ends with the bridge call and no
assistant message is shown. -/
theorem sendMessage_rejects_on_local_failure :
    sendMessage stdHost malformedApi "system info".toList St.init =
      (.error syntaxError, { St.init with log :=
        [.inputCleared, .message "user".toList (.str "system info".toList) false,
         .call .system_info []] }) ∧
    sendMessage stdHost rejectingApi "打開記事本".toList St.init =
      (.error ⟨"Error".toList, "bridge down".toList⟩, { St.init with log :=
        [.inputCleared, .message "user".toList (.str "打開記事本".toList) false,
         .call .launch_app [.str "notepad".toList]] }) :=
  ⟨rfl, rfl⟩

/-! ## The reply of callAI -/

theorem skillSentinel_text (data d : JVal) (hd : skillSentinel data = .ok d) :
    ∃ v, getProp d "text" = .ok v := by
  cases data <;> simp [skillSentinel, getProp, setProp, bind, Except.bind, pure, Except.pure] at hd
  all_goals (split at hd <;> cases hd <;> exact ⟨_, rfl⟩)

theorem normalizeReply_text (h : Host) (payload d : JVal)
    (hd : normalizeReply h payload = .ok d) : ∃ v, getProp d "text" = .ok v := by
  unfold normalizeReply at hd
  simp only [bind, Except.bind] at hd
  split at hd
  · cases hd
  · exact skillSentinel_text _ d hd

theorem callAI_result (h : Host) (api : Api) (u : Str) (s : St) (raw payload : JVal)
    (hraw : api .chat_with_ai (chatArgs h s u) = .ok raw) (hp : parseRaw raw = .ok payload) :
    (callAI h api u s).1 = normalizeReply h payload := by
  simp only [chatArgs, sentHistory] at hraw
  simp only [callAI, callAIRequest, run_bind, pushHistory, truncateHistory, getHistory,
    run_callApi, run_liftE, hraw, hp]
  cases hn : normalizeReply h payload with
  | error e => rfl
  | ok d =>
    obtain ⟨v, hv⟩ := normalizeReply_text h payload d hn
    simp [hv]

theorem truthy_str_of_startsWith (t : Str) (hs : startsWith (trimStart t) ['{'] = true) :
    truthy (.str t) = true := by
  cases t with
  | nil => simp [startsWith, trimStart] at hs
  | cons c cs => rfl

theorem hasKey_object (v : JVal) (k : String) (hk : hasKey v k = true) :
    truthy v = true ∧ isObjectType v = true := by
  cases v <;> simp [hasKey] at hk <;> exact ⟨rfl, rfl⟩

/-- C3. When the `text` of the payload is a string that starts with `{` after
leading white space and parses, then: if the parsed value has a `text` or a
`skill` key, it replaces the payload, and the reply of `callAI` is what the
remaining steps (embedded-JSON extraction, skill sentinel) make of that inner
object; if it has neither key, the payload is kept and the remaining steps
run on it. -/
theorem double_encoding_unwrapped (h : Host) (api : Api) (u : Str) (s : St)
    (raw : JVal) (ps : List (Str × JVal)) (t : Str) (inner : JVal)
    (hraw : api .chat_with_ai (chatArgs h s u) = .ok raw)
    (hpay : parseRaw raw = .ok (.obj ps))
    (ht : lookupProp "text".toList ps = .str t)
    (hs : startsWith (trimStart t) ['{'] = true)
    (hp : jsonParse t = .ok inner) :
    ((hasKey inner "text" = true ∨ hasKey inner "skill" = true) →
      unwrapDouble (.obj ps) = .ok inner ∧
      (callAI h api u s).1 = (extractEmbedded h inner >>= skillSentinel)) ∧
    ((hasKey inner "text" = false ∧ hasKey inner "skill" = false) →
      unwrapDouble (.obj ps) = .ok (.obj ps) ∧
      (callAI h api u s).1 = (extractEmbedded h (.obj ps) >>= skillSentinel)) := by
  have htr := truthy_str_of_startsWith t hs
  have ht' : lookupProp ['t', 'e', 'x', 't'] ps = .str t := ht
  rw [callAI_result h api u s raw (.obj ps) hraw hpay]
  constructor
  · intro hk
    have hobj : truthy inner = true ∧ isObjectType inner = true := by
      rcases hk with hk | hk
      · exact hasKey_object inner _ hk
      · exact hasKey_object inner _ hk
    have hcond : (truthy inner && isObjectType inner &&
        (hasKey inner "text" || hasKey inner "skill")) = true := by
      rcases hk with hk | hk <;> simp [hobj.1, hobj.2, hk]
    have hu : unwrapDouble (.obj ps) = .ok inner := by
      simp [unwrapDouble, getProp, ht', htr, hs, hp, hcond, bind, Except.bind, pure, Except.pure]
    exact ⟨hu, by simp [normalizeReply, hu, bind, Except.bind]⟩
  · intro hk
    have hu : unwrapDouble (.obj ps) = .ok (.obj ps) := by
      simp [unwrapDouble, getProp, ht', htr, hs, hp, hk.1, hk.2, bind, Except.bind, pure,
        Except.pure]
    exact ⟨hu, by simp [normalizeReply, hu, bind, Except.bind]⟩

/-- C3, on the payload `{"text": "{\"text\":\"hi\",\"skill\":\"get_datetime\"}"}`:
the reply is `{text: "hi", skill: "get_datetime"}`. -/
theorem double_encoding_unwrapped_witness :
    (callAI stdHost
      (replyApi "\x7b\"text\":\"\x7b\\\"text\\\":\\\"hi\\\",\\\"skill\\\":\\\"get_datetime\\\"\x7d\"\x7d")
      "hello".toList St.init).1 =
      .ok (.obj [("text".toList, .str "hi".toList),
        ("skill".toList, .str "get_datetime".toList)]) :=
  ((double_encoding_unwrapped stdHost
    (replyApi "\x7b\"text\":\"\x7b\\\"text\\\":\\\"hi\\\",\\\"skill\\\":\\\"get_datetime\\\"\x7d\"\x7d")
    "hello".toList St.init _ _ _ _ rfl rfl rfl rfl rfl).1 (Or.inl rfl)).2

/-! ## The shape of what JSON.parse returns -/

theorem parseMembers_done (f : Nat) (inp : Str) (i : Nat) (acc : List (Str × JVal)) (v : JVal) (j : Nat)
    (hd : parseMembers f inp i acc = .done v j) :
    ∃ ps k, v = .obj ps ∧ j = k + 1 ∧ (inp.drop k).head? = some '}' := by
  induction f generalizing i acc with
  | zero => simp [parseMembers] at hd
  | succ f ih =>
    rw [parseMembers] at hd
    split at hd
    · cases hd
    · split at hd
      · split at hd
        · cases hd
        · split at hd
          · split at hd
            · split at hd
              · exact ih _ _ hd
              · split at hd
                · rename_i hbrace
                  injection hd with hv hj
                  exact ⟨_, _, hv.symm, hj.symm, by simpa using hbrace⟩
                · cases hd
            · rename_i hr
              exact absurd hd (hr _ _)
          · cases hd
      · cases hd

theorem parseElems_done (f : Nat) (inp : Str) (i : Nat) (acc : List JVal) (v : JVal) (j : Nat)
    (hd : parseElems f inp i acc = .done v j) : ∃ xs, v = .arr xs [] := by
  induction f generalizing i acc with
  | zero => simp [parseElems] at hd
  | succ f ih =>
    rw [parseElems] at hd
    split at hd
    · split at hd
      · exact ih _ _ hd
      · split at hd
        · injection hd with hv hj
          exact ⟨_, hv.symm⟩
        · cases hd
    · rename_i hr
      exact absurd hd (hr _ _)

theorem parseValue_done (f : Nat) (inp : Str) (i : Nat) (v : JVal) (j : Nat)
    (hd : parseValue f inp i = .done v j) :
    (∀ ps, v = .obj ps → ∃ k, j = k + 1 ∧ (inp.drop k).head? = some '}') ∧
    (∀ xs ps, v = .arr xs ps → ps = []) := by
  cases f with
  | zero => simp [parseValue] at hd
  | succ f =>
    rw [parseValue] at hd
    split at hd
    · cases hd
    · split at hd
      · split at hd
        · rename_i hbrace
          injection hd with hv hj
          subst hv
          exact ⟨(fun _ _ => ⟨_, hj.symm, by simpa using hbrace⟩), (fun _ _ hx => by cases hx)⟩
        · obtain ⟨ps, k, rfl, hj, hk⟩ := parseMembers_done _ _ _ _ _ _ hd
          exact ⟨(fun _ _ => ⟨k, hj, hk⟩), (fun _ _ hx => by cases hx)⟩
      · split at hd
        · split at hd
          · injection hd with hv hj
            subst hv
            exact ⟨(fun _ hx => by cases hx), (fun _ _ hx => by cases hx; rfl)⟩
          · obtain ⟨xs, rfl⟩ := parseElems_done _ _ _ _ _ _ hd
            exact ⟨(fun _ hx => by cases hx), (fun _ _ hx => by cases hx; rfl)⟩
        · split at hd
          · split at hd
            · injection hd with hv hj
              subst hv
              exact ⟨(fun _ hx => by cases hx), (fun _ _ hx => by cases hx)⟩
            · cases hd
          · split at hd
            · injection hd with hv hj
              subst hv
              exact ⟨(fun _ hx => by cases hx), (fun _ _ hx => by cases hx)⟩
            · split at hd
              · injection hd with hv hj
                subst hv
                exact ⟨(fun _ hx => by cases hx), (fun _ _ hx => by cases hx)⟩
              · split at hd
                · injection hd with hv hj
                  subst hv
                  exact ⟨(fun _ hx => by cases hx), (fun _ _ hx => by cases hx)⟩
                · split at hd
                  · injection hd with hv hj
                    subst hv
                    exact ⟨(fun _ hx => by cases hx), (fun _ _ hx => by cases hx)⟩
                  · cases hd

theorem jsonParse_obj (t : Str) (ps : List (Str × JVal)) (hp : jsonParse t = .ok (.obj ps)) :
    ∃ u w, t = u ++ '}' :: w ∧ ∀ c ∈ w, isJsonSpace c = true := by
  unfold jsonParse at hp
  split at hp
  · rename_i v p hv
    split at hp
    · rename_i hall
      injection hp with hp
      subst hp
      obtain ⟨k, hj, hk⟩ := (parseValue_done _ _ _ _ _ hv).1 ps rfl
      subst hj
      refine ⟨t.take k, t.drop (k + 1), ?_, ?_⟩
      · have h1 : t.drop k = '}' :: t.drop (k + 1) := by
          cases hdk : t.drop k with
          | nil => simp [hdk] at hk
          | cons c cs =>
            simp [hdk] at hk
            subst hk
            have : cs = (t.drop k).drop 1 := by simp [hdk]
            rw [this, List.drop_drop]
        conv_lhs => rw [← List.take_append_drop k t]
        rw [h1]
      · simpa [List.all_eq_true] using hall
    · cases hp
  · cases hp

theorem jsonParse_arr (t : Str) (xs : List JVal) (ps : List (Str × JVal))
    (hp : jsonParse t = .ok (.arr xs ps)) : ps = [] := by
  unfold jsonParse at hp
  split at hp
  · rename_i v p hv
    split at hp
    · injection hp with hp
      subst hp
      exact (parseValue_done _ _ _ _ _ hv).2 xs ps rfl
    · cases hp
  · cases hp

/-! ## Which match the matcher returns -/

theorem starRun_sound {α : Type} (p : Char → Bool) (k : Str → Option α) (s : Str) (x : α)
    (hs : starRun p k s = some x) :
    ∃ u t, s = u ++ t ∧ (∀ c ∈ u, p c = true) ∧ k t = some x := by
  induction s with
  | nil => exact ⟨[], [], rfl, by simp, by simpa [starRun] using hs⟩
  | cons c cs ih =>
    simp only [starRun] at hs
    split at hs
    · rename_i hc
      split at hs
      · rename_i r hr
        cases hs
        obtain ⟨u, t, hcs, hu, hk⟩ := ih hr
        refine ⟨c :: u, t, by rw [hcs]; rfl, ?_, hk⟩
        intro d hd
        rcases List.mem_cons.mp hd with rfl | hd
        · exact hc
        · exact hu d hd
      · exact ⟨[], c :: cs, rfl, by simp, hs⟩
    · exact ⟨[], c :: cs, rfl, by simp, hs⟩

/-- Soundness of the matcher: a successful run hands to its continuation a
rest that the pattern can leave. -/
theorem Re.run_sound {α : Type} (ic : Bool) (r : Re) :
    ∀ (s : Str) (cap : Option Str) (k : Str → Option Str → Option α) (x : α),
      Re.run ic r s cap k = some x →
      ∃ t cap', Re.Matches ic r s t ∧ k t cap' = some x := by
  induction r with
  | eps =>
    intro s cap k x hx
    exact ⟨s, cap, rfl, hx⟩
  | chr c =>
    intro s cap k x hx
    cases s with
    | nil => simp [Re.run] at hx
    | cons d t =>
      simp only [Re.run] at hx
      split at hx
      · rename_i hd
        exact ⟨t, cap, ⟨d, rfl, hd⟩, hx⟩
      · cases hx
  | cls p =>
    intro s cap k x hx
    cases s with
    | nil => simp [Re.run] at hx
    | cons d t =>
      simp only [Re.run] at hx
      split at hx
      · rename_i hd
        exact ⟨t, cap, ⟨d, rfl, hd⟩, hx⟩
      · cases hx
  | seq a b iha ihb =>
    intro s cap k x hx
    obtain ⟨m, c1, hma, hk1⟩ := iha s cap _ x hx
    obtain ⟨t, c2, hmb, hk2⟩ := ihb m c1 k x hk1
    exact ⟨t, c2, ⟨m, hma, hmb⟩, hk2⟩
  | alt a b iha ihb =>
    intro s cap k x hx
    simp only [Re.run] at hx
    split at hx
    · rename_i r hr
      cases hx
      obtain ⟨t, c1, hm, hk⟩ := iha s cap k _ hr
      exact ⟨t, c1, Or.inl hm, hk⟩
    · obtain ⟨t, c1, hm, hk⟩ := ihb s cap k x hx
      exact ⟨t, c1, Or.inr hm, hk⟩
  | star p =>
    intro s cap k x hx
    obtain ⟨u, t, hs, hu, hk⟩ := starRun_sound p _ s x hx
    exact ⟨t, cap, ⟨u, hs, hu⟩, hk⟩
  | group r ih =>
    intro s cap k x hx
    obtain ⟨t, c1, hm, hk⟩ := ih s cap _ x hx
    exact ⟨t, _, hm, hk⟩

theorem Re.matches_rest (ic : Bool) (r : Re) :
    ∀ (s t : Str), Re.Matches ic r s t → ∃ u, s = u ++ t := by
  induction r with
  | eps => intro s t hm; exact ⟨[], by simp [Re.Matches] at hm; simp [hm]⟩
  | chr c => intro s t hm; obtain ⟨d, rfl, _⟩ := hm; exact ⟨[d], rfl⟩
  | cls p => intro s t hm; obtain ⟨d, rfl, _⟩ := hm; exact ⟨[d], rfl⟩
  | seq a b iha ihb =>
    intro s t hm
    obtain ⟨m, hma, hmb⟩ := hm
    obtain ⟨u1, rfl⟩ := iha s m hma
    obtain ⟨u2, rfl⟩ := ihb m t hmb
    exact ⟨u1 ++ u2, by simp⟩
  | alt a b iha ihb =>
    intro s t hm
    rcases hm with hm | hm
    · exact iha s t hm
    · exact ihb s t hm
  | star p => intro s t hm; obtain ⟨u, rfl, _⟩ := hm; exact ⟨u, rfl⟩
  | group r ih => intro s t hm; exact ih s t hm

theorem Re.exec_whole (ic : Bool) (r : Re) (s : Str) (m : MatchResult)
    (hm : Re.exec ic r s = some m) : ∃ t, Re.Matches ic r s t ∧ s = m.whole ++ t := by
  obtain ⟨t, c, hmat, hk⟩ := Re.run_sound ic r s none _ m hm
  simp only [Option.some.injEq] at hk
  obtain ⟨u, rfl⟩ := Re.matches_rest ic r s t hmat
  refine ⟨t, hmat, ?_⟩
  rw [← hk]
  simp

theorem reMatch_infix (ic : Bool) (r : Re) (s : Str) (m : MatchResult)
    (hm : reMatch ic r s = some m) : ∃ a b, s = a ++ m.whole ++ b := by
  induction s with
  | nil =>
    obtain ⟨t, _, ht⟩ := Re.exec_whole ic r [] m (by simpa [reMatch] using hm)
    exact ⟨[], t, by simpa using ht⟩
  | cons c cs ih =>
    simp only [reMatch] at hm
    split at hm
    · rename_i m' hm'
      cases hm
      obtain ⟨t, _, ht⟩ := Re.exec_whole ic r _ _ hm'
      exact ⟨[], t, by simpa using ht⟩
    · obtain ⟨a, b, hab⟩ := ih hm
      exact ⟨c :: a, b, by rw [hab]; simp⟩

theorem last_occurrence_unique (c : Char) :
    ∀ (u u' w w' : Str), u ++ c :: w = u' ++ c :: w' → c ∉ w → c ∉ w' → w = w' := by
  intro u
  induction u with
  | nil =>
    intro u' w w' he hw hw'
    cases u' with
    | nil => simpa using he
    | cons d u'' =>
      simp only [List.nil_append, List.cons_append, List.cons.injEq] at he
      exact absurd (by rw [he.2]; simp) hw
  | cons d u1 ih =>
    intro u' w w' he hw hw'
    cases u' with
    | nil =>
      simp only [List.nil_append, List.cons_append, List.cons.injEq] at he
      exact absurd (by rw [← he.2]; simp) hw'
    | cons d' u'' =>
      simp only [List.cons_append, List.cons.injEq] at he
      exact ih u'' w w' he.2 hw hw'

theorem afterLast_some (c : Char) (t r : Str) (ht : afterLast c t = some r) :
    ∃ u, t = u ++ c :: r ∧ c ∉ r := by
  induction t generalizing r with
  | nil => simp [afterLast] at ht
  | cons d t ih =>
    simp only [afterLast] at ht
    split at ht
    · rename_i r' hr'
      cases ht
      obtain ⟨u, hu, hc⟩ := ih r hr'
      exact ⟨d :: u, by rw [hu]; rfl, hc⟩
    · rename_i hnone
      split at ht
      · rename_i hd
        cases ht
        refine ⟨[], by simp at hd; simp [hd], ?_⟩
        intro hmem
        obtain ⟨a, b, hab⟩ := List.append_of_mem hmem
        have : ∀ (a b : Str), afterLast c (a ++ c :: b) ≠ none := by
          intro a
          induction a with
          | nil =>
            intro b
            simp only [List.nil_append, afterLast]
            split <;> simp
          | cons e a iha =>
            intro b
            simp only [List.cons_append, afterLast]
            split
            · simp
            · rename_i hn
              exact absurd hn (iha b)
        exact this a b (hab ▸ hnone)
      · cases ht

theorem afterLast_of_rest (c : Char) (v t u w r : Str) (hs : v ++ t = u ++ c :: w)
    (hw : c ∉ w) (ht : afterLast c t = some r) : r = w := by
  obtain ⟨u', hu', hr⟩ := afterLast_some c t r ht
  subst hu'
  exact last_occurrence_unique c (v ++ u') u r w (by simpa using hs) hr hw

/-- The greedy `[\s\S]*` followed by the literal `c` stops at the last `c`. -/
theorem starRun_last {α : Type} (c : Char) (g : Str → Option α)
    (hg : ∀ r, (g r).isSome = true) (s : Str) :
    starRun anyChar (closeWith c g) s =
    match afterLast c s with
    | some r => g r
    | none => none := by
  induction s with
  | nil => simp [starRun, afterLast, closeWith]
  | cons d t ih =>
    simp only [starRun, anyChar, if_true, afterLast, ih]
    cases hal : afterLast c t with
    | some r =>
      simp only
      cases hgr : g r with
      | none => have := hg r; simp [hgr] at this
      | some y => rfl
    | none =>
      simp only [closeWith, charMatches]
      by_cases hdc : d = c
      · subst hdc; simp
      · have h1 : (c == d) = false := by simpa using fun h => hdc h.symm
        have h2 : (d == c) = false := by simpa using hdc
        simp [h1, h2]

/-! ## The embedded-JSON pattern -/

theorem exec_embedded_eq (s : Str) :
    Re.exec false embeddedRe s =
      Re.run false embeddedHead s none (fun t cap =>
        starRun anyChar (closeWith '}' (fun r =>
          some (⟨s.take (s.length - r.length), groupValue cap⟩ : MatchResult))) t) := rfl

theorem exec_embedded (J0 suf : Str) (hsuf : '}' ∉ suf)
    (hm : Re.Matches false embeddedRe (J0 ++ '}' :: suf) suf) :
    ∃ m, Re.exec false embeddedRe (J0 ++ '}' :: suf) = some m ∧ m.whole = J0 ++ ['}'] := by
  have hsome := Re.exec_isSome false embeddedRe _ _ hm
  cases hx : Re.exec false embeddedRe (J0 ++ '}' :: suf) with
  | none => simp [hx] at hsome
  | some m =>
    refine ⟨m, rfl, ?_⟩
    rw [exec_embedded_eq] at hx
    obtain ⟨t, cap, hmat, hk⟩ := Re.run_sound false embeddedHead _ none _ m hx
    obtain ⟨v, hv⟩ := Re.matches_rest false embeddedHead _ t hmat
    rw [starRun_last '}' _ (by intro _; rfl) t] at hk
    cases hal : afterLast '}' t with
    | none => simp [hal] at hk
    | some r =>
      simp only [hal, Option.some.injEq] at hk
      have hr : r = suf := afterLast_of_rest '}' v t J0 suf r hv.symm hsuf hal
      subst hr
      rw [← hk]
      have hlen : (J0 ++ '}' :: r).length - r.length = (J0 ++ ['}']).length := by
        simp only [List.length_append, List.length_cons, List.length_nil]
        omega
      have happ : J0 ++ '}' :: r = (J0 ++ ['}']) ++ r := by simp
      simp only [hlen]
      rw [happ, List.take_left']
      rfl

theorem exec_embedded_none (c : Char) (rest : Str) (hc : c ≠ '{') :
    Re.exec false embeddedRe (c :: rest) = none := by
  have h1 : charMatches false '{' c = false := by
    simpa [charMatches] using fun h => hc h.symm
  simp [Re.exec, embeddedRe, Re.seqs, Re.run, h1]

theorem reMatch_embedded (pre rest : Str) (hpre : '{' ∉ pre) :
    reMatch false embeddedRe (pre ++ '{' :: rest) = Re.exec false embeddedRe ('{' :: rest) ∨
    (Re.exec false embeddedRe ('{' :: rest) = none) := by
  induction pre with
  | nil =>
    simp only [List.nil_append, reMatch]
    cases Re.exec false embeddedRe ('{' :: rest) <;> simp
  | cons c p ih =>
    have hc : c ≠ '{' := fun h => hpre (by simp [h])
    have hp : '{' ∉ p := fun h => hpre (List.mem_cons_of_mem _ h)
    simp only [List.cons_append, reMatch, exec_embedded_none c _ hc]
    exact ih hp

theorem litList_self (w t : Str) :
    Re.Matches false (w.foldr (fun c r => Re.seq (.chr c) r) .eps) (w ++ t) t :=
  Re.matches_litList false w w t (by rw [List.forall₂_same]; intro c _; simp [charMatches])

theorem embeddedRe_matches_shape (S A suf : Str) :
    Re.Matches false embeddedRe
      ("\x7b\"skill\":".toList ++ S ++ ",\"args\":".toList ++ A ++ '}' :: suf) suf := by
  have e : "\x7b\"skill\":".toList ++ S ++ ",\"args\":".toList ++ A ++ '}' :: suf =
      '{' :: ([] ++ ("\"skill\"".toList ++ ([] ++ ':' :: ((S ++ [',']) ++
        ("\"args\"".toList ++ ([] ++ ':' :: (A ++ '}' :: suf))))))) := by
    simp
  rw [e]
  refine ⟨_, ⟨'{', rfl, rfl⟩, _, ⟨[], rfl, by simp⟩, _, litList_self _ _, _, ⟨[], rfl, by simp⟩,
    _, ⟨':', rfl, rfl⟩, _, ⟨S ++ [','], rfl, by simp [anyChar]⟩, _, litList_self _ _, _,
    ⟨[], rfl, by simp⟩, _, ⟨':', rfl, rfl⟩, _, ⟨A, rfl, by simp [anyChar]⟩, '}', rfl, rfl⟩

theorem removeFirst_infix (pre J1 suf : Str) (hpre : '{' ∉ pre) :
    removeFirst ('{' :: J1) (pre ++ '{' :: J1 ++ suf) = pre ++ suf := by
  induction pre with
  | nil =>
    have hp : ('{' :: J1).isPrefixOf ('{' :: (J1 ++ suf)) = true := by
      rw [← List.cons_append]
      exact List.isPrefixOf_iff_prefix.mpr (List.prefix_append _ _)
    simp only [List.nil_append, List.cons_append, removeFirst, hp, if_true]
    simp
  | cons c p ih =>
    have hc : c ≠ '{' := fun h => hpre (by simp [h])
    have hp : '{' ∉ p := fun h => hpre (List.mem_cons_of_mem _ h)
    have hn : ('{' :: J1).isPrefixOf (c :: (p ++ '{' :: J1 ++ suf)) = false := by
      rw [List.isPrefixOf]
      simp [Ne.symm hc]
    show removeFirst ('{' :: J1) (c :: (p ++ '{' :: J1 ++ suf)) = c :: (p ++ suf)
    rw [removeFirst, hn]
    have := ih hp
    simp only [List.append_assoc, List.cons_append] at this
    simp [this]

/-! ## Properties, and the double-encoding step on free text -/

theorem lookupProp_assignProp_same (k : Str) (v : JVal) (ps : List (Str × JVal)) :
    lookupProp k (assignProp k v ps) = v := by
  induction ps with
  | nil => simp [assignProp, lookupProp]
  | cons p rest ih =>
    obtain ⟨k', v'⟩ := p
    by_cases hk : (k' == k) = true
    · simp [assignProp, lookupProp, hk]
    · simp only [Bool.not_eq_true] at hk
      simp [assignProp, lookupProp, hk, ih]

theorem lookupProp_assignProp_ne (k k2 : Str) (v : JVal) (ps : List (Str × JVal))
    (hne : k2 ≠ k) : lookupProp k (assignProp k2 v ps) = lookupProp k ps := by
  induction ps with
  | nil =>
    have : (k2 == k) = false := by simpa using hne
    simp [assignProp, lookupProp, this]
  | cons p rest ih =>
    obtain ⟨k', v'⟩ := p
    by_cases hk : (k' == k2) = true
    · have hk' : k' = k2 := by simpa using hk
      have : (k' == k) = false := by simpa [hk'] using hne
      simp [assignProp, lookupProp, hk, this]
    · simp only [Bool.not_eq_true] at hk
      by_cases hk3 : (k' == k) = true
      · simp [assignProp, lookupProp, hk, hk3]
      · simp only [Bool.not_eq_true] at hk3
        simp [assignProp, lookupProp, hk, hk3, ih]

theorem hasProp_of_lookupProp (k : Str) (ps : List (Str × JVal))
    (hl : lookupProp k ps ≠ .undefined) : hasProp k ps = true := by
  induction ps with
  | nil => simp [lookupProp] at hl
  | cons p rest ih =>
    obtain ⟨k', v'⟩ := p
    by_cases hk : (k' == k) = true
    · simp [hasProp, hk]
    · simp only [Bool.not_eq_true] at hk
      simp only [lookupProp, hk] at hl
      have := ih (by simpa using hl)
      simp only [hasProp, List.any_cons, hk, Bool.false_or]
      exact this

theorem lookupProp_of_not_hasProp (k : Str) (ps : List (Str × JVal))
    (hl : hasProp k ps = false) : lookupProp k ps = .undefined := by
  by_contra hne
  rw [hasProp_of_lookupProp k ps hne] at hl
  cases hl

theorem isJsSpace_of_isJsonSpace (c : Char) (hc : isJsonSpace c = true) :
    isJsSpace c = true := by
  simp only [isJsonSpace, Bool.or_eq_true, beq_iff_eq] at hc
  simp only [isJsSpace, Bool.or_eq_true, beq_iff_eq, Bool.and_eq_true, decide_eq_true_eq]
  omega

theorem trim_of_all_space (s : Str) (hs : ∀ c ∈ s, isJsSpace c = true) : trim s = [] := by
  have : trimStart s = [] := by
    unfold trimStart
    rw [List.dropWhile_eq_nil_iff]
    exact hs
  simp [trim, this, trimEnd]

theorem space_before_brace (pre rest : Str) (hpre : '{' ∉ pre)
    (hs : startsWith (trimStart (pre ++ '{' :: rest)) ['{'] = true) :
    ∀ c ∈ pre, isJsSpace c = true := by
  induction pre with
  | nil => simp
  | cons c p ih =>
    have hc : c ≠ '{' := fun h => hpre (by simp [h])
    have hp : '{' ∉ p := fun h => hpre (List.mem_cons_of_mem _ h)
    by_cases hsp : isJsSpace c = true
    · intro d hd
      rcases List.mem_cons.mp hd with rfl | hd
      · exact hsp
      · refine ih hp ?_ d hd
        simpa [trimStart, List.dropWhile, hsp] using hs
    · simp only [Bool.not_eq_true] at hsp
      simp [trimStart, List.dropWhile, hsp, startsWith, List.isPrefixOf, Ne.symm hc] at hs

theorem unwrapDouble_free_text (ps : List (Str × JVal)) (pre J1 suf : Str)
    (ht : lookupProp "text".toList ps = .str (pre ++ '{' :: J1 ++ '}' :: suf))
    (hpre : '{' ∉ pre) (hsuf : '}' ∉ suf) (htrim : trim (pre ++ suf) ≠ []) :
    unwrapDouble (.obj ps) = .ok (.obj ps) := by
  simp only [unwrapDouble, getProp, bind, Except.bind, ht, pure, Except.pure]
  split
  · rename_i hguard
    simp only [Bool.and_eq_true] at hguard
    cases hp : jsonParse (pre ++ '{' :: J1 ++ '}' :: suf) with
    | error e => rfl
    | ok inner =>
      simp only
      split
      · rename_i hcond
        exfalso
        simp only [Bool.and_eq_true, Bool.or_eq_true] at hcond
        have hpresp := space_before_brace pre (J1 ++ '}' :: suf) hpre
          (by simpa [List.append_assoc] using hguard.2)
        cases inner with
        | obj o =>
          obtain ⟨u, w, huw, hw⟩ := jsonParse_obj _ o hp
          have hwb : '}' ∉ w := fun hm => by
            simpa [isJsonSpace] using hw _ hm
          have hws : w = suf :=
            last_occurrence_unique '}' u (pre ++ '{' :: J1) w suf
              (by rw [← huw]) hwb hsuf
          subst hws
          apply htrim
          apply trim_of_all_space
          intro c hc
          rcases List.mem_append.mp hc with hc | hc
          · exact hpresp c hc
          · exact isJsSpace_of_isJsonSpace c (hw c hc)
        | arr xs aps =>
          have := jsonParse_arr _ xs aps hp
          subst this
          simp [hasKey, hasProp] at hcond
        | undefined => simp [hasKey] at hcond
        | null => simp [hasKey] at hcond
        | bool b => simp [hasKey] at hcond
        | num m e => simp [hasKey] at hcond
        | str s0 => simp [hasKey] at hcond
      · rfl
  · rfl

/-! ## Extraction of an embedded skill object from free text -/

theorem skillJson_eq (S A : Str) :
    skillJson S A = '{' :: ("\"skill\":".toList ++ S ++ ",\"args\":".toList ++ A ++ ['}']) := by
  simp [skillJson]

theorem reMatch_skillJson (pre S A suf : Str) (hpre : '{' ∉ pre) (hsuf : '}' ∉ suf) :
    ∃ m, reMatch false embeddedRe (pre ++ skillJson S A ++ suf) = some m ∧
      m.whole = skillJson S A := by
  have hshape := embeddedRe_matches_shape S A suf
  obtain ⟨m, hm, hw⟩ := exec_embedded
    ("\x7b\"skill\":".toList ++ S ++ ",\"args\":".toList ++ A) suf hsuf hshape
  have e1 : pre ++ skillJson S A ++ suf =
      pre ++ '{' :: ("\"skill\":".toList ++ S ++ ",\"args\":".toList ++ A ++ '}' :: suf) := by
    simp [skillJson]
  have e2 : "\x7b\"skill\":".toList ++ S ++ ",\"args\":".toList ++ A ++ '}' :: suf =
      '{' :: ("\"skill\":".toList ++ S ++ ",\"args\":".toList ++ A ++ '}' :: suf) := by
    simp
  rw [e2] at hm
  refine ⟨m, ?_, by rw [hw]; simp [skillJson]⟩
  rw [e1]
  rcases reMatch_embedded pre _ hpre with h1 | h1
  · rw [h1, hm]
  · rw [h1] at hm
    cases hm

theorem removeFirst_skillJson (pre S A suf : Str) (hpre : '{' ∉ pre) :
    removeFirst (skillJson S A) (pre ++ skillJson S A ++ suf) = pre ++ suf := by
  rw [skillJson_eq]
  have := removeFirst_infix pre ("\"skill\":".toList ++ S ++ ",\"args\":".toList ++ A ++ ['}'])
    suf hpre
  simpa [List.append_assoc] using this

theorem extractEmbedded_free_text (h : Host) (ps : List (Str × JVal)) (pre S A suf skill : Str)
    (args : List (Str × JVal))
    (ht : lookupProp "text".toList ps = .str (pre ++ skillJson S A ++ suf))
    (hparse : jsonParse (skillJson S A) =
      .ok (.obj [("skill".toList, .str skill), ("args".toList, .obj args)]))
    (hskill : skill ≠ [])
    (hpre : '{' ∉ pre) (hsuf : '}' ∉ suf) (htrim : trim (pre ++ suf) ≠ []) :
    extractEmbedded h (.obj ps) =
      .ok (.obj (assignProp "text".toList (.str (trim (pre ++ suf)))
        (assignProp "args".toList (.obj args)
          (assignProp "skill".toList (.str skill) ps)))) := by
  obtain ⟨m, hm, hw⟩ := reMatch_skillJson pre S A suf hpre hsuf
  have htr : truthy (.str (pre ++ skillJson S A ++ suf)) = true := by
    simp [truthy, skillJson]
  have hts : truthy (.str skill) = true := by
    cases skill with
    | nil => exact absurd rfl hskill
    | cons c cs => rfl
  have hl1 : lookupProp "text".toList (assignProp "args".toList (.obj args)
      (assignProp "skill".toList (.str skill) ps)) = .str (pre ++ skillJson S A ++ suf) := by
    rw [lookupProp_assignProp_ne _ _ _ _ (by decide),
      lookupProp_assignProp_ne _ _ _ _ (by decide), ht]
  have hrm := removeFirst_skillJson pre S A suf hpre
  have hne : (trim (pre ++ suf)).isEmpty = false := by
    cases hq : trim (pre ++ suf) with
    | nil => exact absurd hq htrim
    | cons c cs => rfl
  have hl1' : lookupProp ['t', 'e', 'x', 't'] (assignProp ['a', 'r', 'g', 's'] (.obj args)
      (assignProp ['s', 'k', 'i', 'l', 'l'] (.str skill) ps)) =
      .str (pre ++ skillJson S A ++ suf) := hl1
  have hsj : skillJson S A ≠ [] := by simp [skillJson]
  have hrm' : removeFirst (skillJson S A) (pre ++ (skillJson S A ++ suf)) = pre ++ suf := by
    rw [← List.append_assoc]
    exact hrm
  have htn : trim (pre ++ suf) ≠ [] := htrim
  simp only [extractEmbedded, getProp, bind, Except.bind, pure, Except.pure, ht, htr, hm, hw,
    hparse, if_true]
  simp [lookupProp, truthy, hoistEmbedded, setProp, hoistedText, jsOr, getProp, bind,
    Except.bind, pure, Except.pure, hl1', hrm', htn, hskill, hsj]

/-- C2. When the text of the reply is `prefix + J + suffix`, where `J` is the
text `{"skill":S,"args":A}` of an object with a non-empty string `skill` and
an object `args` (so `J` parses to that object), `prefix` has no `{`, `suffix`
has no `}` and `trim(prefix + suffix)` is not empty, the reply of `callAI` has
`skill` and `args` of that object and `trim(prefix + suffix)` as its text. -/
theorem embedded_skill_extracted (h : Host) (api : Api) (u : Str) (s : St) (raw : JVal)
    (ps : List (Str × JVal)) (pre S A suf skill : Str) (args : List (Str × JVal))
    (hraw : api .chat_with_ai (chatArgs h s u) = .ok raw)
    (hpay : parseRaw raw = .ok (.obj ps))
    (ht : lookupProp "text".toList ps = .str (pre ++ skillJson S A ++ suf))
    (hparse : jsonParse (skillJson S A) =
      .ok (.obj [("skill".toList, .str skill), ("args".toList, .obj args)]))
    (hskill : skill ≠ [])
    (hpre : '{' ∉ pre) (hsuf : '}' ∉ suf) (htrim : trim (pre ++ suf) ≠ []) :
    ∃ data, (callAI h api u s).1 = .ok data ∧
      getProp data "skill" = .ok (.str skill) ∧
      getProp data "args" = .ok (.obj args) ∧
      getProp data "text" = .ok (.str (trim (pre ++ suf))) := by
  have hu : unwrapDouble (.obj ps) = .ok (.obj ps) := by
    refine unwrapDouble_free_text ps pre
      ("\"skill\":".toList ++ S ++ ",\"args\":".toList ++ A) suf ?_ hpre hsuf htrim
    rw [ht]
    simp [skillJson]
  have he := extractEmbedded_free_text h ps pre S A suf skill args ht hparse hskill hpre hsuf
    htrim
  have hts : truthy (.str skill) = true := by
    cases skill with
    | nil => exact absurd rfl hskill
    | cons c cs => rfl
  have hsk : lookupProp "skill".toList (assignProp "text".toList (.str (trim (pre ++ suf)))
      (assignProp "args".toList (.obj args) (assignProp "skill".toList (.str skill) ps))) =
      .str skill := by
    rw [lookupProp_assignProp_ne _ _ _ _ (by decide),
      lookupProp_assignProp_ne _ _ _ _ (by decide), lookupProp_assignProp_same]
  have har : lookupProp "args".toList (assignProp "text".toList (.str (trim (pre ++ suf)))
      (assignProp "args".toList (.obj args) (assignProp "skill".toList (.str skill) ps))) =
      .obj args := by
    rw [lookupProp_assignProp_ne _ _ _ _ (by decide), lookupProp_assignProp_same]
  have hss : skillSentinel (.obj (assignProp "text".toList (.str (trim (pre ++ suf)))
      (assignProp "args".toList (.obj args) (assignProp "skill".toList (.str skill) ps)))) =
      .ok (.obj (assignProp "text".toList (.str (trim (pre ++ suf)))
      (assignProp "args".toList (.obj args) (assignProp "skill".toList (.str skill) ps)))) := by
    simp only [skillSentinel, getProp, bind, Except.bind, hsk, hts, if_true]
    rfl
  refine ⟨.obj (assignProp "text".toList (.str (trim (pre ++ suf)))
      (assignProp "args".toList (.obj args) (assignProp "skill".toList (.str skill) ps))),
    ?_, ?_, ?_, ?_⟩
  · rw [callAI_result h api u s raw (.obj ps) hraw hpay]
    simp only [normalizeReply, bind, Except.bind, hu, he]
    exact hss
  · simp only [getProp, hsk]
  · simp only [getProp, har]
  · simp only [getProp, lookupProp_assignProp_same]

/-- C2, on the text `Sure! {"skill":"open_url","args":{"url":"http://x"}} done`:
skill `open_url`, args `{url: "http://x"}` and the text `Sure!  done`. -/
theorem embedded_skill_extracted_witness :
    ∃ data,
      (callAI stdHost
        (replyApi "\x7b\"text\":\"Sure! \x7b\\\"skill\\\":\\\"open_url\\\",\\\"args\\\":\x7b\\\"url\\\":\\\"http://x\\\"\x7d\x7d done\"\x7d")
        "hi".toList St.init).1 = .ok data ∧
      getProp data "skill" = .ok (.str "open_url".toList) ∧
      getProp data "args" = .ok (.obj [("url".toList, .str "http://x".toList)]) ∧
      getProp data "text" = .ok (.str "Sure!  done".toList) :=
  embedded_skill_extracted stdHost
    (replyApi "\x7b\"text\":\"Sure! \x7b\\\"skill\\\":\\\"open_url\\\",\\\"args\\\":\x7b\\\"url\\\":\\\"http://x\\\"\x7d\x7d done\"\x7d")
    "hi".toList St.init _ _ "Sure! ".toList "\"open_url\"".toList
    "\x7b\"url\":\"http://x\"\x7d".toList " done".toList "open_url".toList
    [("url".toList, .str "http://x".toList)] rfl rfl rfl rfl (by decide) (by decide) (by decide)
    (by decide)

/-! ## The skill sentinel -/

theorem hasKey_of_truthy_getProp (v x : JVal) (k : String) (hg : getProp v k = .ok x)
    (hx : truthy x = true) : hasKey v k = true := by
  cases v with
  | obj ps =>
    simp only [getProp, Except.ok.injEq] at hg
    exact hasProp_of_lookupProp _ _ (by rw [hg]; intro hu; rw [hu] at hx; cases hx)
  | arr xs ps =>
    simp only [getProp, Except.ok.injEq] at hg
    exact hasProp_of_lookupProp _ _ (by rw [hg]; intro hu; rw [hu] at hx; cases hx)
  | undefined => cases hg
  | null => cases hg
  | bool b => simp only [getProp, Except.ok.injEq] at hg; subst hg; cases hx
  | num m e => simp only [getProp, Except.ok.injEq] at hg; subst hg; cases hx
  | str s => simp only [getProp, Except.ok.injEq] at hg; subst hg; cases hx

theorem hasProp_assignProp (k : Str) (v : JVal) (ps : List (Str × JVal)) :
    hasProp k (assignProp k v ps) = true := by
  induction ps with
  | nil => simp [assignProp, hasProp]
  | cons p rest ih =>
    obtain ⟨k', v'⟩ := p
    by_cases hk : (k' == k) = true
    · simp [assignProp, hasProp, hk]
    · simp only [Bool.not_eq_true] at hk
      simp only [assignProp, hk, hasProp, List.any_cons, Bool.false_or, Bool.false_eq_true,
        if_false]
      exact ih

theorem extractEmbedded_no_skill (h : Host) (ps : List (Str × JVal))
    (hnt : ∀ t, lookupProp "text".toList ps = .str t → ¬ EmbedsSkill t) :
    extractEmbedded h (.obj ps) = .ok (.obj ps) := by
  simp only [extractEmbedded, getProp, bind, Except.bind, pure, Except.pure]
  split
  · rename_i t hlt
    split
    · split
      · rfl
      · rename_i m hm
        split
        · rfl
        · rename_i embedded hpe
          split
          · rfl
          · rename_i sk hsk
            split
            · rename_i htsk
              exfalso
              obtain ⟨a, b, hab⟩ := reMatch_infix false embeddedRe t m hm
              exact hnt t hlt ⟨a, m.whole, b, embedded, hab, hpe,
                hasKey_of_truthy_getProp embedded sk "skill" hsk htsk⟩
            · rfl
    · rfl
  · rfl

theorem not_embedsSkill_of_no_brace (t : Str) (ht : '}' ∉ t) : ¬ EmbedsSkill t := by
  rintro ⟨a, J, b, v, rfl, hp, hk⟩
  cases v with
  | obj o =>
    obtain ⟨u, w, rfl, _⟩ := jsonParse_obj J o hp
    exact ht (by simp)
  | arr xs aps =>
    have := jsonParse_arr J xs aps hp
    subst this
    simp [hasKey, hasProp] at hk
  | undefined => simp [hasKey] at hk
  | null => simp [hasKey] at hk
  | bool b => simp [hasKey] at hk
  | num m e => simp [hasKey] at hk
  | str s => simp [hasKey] at hk

theorem skillSentinel_null (ps : List (Str × JVal))
    (hsk : truthy (lookupProp "skill".toList ps) = false) :
    skillSentinel (.obj ps) = .ok (.obj (assignProp "skill".toList .null ps)) := by
  simp only [skillSentinel, getProp, bind, Except.bind, hsk]
  rfl

/-- C10. When the payload has no `skill` key, or an empty-string `skill`, and
its text contains no embedded skill object (no run of characters of the text,
or of the text it double-encodes, parses as a value with a `skill` key), the
reply of `callAI` has a `skill` field and that field is `null`. -/
theorem skill_sentinel_null (h : Host) (api : Api) (u : Str) (s : St) (raw : JVal)
    (ps : List (Str × JVal))
    (hraw : api .chat_with_ai (chatArgs h s u) = .ok raw)
    (hpay : parseRaw raw = .ok (.obj ps))
    (hsk : hasProp "skill".toList ps = false ∨ lookupProp "skill".toList ps = .str [])
    (ht : ∀ t, lookupProp "text".toList ps = .str t → NoSkillObject t) :
    ∃ data, (callAI h api u s).1 = .ok data ∧ hasKey data "skill" = true ∧
      getProp data "skill" = .ok .null := by
  have hfalsy : truthy (lookupProp "skill".toList ps) = false := by
    rcases hsk with hsk | hsk
    · rw [lookupProp_of_not_hasProp _ _ hsk]; rfl
    · rw [hsk]; rfl
  rw [callAI_result h api u s raw (.obj ps) hraw hpay]
  have hu : unwrapDouble (.obj ps) = .ok (.obj ps) ∨
      ∃ t o, lookupProp "text".toList ps = .str t ∧ jsonParse t = .ok (.obj o) ∧
        hasProp "skill".toList o = false ∧ unwrapDouble (.obj ps) = .ok (.obj o) := by
    simp only [unwrapDouble, getProp, bind, Except.bind, pure, Except.pure]
    split
    · rename_i t hlt
      split
      · split
        · rename_i inner hpi
          split
          · rename_i hcond
            simp only [Bool.and_eq_true, Bool.or_eq_true] at hcond
            have hns : hasKey inner "skill" = false := by
              cases hks : hasKey inner "skill" with
              | false => rfl
              | true => exact absurd ⟨[], t, [], inner, by simp, hpi, hks⟩ (ht t hlt).1
            cases inner with
            | obj o => exact Or.inr ⟨t, o, hlt, hpi, hns, rfl⟩
            | arr xs aps =>
              have := jsonParse_arr t xs aps hpi
              subst this
              simp [hasKey, hasProp] at hcond
            | undefined => simp [hasKey] at hcond
            | null => simp [hasKey] at hcond
            | bool b => simp [hasKey] at hcond
            | num m e => simp [hasKey] at hcond
            | str s0 => simp [hasKey] at hcond
          · exact Or.inl rfl
        · exact Or.inl rfl
      · exact Or.inl rfl
    · exact Or.inl rfl
  rcases hu with hu | ⟨t, o, hlt, hpo, hno, hu⟩
  · have he := extractEmbedded_no_skill h ps (fun t hlt => (ht t hlt).1)
    refine ⟨.obj (assignProp "skill".toList .null ps), ?_, ?_, ?_⟩
    · simp only [normalizeReply, bind, Except.bind, hu, he]
      exact skillSentinel_null ps hfalsy
    · exact hasProp_assignProp _ _ _
    · simp only [getProp, lookupProp_assignProp_same]
  · have he := extractEmbedded_no_skill h o
      (fun t2 hlt2 => (ht t hlt).2 (.obj o) t2 hpo (by simp only [getProp, hlt2]))
    have hfo : truthy (lookupProp "skill".toList o) = false := by
      rw [lookupProp_of_not_hasProp _ _ hno]; rfl
    refine ⟨.obj (assignProp "skill".toList .null o), ?_, ?_, ?_⟩
    · simp only [normalizeReply, bind, Except.bind, hu, he]
      exact skillSentinel_null o hfo
    · exact hasProp_assignProp _ _ _
    · simp only [getProp, lookupProp_assignProp_same]

/-- C10, on the payload `{"text":"hello"}`. -/
theorem skill_sentinel_null_witness :
    ∃ data, (callAI stdHost (replyApi "\x7b\"text\":\"hello\"\x7d") "hi".toList St.init).1 =
        .ok data ∧ hasKey data "skill" = true ∧ getProp data "skill" = .ok .null :=
  skill_sentinel_null stdHost (replyApi "\x7b\"text\":\"hello\"\x7d") "hi".toList St.init _
    [("text".toList, .str "hello".toList)] rfl rfl (Or.inl rfl)
    (fun t ht => by
      have e : t = "hello".toList := by
        have h1 : lookupProp "text".toList [("text".toList, JVal.str "hello".toList)] =
          .str "hello".toList := rfl
        rw [h1] at ht
        exact (JVal.str.inj ht).symm
      subst e
      exact ⟨not_embedsSkill_of_no_brace _ (by decide),
        fun v t2 hp _ => by
          rw [show jsonParse "hello".toList = .error syntaxError from rfl] at hp
          cases hp⟩)

/-! ## The recursion budget of JSON.parse -/

theorem le_skipWs (inp : Str) (i : Nat) : i ≤ skipWs inp i := by
  unfold skipWs; omega

theorem lt_length_of_drop {inp : Str} {i : Nat} {c : Char} {rest : Str}
    (h : inp.drop i = c :: rest) : i < inp.length := by
  by_contra hn
  rw [List.drop_of_length_le (by omega)] at h
  cases h

theorem parse_pos (f : Nat) :
    (∀ inp i v p, parseValue f inp i = .done v p → i ≤ p ∧ i < inp.length) ∧
    (∀ inp i acc v p, parseMembers f inp i acc = .done v p → i ≤ p) ∧
    (∀ inp i acc v p, parseElems f inp i acc = .done v p → i ≤ p) := by
  induction f with
  | zero =>
    refine ⟨?_, ?_, ?_⟩ <;> intros <;> simp [parseValue, parseMembers, parseElems] at *
  | succ f ih =>
    obtain ⟨ihV, ihM, ihE⟩ := ih
    refine ⟨?_, ?_, ?_⟩
    · intro inp i v p hd
      rw [parseValue] at hd
      split at hd
      · cases hd
      · rename_i c rest hdrop
        have hlt := lt_length_of_drop hdrop
        have h1 := le_skipWs inp (i + 1)
        refine ⟨?_, hlt⟩
        repeat' split at hd
        all_goals first
          | (cases hd <;> omega)
          | exact Nat.le_trans (by omega) (ihM _ _ _ _ _ hd)
          | exact Nat.le_trans (by omega) (ihE _ _ _ _ _ hd)
    · intro inp i acc v p hd
      rw [parseMembers] at hd
      split at hd
      · cases hd
      split at hd
      swap
      · cases hd
      split at hd
      · cases hd
      rename_i us n _
      split at hd
      swap
      · cases hd
      split at hd
      · rename_i v1 p1 hv
        have a1 := (ihV _ _ _ _ hv).1
        have a2 := le_skipWs inp (i + 1 + n)
        have a3 := le_skipWs inp (skipWs inp (i + 1 + n) + 1)
        have a4 := le_skipWs inp p1
        have a5 := le_skipWs inp (skipWs inp p1 + 1)
        split at hd
        · have := ihM _ _ _ _ _ hd
          omega
        · split at hd
          · cases hd
            omega
          · cases hd
      · rename_i hx
        exact absurd hd (hx _ _)
    · intro inp i acc v p hd
      rw [parseElems] at hd
      split at hd
      · rename_i v1 p1 hv
        have a1 := (ihV _ _ _ _ hv).1
        have a4 := le_skipWs inp p1
        have a5 := le_skipWs inp (skipWs inp p1 + 1)
        split at hd
        · have := ihE _ _ _ _ _ hd
          omega
        · split at hd
          · cases hd
            omega
          · cases hd
      · rename_i hx
        exact absurd hd (hx _ _)

theorem parse_fuel (f : Nat) :
    (∀ inp i, 2 * (inp.length - i) + 1 ≤ f → parseValue f inp i ≠ .fuelOut) ∧
    (∀ inp i acc, 2 * (inp.length - i) + 2 ≤ f → parseMembers f inp i acc ≠ .fuelOut) ∧
    (∀ inp i acc, 2 * (inp.length - i) + 2 ≤ f → parseElems f inp i acc ≠ .fuelOut) := by
  induction f with
  | zero =>
    refine ⟨?_, ?_, ?_⟩ <;> intros <;> omega
  | succ f ih =>
    obtain ⟨ihV, ihM, ihE⟩ := ih
    refine ⟨?_, ?_, ?_⟩
    · intro inp i hf hd
      rw [parseValue] at hd
      split at hd
      · cases hd
      · rename_i c rest hdrop
        have hlt := lt_length_of_drop hdrop
        have h1 := le_skipWs inp (i + 1)
        repeat' split at hd
        all_goals first
          | exact ihM _ _ _ (by omega) hd
          | exact ihE _ _ _ (by omega) hd
          | cases hd
    · intro inp i acc hf hd
      rw [parseMembers] at hd
      split at hd
      · cases hd
      rename_i c rest hdrop
      have hlt := lt_length_of_drop hdrop
      split at hd
      swap
      · cases hd
      split at hd
      · cases hd
      rename_i us n _
      split at hd
      swap
      · cases hd
      have a2 := le_skipWs inp (i + 1 + n)
      have a3 := le_skipWs inp (skipWs inp (i + 1 + n) + 1)
      split at hd
      · rename_i v1 p1 hv
        have a1 := ((parse_pos f).1 _ _ _ _ hv).1
        have a4 := le_skipWs inp p1
        have a5 := le_skipWs inp (skipWs inp p1 + 1)
        split at hd
        · exact ihM _ _ _ (by omega) hd
        · split at hd
          · cases hd
          · cases hd
      · exact ihV _ _ (by omega) hd
    · intro inp i acc hf hd
      rw [parseElems] at hd
      split at hd
      · rename_i v1 p1 hv
        have a1 := (parse_pos f).1 _ _ _ _ hv
        have a4 := le_skipWs inp p1
        have a5 := le_skipWs inp (skipWs inp p1 + 1)
        split at hd
        · exact ihE _ _ _ (by omega) hd
        · split at hd
          · cases hd
          · cases hd
      · exact ihV _ _ (by omega) hd

/-- The recursion budget of `jsonParse` is never exhausted: `JSON.parse`
either returns a value or throws because the text is not JSON. -/
theorem jsonParse_fuel (inp : Str) :
    parseValue (2 * inp.length + 2) inp (skipWs inp 0) ≠ .fuelOut :=
  (parse_fuel _).1 inp _ (by omega)

/-! ## The history around a request -/

theorem sentHistory_eq_drop (hist : List JVal) (u : Str) :
    sentHistory hist u =
      (hist ++ [historyEntry "user" (.str u)]).drop
        ((hist ++ [historyEntry "user" (.str u)]).length - 40) := by
  unfold sentHistory
  split
  · rfl
  · rename_i hlen
    have : (hist ++ [historyEntry "user" (.str u)]).length - 40 = 0 := by omega
    rw [this, List.drop_zero]

theorem callAI_state (h : Host) (api : Api) (u : Str) (s : St) (raw payload data : JVal)
    (hraw : api .chat_with_ai (chatArgs h s u) = .ok raw)
    (hpay : parseRaw raw = .ok payload)
    (hnorm : normalizeReply h payload = .ok data) :
    ∃ text, getProp data "text" = .ok text ∧
      callAI h api u s = (.ok data,
        { s with
          conversationHistory := sentHistory s.conversationHistory u ++
            [historyEntry "assistant" (jsOr text (.str []))],
          log := s.log ++ [Event.call .chat_with_ai (chatArgs h s u)] }) := by
  obtain ⟨v, hv⟩ := normalizeReply_text h payload data hnorm
  refine ⟨v, hv, ?_⟩
  simp only [chatArgs, sentHistory] at hraw
  simp only [callAI, callAIRequest, run_bind, pushHistory, truncateHistory, getHistory,
    run_callApi, run_liftE, hraw, hpay, hnorm, hv, chatArgs, sentHistory, run_pure]

/-- C13. After a successful remote call whose normalized reply is `data`,
`callAI(u)` returns `data` and the history is exactly the last 40 entries of
the old history with the user entry pushed, followed by the one entry
`{role: 'assistant', content: data.text || ''}`; nothing in this depends on
whether the reply carries a skill. -/
theorem callAI_history_exact (h : Host) (api : Api) (u : Str) (s : St)
    (raw payload data : JVal)
    (hraw : api .chat_with_ai (chatArgs h s u) = .ok raw)
    (hpay : parseRaw raw = .ok payload)
    (hnorm : normalizeReply h payload = .ok data) :
    ∃ text, getProp data "text" = .ok text ∧
      (callAI h api u s).1 = .ok data ∧
      (callAI h api u s).2.conversationHistory =
        (s.conversationHistory ++ [historyEntry "user" (.str u)]).drop
          ((s.conversationHistory ++ [historyEntry "user" (.str u)]).length - 40) ++
        [.obj [("role".toList, .str "assistant".toList),
          ("content".toList, if truthy text then text else .str [])]] := by
  obtain ⟨text, ht, hc⟩ := callAI_state h api u s raw payload data hraw hpay hnorm
  refine ⟨text, ht, ?_, ?_⟩
  · rw [hc]
  · rw [hc, ← sentHistory_eq_drop]
    rfl

/-- C13, on a run from the empty history with a reply that carries a skill:
the history is the user entry followed by the assistant entry. -/
theorem callAI_history_exact_witness :
    (callAI stdHost (replyApi "\x7b\"text\":\"hi\",\"skill\":\"get_datetime\"\x7d")
      "hello".toList St.init).2.conversationHistory =
      [.obj [("role".toList, .str "user".toList), ("content".toList, .str "hello".toList)],
       .obj [("role".toList, .str "assistant".toList), ("content".toList, .str "hi".toList)]] := by
  obtain ⟨text, ht, -, hc⟩ := callAI_history_exact stdHost
    (replyApi "\x7b\"text\":\"hi\",\"skill\":\"get_datetime\"\x7d") "hello".toList St.init
    _ _ _ rfl rfl rfl
  have e : text = .str "hi".toList := (Except.ok.inj ht).symm
  subst e
  exact hc

/-- C15. The `messages` argument of the `chat_with_ai` call that `callAI(u)`
makes from a history `H` of length `n` is the JSON of the last
`min (n + 1) 40` entries of `H ++ [{role: 'user', content: u}]`, in their
order: it has `min (n + 1) 40` entries, so never more than 40, and its last
entry is the new user entry. That call is the only event of `callAI`. -/
theorem request_messages (h : Host) (api : Api) (u : Str) (s : St) :
    ∃ sent : List JVal,
      (callAI h api u s).2.log = s.log ++
        [Event.call .chat_with_ai
          [h.jsonStringify (.arr sent []), h.jsonStringify skillCatalog]] ∧
      sent = (s.conversationHistory ++ [historyEntry "user" (.str u)]).drop
        (s.conversationHistory.length + 1 - min (s.conversationHistory.length + 1) 40) ∧
      sent.length = min (s.conversationHistory.length + 1) 40 ∧
      sent.length ≤ 40 ∧
      sent.getLast? = some (.obj [("role".toList, .str "user".toList),
        ("content".toList, .str u)]) := by
  have hd : sentHistory s.conversationHistory u =
      (s.conversationHistory ++ [historyEntry "user" (.str u)]).drop
        (s.conversationHistory.length + 1 - min (s.conversationHistory.length + 1) 40) := by
    rw [sentHistory_eq_drop]
    congr 1
    simp only [List.length_append, List.length_singleton]
    omega
  refine ⟨sentHistory s.conversationHistory u, callAI_log h api u s, hd, ?_, ?_, ?_⟩
  · rw [hd]
    simp only [List.length_drop, List.length_append, List.length_singleton]
    omega
  · exact sentHistory_length _ _
  · obtain ⟨k, hk⟩ := sentHistory_drop s.conversationHistory u
    rw [hk]
    simp [historyEntry]

/-! ## The entry added after fetch_news -/

theorem frame_history {α : Type} {P : Cap → Prop} {x : M α} (hx : Frame P x) (s : St) :
    (x s).2.conversationHistory = s.conversationHistory := by
  obtain ⟨evs, h1, _⟩ := hx s
  rw [h1]

theorem getProp_ok_of_getProp_ok (v x : JVal) (k k2 : String) (hk : getProp v k = .ok x) :
    ∃ y, getProp v k2 = .ok y := by
  cases v <;> first | exact ⟨_, rfl⟩ | cases hk

theorem truthy_of_strictEqStr (v : JVal) (hv : strictEqStr v "fetch_news" = true) :
    truthy v = true := by
  cases v <;> simp [strictEqStr] at hv
  subst hv
  rfl

theorem showReply_history (h : Host) (api : Api) (reply skill : JVal) (s : St)
    (hs : getProp reply "skill" = .ok skill) :
    (strictEqStr skill "fetch_news" = true →
      ∃ args result, getProp reply "args" = .ok args ∧
        (executeAISkill h api skill args s).1 = .ok result ∧
        (showReply h api reply s).2.conversationHistory = s.conversationHistory ++
          (if truthy result then
            [historyEntry "assistant" (.str ("已搜尋到以下資料：\n".toList ++ toStr h result))]
          else [])) ∧
    (strictEqStr skill "fetch_news" = false →
      (showReply h api reply s).2.conversationHistory = s.conversationHistory) := by
  obtain ⟨args, ha⟩ := getProp_ok_of_getProp_ok reply skill "skill" "args" hs
  obtain ⟨text, ht⟩ := getProp_ok_of_getProp_ok reply skill "skill" "text" hs
  obtain ⟨result, hres⟩ := executeAISkill_ok h api skill args s
  obtain ⟨evs, hst, -⟩ := executeAISkill_frame h api skill args s
  have hex : executeAISkill h api skill args s = (.ok result, { s with log := s.log ++ evs }) :=
    Prod.ext hres hst
  have hrun : (showReply h api reply s).2.conversationHistory = s.conversationHistory ++
      (if truthy skill && (strictEqStr skill "fetch_news" && truthy result) then
        [historyEntry "assistant" (.str ("已搜尋到以下資料：\n".toList ++ toStr h result))]
      else []) := by
    unfold showReply
    simp only [run_bind, run_liftE, hs]
    by_cases htr : truthy skill = true
    · simp only [htr, if_true, run_bind, run_liftE, ha, ht, hex, addMessage, run_emit,
        Bool.false_eq_true, if_false, Bool.true_and]
      cases h1 : s.ttsEnabled <;> cases h2 : s.speechSynthesis <;>
        simp only [DigitalAssistant.speak, h1, h2, Bool.not_true, Bool.not_false, Bool.or_self,
          Bool.or_true, Bool.or_false, Bool.true_or, Bool.false_eq_true, if_true, if_false] <;>
        split <;> simp_all [pushHistory]
    · have hf : truthy skill = false := by simpa using htr
      simp only [hf, Bool.false_eq_true, if_false, Bool.false_and, List.append_nil]
      exact frame_history (P := fun _ => True)
        (frame_bind (frame_liftE _ _) fun _ =>
          frame_bind (frame_addMessage _ _ _ _) fun _ =>
          frame_bind (frame_liftE _ _) fun _ => frame_speak _ _) s
  constructor
  · intro hf
    refine ⟨args, result, ha, hres, ?_⟩
    rw [hrun, hf, truthy_of_strictEqStr skill hf]
    simp
  · intro hf
    rw [hrun, hf]
    simp

theorem sendMessage_remote (h : Host) (api : Api) (text : Str) (s : St)
    (raw payload reply replyText : JVal)
    (hne : text ≠ [])
    (hlocal : ∀ b ∈ localBranches, b.applies h text = false)
    (hraw : api .chat_with_ai (chatArgs h s text) = .ok raw)
    (hpay : parseRaw raw = .ok payload)
    (hnorm : normalizeReply h payload = .ok reply)
    (ht : getProp reply "text" = .ok replyText) :
    (sendMessage h api text s).2.conversationHistory =
      (showReply h api reply (replyState h s text replyText)).2.conversationHistory := by
  have hne' : text.isEmpty = false := by cases text <;> simp_all
  have hloc := fun s0 => (tryLocalSkill_null_iff h api text s0).1 hlocal
  unfold sendMessage
  simp only [hne', Bool.false_eq_true, if_false, run_bind, run_emit, addMessage, hloc, truthy,
    showTyping, hideTyping, run_tryCatchM]
  obtain ⟨t1, ht1, hc⟩ := callAI_state h api text
    { s with log := s.log ++ [Event.inputCleared] ++
      [Event.message "user".toList (JVal.str text) false] ++ [Event.typingShown] }
    raw payload reply hraw hpay hnorm
  have e1 : t1 = replyText := Except.ok.inj (ht1.symm.trans ht)
  subst e1
  rw [hc]
  simp only [replyState, chatArgs, List.append_assoc, List.singleton_append, List.cons_append,
    List.nil_append]
  rcases showReply h api reply _ with ⟨r, s1⟩
  cases r <;> rfl

/-- C14, as amended. On the remote path (no local branch applies, the remote
call succeeds and normalizes to `reply`) the history after `sendMessage` is
the history sent, the assistant entry of the reply and, when the skill of the
reply is `fetch_news` and the value `result` returned by `executeAISkill` is
truthy (a non-empty string), one more assistant entry with content
`'已搜尋到以下資料：\n' + result`. With any other skill, with no skill, or with
an empty result, nothing follows the assistant entry of the reply. -/
theorem fetch_news_entry (h : Host) (api : Api) (text : Str) (s : St)
    (raw payload reply : JVal)
    (hne : text ≠ [])
    (hlocal : ∀ b ∈ localBranches, b.applies h text = false)
    (hraw : api .chat_with_ai (chatArgs h s text) = .ok raw)
    (hpay : parseRaw raw = .ok payload)
    (hnorm : normalizeReply h payload = .ok reply) :
    ∃ skill replyText, getProp reply "skill" = .ok skill ∧
      getProp reply "text" = .ok replyText ∧
      (strictEqStr skill "fetch_news" = true →
        ∃ args result, getProp reply "args" = .ok args ∧
          (executeAISkill h api skill args (replyState h s text replyText)).1 = .ok result ∧
          (sendMessage h api text s).2.conversationHistory =
            sentHistory s.conversationHistory text ++
              [historyEntry "assistant" (jsOr replyText (.str []))] ++
              (if truthy result then
                [historyEntry "assistant"
                  (.str ("已搜尋到以下資料：\n".toList ++ toStr h result))]
              else [])) ∧
      (strictEqStr skill "fetch_news" = false →
        (sendMessage h api text s).2.conversationHistory =
          sentHistory s.conversationHistory text ++
            [historyEntry "assistant" (jsOr replyText (.str []))]) := by
  obtain ⟨replyText, ht⟩ := normalizeReply_text h payload reply hnorm
  obtain ⟨skill, hs⟩ := getProp_ok_of_getProp_ok reply replyText "text" "skill" ht
  have hsend := sendMessage_remote h api text s raw payload reply replyText hne hlocal hraw hpay
    hnorm ht
  obtain ⟨h1, h2⟩ := showReply_history h api reply skill (replyState h s text replyText) hs
  refine ⟨skill, replyText, hs, ht, ?_, ?_⟩
  · intro hf
    obtain ⟨args, result, ha, hr, hh⟩ := h1 hf
    exact ⟨args, result, ha, hr, by rw [hsend, hh]; rfl⟩
  · intro hf
    rw [hsend, h2 hf]
    rfl

/-- C14 as amended, on a run: the reply asks for `fetch_news`, which returns
`headline`; the history ends with the injected entry. -/
theorem fetch_news_entry_witness :
    (sendMessage stdHost (newsApi "headline") "hello".toList St.init).2.conversationHistory =
      [historyEntry "user" (.str "hello".toList),
       historyEntry "assistant" (.str "news".toList),
       historyEntry "assistant" (.str "已搜尋到以下資料：\nheadline".toList)] := by
  obtain ⟨skill, replyText, hs, ht, h1, -⟩ :=
    fetch_news_entry stdHost (newsApi "headline") "hello".toList St.init _ _ _ (by decide)
      (by decide) rfl rfl rfl
  have es : skill = .str "fetch_news".toList := (Except.ok.inj hs).symm
  have et : replyText = .str "news".toList := (Except.ok.inj ht).symm
  subst es et
  obtain ⟨args, result, ha, hr, hh⟩ := h1 rfl
  have ea : args = .obj [("query".toList, .str "x".toList)] := (Except.ok.inj ha).symm
  subst ea
  have er : result = .str "headline".toList := (Except.ok.inj hr).symm
  subst er
  exact hh

/-- C14 as stated fails: the reply asks for `fetch_news`, the skill returns
the empty message, and no entry follows the assistant entry of the reply. -/
theorem fetch_news_empty_result :
    (callAI stdHost (newsApi "") "hello".toList St.init).1 =
      .ok (.obj [("text".toList, .str "news".toList),
        ("skill".toList, .str "fetch_news".toList),
        ("args".toList, .obj [("query".toList, .str "x".toList)])]) ∧
    (sendMessage stdHost (newsApi "") "hello".toList St.init).1 = .ok () ∧
    (sendMessage stdHost (newsApi "") "hello".toList St.init).2.conversationHistory =
      [historyEntry "user" (.str "hello".toList),
       historyEntry "assistant" (.str "news".toList)] :=
  ⟨rfl, rfl, rfl⟩

/-! ## Parse failures in the two normalization steps -/

theorem unwrapDouble_parse_error (ps : List (Str × JVal)) (t : Str) (e : JsError)
    (ht : lookupProp "text".toList ps = .str t) (hp : jsonParse t = .error e) :
    unwrapDouble (.obj ps) = .ok (.obj ps) := by
  simp only [unwrapDouble, getProp, bind, Except.bind, ht, hp, pure, Except.pure]
  split <;> rfl

theorem extractEmbedded_parse_error (h : Host) (data : JVal) (t : Str) (m : MatchResult)
    (e : JsError) (ht : getProp data "text" = .ok (.str t))
    (hm : reMatch false embeddedRe t = some m) (hp : jsonParse m.whole = .error e) :
    extractEmbedded h data = .ok data := by
  simp only [extractEmbedded, bind, Except.bind, ht, hm, hp, pure, Except.pure]
  split <;> rfl

theorem skillSentinel_keeps (data : JVal) (t : Str)
    (ht : getProp data "text" = .ok (.str t)) :
    ∃ reply skill, skillSentinel data = .ok reply ∧ getProp data "skill" = .ok skill ∧
      getProp reply "text" = .ok (.str t) ∧ getProp reply "args" = getProp data "args" ∧
      getProp reply "skill" = .ok (if truthy skill then skill else .null) := by
  cases data with
  | undefined => cases ht
  | null => cases ht
  | bool b => cases ht
  | num m e => cases ht
  | str s0 => cases ht
  | obj ps =>
    simp only [getProp, Except.ok.injEq] at ht
    by_cases hk : truthy (lookupProp "skill".toList ps) = true
    · refine ⟨.obj ps, lookupProp "skill".toList ps, ?_, rfl, ?_, rfl, ?_⟩
      · simp only [skillSentinel, getProp, bind, Except.bind, hk, if_true]
        rfl
      · simp only [getProp, ht]
      · simp only [getProp, hk, if_true]
    · have hf : truthy (lookupProp "skill".toList ps) = false := by simpa using hk
      refine ⟨.obj (assignProp "skill".toList .null ps), lookupProp "skill".toList ps,
        skillSentinel_null ps hf, rfl, ?_, ?_, ?_⟩
      · simp only [getProp]
        rw [lookupProp_assignProp_ne _ _ _ _ (by decide), ht]
      · simp only [getProp]
        rw [lookupProp_assignProp_ne _ _ _ _ (by decide)]
      · simp only [getProp, lookupProp_assignProp_same, hf, Bool.false_eq_true, if_false]
  | arr xs ps =>
    simp only [getProp, Except.ok.injEq] at ht
    by_cases hk : truthy (lookupProp "skill".toList ps) = true
    · refine ⟨.arr xs ps, lookupProp "skill".toList ps, ?_, rfl, ?_, rfl, ?_⟩
      · simp only [skillSentinel, getProp, bind, Except.bind, hk, if_true]
        rfl
      · simp only [getProp, ht]
      · simp only [getProp, hk, if_true]
    · have hf : truthy (lookupProp "skill".toList ps) = false := by simpa using hk
      refine ⟨.arr xs (assignProp "skill".toList .null ps), lookupProp "skill".toList ps,
        ?_, rfl, ?_, ?_, ?_⟩
      · simp only [skillSentinel, getProp, bind, Except.bind, hf, Bool.false_eq_true, if_false,
          setProp]
      · simp only [getProp]
        rw [lookupProp_assignProp_ne _ _ _ _ (by decide), ht]
      · simp only [getProp]
        rw [lookupProp_assignProp_ne _ _ _ _ (by decide)]
      · simp only [getProp, lookupProp_assignProp_same, hf, Bool.false_eq_true, if_false]

/-- C11, as amended. For a payload whose `text` is a string `t`: when `t`
starts with `{` after leading white space but is not valid JSON, the
double-encoding step leaves the payload as it is (the extraction step then
runs on it). When, in the text `t2` of the payload as it stands after the
double-encoding step, the span matched by the embedded-skill pattern is not
valid JSON, `callAI` does not throw; the reply has `t2` as its text, the
`args` it had, and the `skill` it had when that is truthy, `null` otherwise:
the failed step applies nothing. -/
theorem parse_failure_swallowed (h : Host) (api : Api) (u : Str) (s : St) (raw : JVal)
    (ps : List (Str × JVal)) (t : Str)
    (hraw : api .chat_with_ai (chatArgs h s u) = .ok raw)
    (hpay : parseRaw raw = .ok (.obj ps))
    (ht : lookupProp "text".toList ps = .str t) :
    ((startsWith (trimStart t) ['{'] = true ∧ ∃ e, jsonParse t = .error e) →
      unwrapDouble (.obj ps) = .ok (.obj ps) ∧
      (callAI h api u s).1 = (extractEmbedded h (.obj ps) >>= skillSentinel)) ∧
    (∀ (data : JVal) (t2 : Str) (m : MatchResult) (e : JsError),
      unwrapDouble (.obj ps) = .ok data →
      getProp data "text" = .ok (.str t2) →
      reMatch false embeddedRe t2 = some m →
      jsonParse m.whole = .error e →
      ∃ reply skill, (callAI h api u s).1 = .ok reply ∧
        getProp data "skill" = .ok skill ∧
        getProp reply "text" = .ok (.str t2) ∧
        getProp reply "args" = getProp data "args" ∧
        getProp reply "skill" = .ok (if truthy skill then skill else .null)) := by
  rw [callAI_result h api u s raw (.obj ps) hraw hpay]
  constructor
  · rintro ⟨-, e, he⟩
    have hu := unwrapDouble_parse_error ps t e ht he
    exact ⟨hu, by simp only [normalizeReply, hu, bind, Except.bind]⟩
  · intro data t2 m e hu ht2 hm he
    obtain ⟨reply, skill, h1, h2, h3, h4, h5⟩ := skillSentinel_keeps data t2 ht2
    refine ⟨reply, skill, ?_, h2, h3, h4, h5⟩
    simp only [normalizeReply, hu, bind, Except.bind,
      extractEmbedded_parse_error h data t2 m e ht2 hm he]
    exact h1

/-- C11 as amended, on the payload `{"text":"{oops \"skill\": \"args\": }"}`:
the text starts with `{`, is not JSON, is matched whole by the pattern, and
comes back verbatim with the `skill` sentinel. -/
theorem parse_failure_swallowed_witness :
    (callAI stdHost (replyApi "\x7b\"text\":\"\x7boops \\\"skill\\\": \\\"args\\\": \x7d\"\x7d")
      "hi".toList St.init).1 =
      .ok (.obj [("text".toList, .str "\x7boops \"skill\": \"args\": \x7d".toList),
        ("skill".toList, .null)]) := by
  obtain ⟨reply, skill, h1, -, -⟩ :=
    (parse_failure_swallowed stdHost
      (replyApi "\x7b\"text\":\"\x7boops \\\"skill\\\": \\\"args\\\": \x7d\"\x7d")
      "hi".toList St.init _ _ "\x7boops \"skill\": \"args\": \x7d".toList rfl rfl rfl).2
      _ "\x7boops \"skill\": \"args\": \x7d".toList
      ⟨"\x7boops \"skill\": \"args\": \x7d".toList, .undefined⟩ syntaxError rfl rfl rfl rfl
  rw [h1]
  exact h1.symm.trans rfl

/-- C11 as stated fails. The text `{"skill":"x","args":{}} hello` starts with
`{` and is not valid JSON, yet the reply does not carry it verbatim: the
extraction step, which runs whatever the double-encoding step did, finds the
object, and the reply has the text `hello` and the skill `x`. -/
theorem parse_failure_then_extraction :
    startsWith (trimStart "\x7b\"skill\":\"x\",\"args\":\x7b\x7d\x7d hello".toList) ['{'] = true ∧
    jsonParse "\x7b\"skill\":\"x\",\"args\":\x7b\x7d\x7d hello".toList = .error syntaxError ∧
    (callAI stdHost
      (replyApi "\x7b\"text\":\"\x7b\\\"skill\\\":\\\"x\\\",\\\"args\\\":\x7b\x7d\x7d hello\"\x7d")
      "hi".toList St.init).1 =
      .ok (.obj [("text".toList, .str "hello".toList), ("skill".toList, .str "x".toList),
        ("args".toList, .obj [])]) :=
  ⟨rfl, rfl, rfl⟩

/-! ## JSON.parse and the text around a value -/

theorem takeWhile_append_of_lt (p : Char → Bool) (a suf : Str)
    (h : (a.takeWhile p).length < a.length) :
    (a ++ suf).takeWhile p = a.takeWhile p := by
  induction a with
  | nil => simp at h
  | cons c cs ih =>
    by_cases hc : p c = true
    · simp only [List.cons_append, List.takeWhile_cons, hc, if_true, List.cons.injEq, true_and]
      apply ih
      simpa [List.takeWhile_cons, hc] using h
    · simp [List.takeWhile_cons, hc]

theorem drop_mid (pre inp suf : Str) (k : Nat) (hk : k ≤ inp.length) :
    (pre ++ inp ++ suf).drop (pre.length + k) = inp.drop k ++ suf := by
  rw [List.append_assoc, List.drop_append, List.drop_append_of_le_length hk]

theorem drop_mid_cons (pre inp suf : Str) (k : Nat) (c : Char) (rest : Str)
    (hd : inp.drop k = c :: rest) :
    (pre ++ inp ++ suf).drop (pre.length + k) = c :: (rest ++ suf) := by
  have hk : k < inp.length := lt_length_of_drop hd
  rw [drop_mid pre inp suf k (by omega), hd]
  rfl

theorem head_mid (pre inp suf : Str) (k : Nat) (hk : k < inp.length) :
    ((pre ++ inp ++ suf).drop (pre.length + k)).head? = (inp.drop k).head? := by
  rw [drop_mid pre inp suf k (by omega)]
  cases hd : inp.drop k with
  | nil =>
    have := congrArg List.length hd
    simp at this
    omega
  | cons c rest => rfl

theorem skipWs_mid (pre inp suf : Str) (k : Nat) (hk : skipWs inp k < inp.length) :
    skipWs (pre ++ inp ++ suf) (pre.length + k) = pre.length + skipWs inp k := by
  have hk0 : k ≤ inp.length := by unfold skipWs at hk; omega
  unfold skipWs at hk ⊢
  rw [drop_mid pre inp suf k hk0, takeWhile_append_of_lt]
  · omega
  · simp only [List.length_drop]
    omega

theorem lt_of_head_eq_some {inp : Str} {k : Nat} {c : Char}
    (h : ((inp.drop k).head? == some c) = true) : k < inp.length := by
  by_contra hn
  rw [List.drop_of_length_le (by omega)] at h
  simp at h

theorem parseStringBody_append_aux (suf : Str) : ∀ (n : Nat) (s : Str), s.length ≤ n →
    ∀ r, parseStringBody s = some r → parseStringBody (s ++ suf) = some r := by
  intro n
  induction n with
  | zero =>
    intro s hs r h
    cases s with
    | nil => simp [parseStringBody] at h
    | cons c cs => simp at hs
  | succ n ih =>
    intro s hs r h
    cases s with
    | nil => simp [parseStringBody] at h
    | cons c rest =>
      simp only [List.length_cons] at hs
      rw [List.cons_append]
      rw [parseStringBody.eq_def] at h ⊢
      simp only at h ⊢
      by_cases h1 : (c == '"') = true
      · simp only [h1, if_true] at h ⊢
        exact h
      · simp only [h1, Bool.false_eq_true, if_false] at h ⊢
        by_cases h2 : (c == '\\') = true
        · simp only [h2, if_true] at h ⊢
          cases rest with
          | nil => cases h
          | cons e rest1 =>
            simp only [List.length_cons] at hs
            simp only [List.cons_append] at h ⊢
            by_cases h3 : (e == 'u') = true
            · simp only [h3, if_true] at h ⊢
              match rest1, h, hs with
              | [], h, _ => cases h
              | [_], h, _ => cases h
              | [_, _], h, _ => cases h
              | [_, _, _], h, _ => cases h
              | a :: b :: c1 :: d :: rest2, h, hs =>
                simp only [List.cons_append] at h ⊢
                simp only [List.length_cons] at hs
                split at h
                · cases hr : parseStringBody rest2 with
                  | none => simp only [hr] at h; cases h
                  | some r2 =>
                    rw [ih rest2 (by omega) r2 hr]
                    rw [hr] at h
                    exact h
                · cases h
            · simp only [h3, Bool.false_eq_true, if_false] at h ⊢
              generalize (if (e == '"') = true then some 34
                else if (e == '\\') = true then some 92
                else if (e == '/') = true then some 47
                else if (e == 'b') = true then some 8
                else if (e == 'f') = true then some 12
                else if (e == 'n') = true then some 10
                else if (e == 'r') = true then some 13
                else if (e == 't') = true then some 9 else none : Option Nat) = unit at h ⊢
              cases hr : parseStringBody rest1 with
              | none =>
                rw [hr] at h
                cases unit <;> cases h
              | some r2 =>
                rw [ih rest1 (by omega) r2 hr]
                rw [hr] at h
                exact h
        · simp only [h2, Bool.false_eq_true, if_false] at h ⊢
          by_cases h4 : c.toNat < 32
          · simp only [h4, if_true] at h
            cases h
          · simp only [h4, if_false] at h ⊢
            cases hr : parseStringBody rest with
            | none => rw [hr] at h; cases h
            | some r2 =>
              rw [ih rest (by omega) r2 hr]
              rw [hr] at h
              exact h

theorem parseStringBody_append (s suf : Str) (r : List Nat × Nat)
    (h : parseStringBody s = some r) : parseStringBody (s ++ suf) = some r :=
  parseStringBody_append_aux suf s.length s (Nat.le_refl _) r h

theorem parseNumber_stages (s : Str) :
    parseNumber s =
      numInt (s.head? == some '-') (if (s.head? == some '-') = true then s.drop 1 else s) := rfl

theorem takeDigits_append (a suf : Str) (h : (takeDigits a).length < a.length) :
    takeDigits (a ++ suf) = takeDigits a :=
  takeWhile_append_of_lt _ a suf h

theorem numExp_append (neg : Bool) (ds : Str) (fl l0 : Nat) (s3 suf : Str) (m e : Int) (n : Nat)
    (h : numExp neg ds fl l0 s3 = some (m, e, n)) (hn : n < l0 + s3.length) :
    numExp neg ds fl l0 (s3 ++ suf) = some (m, e, n) := by
  cases s3 with
  | nil =>
    simp [numExp] at h
    simp only [List.length_nil] at hn
    omega
  | cons c r =>
    simp only [numExp, List.cons_append, List.head?_cons, List.drop_succ_cons, List.drop_zero]
      at h ⊢
    by_cases hE : ((some c == some 'e' || some c == some 'E') : Bool) = true
    · simp only [hE, if_true, Bool.true_and] at h ⊢
      cases r with
      | nil => simp [takeDigits] at h
      | cons c2 r2 =>
        simp only [List.cons_append, List.head?_cons, List.drop_succ_cons, List.drop_zero]
          at h ⊢
        by_cases hS : ((some c2 == some '+' || some c2 == some '-') : Bool) = true
        · simp only [hS, if_true] at h ⊢
          split at h
          · cases h
          · simp only [Option.some.injEq, Prod.mk.injEq] at h
            have hl : (takeDigits r2).length < r2.length := by
              simp only [List.length_cons] at hn
              omega
            rw [takeDigits_append r2 suf hl]
            simp_all
        · simp only [hS, Bool.false_eq_true, if_false] at h ⊢
          split at h
          · cases h
          · simp only [Option.some.injEq, Prod.mk.injEq] at h
            have hl : (takeDigits (c2 :: r2)).length < (c2 :: r2).length := by
              simp only [List.length_cons] at hn ⊢
              omega
            have := takeDigits_append (c2 :: r2) suf hl
            simp only [List.cons_append] at this
            rw [this]
            simp_all
    · simp only [hE, Bool.false_eq_true, if_false, Bool.false_and] at h ⊢
      simp only [Option.some.injEq, Prod.mk.injEq] at h ⊢
      obtain ⟨h1, h2, h3⟩ := h
      refine ⟨h1, ?_, h3⟩
      rw [← h2]
      simp [digitsVal]

theorem numExp_len (neg : Bool) (ds : Str) (fl l0 : Nat) (s3 : Str) (m e : Int) (n : Nat)
    (h : numExp neg ds fl l0 s3 = some (m, e, n)) : l0 ≤ n := by
  simp only [numExp] at h
  split_ifs at h <;> (simp only [Option.some.injEq, Prod.mk.injEq] at h; omega)

theorem numFrac_len (neg : Bool) (intDs s2 : Str) (m e : Int) (n : Nat)
    (h : numFrac neg intDs s2 = some (m, e, n)) :
    (if neg then 1 else 0) + intDs.length ≤ n := by
  simp only [numFrac] at h
  by_cases hc : (s2.head? == some '.' &&
      (if (s2.head? == some '.') = true then takeDigits (s2.drop 1) else []).isEmpty) = true
  · rw [if_pos hc] at h
    cases h
  · rw [if_neg hc] at h
    have hl := numExp_len _ _ _ _ _ _ _ _ h
    omega

theorem numFrac_append (neg : Bool) (intDs s2 suf : Str) (m e : Int) (n : Nat)
    (h : numFrac neg intDs s2 = some (m, e, n))
    (hn : n < (if neg then 1 else 0) + intDs.length + s2.length) :
    numFrac neg intDs (s2 ++ suf) = some (m, e, n) := by
  cases s2 with
  | nil =>
    have := numFrac_len _ _ _ _ _ _ h
    simp only [List.length_nil] at hn
    omega
  | cons c r =>
    simp only [numFrac, List.cons_append, List.head?_cons, List.drop_succ_cons, List.drop_zero]
      at h ⊢
    by_cases hdot : (some c == some '.') = true
    · simp only [hdot, if_true, Bool.true_and] at h ⊢
      split at h
      · cases h
      · rename_i hemp
        have hl0 := numExp_len _ _ _ _ _ _ _ _ h
        simp only [List.length_cons] at hn
        have hl : (takeDigits r).length < r.length := by omega
        rw [takeDigits_append r suf hl]
        simp only [hemp, Bool.false_eq_true, if_false]
        have hd : ∀ x : Str, List.drop (1 + (takeDigits r).length) (c :: x) =
            List.drop (takeDigits r).length x := by
          intro x
          rw [Nat.add_comm, List.drop_succ_cons]
        rw [hd] at h ⊢
        rw [List.drop_append_of_le_length (by omega)]
        apply numExp_append _ _ _ _ _ _ _ _ _ h
        simp only [List.length_drop]
        omega
    · simp only [hdot, Bool.false_eq_true, if_false, Bool.false_and] at h ⊢
      have := numExp_append _ _ _ _ _ suf _ _ _ h (by simpa using hn)
      simpa using this

theorem numInt_append (neg : Bool) (s1 suf : Str) (m e : Int) (n : Nat)
    (h : numInt neg s1 = some (m, e, n))
    (hn : n < (if neg then 1 else 0) + s1.length) :
    numInt neg (s1 ++ suf) = some (m, e, n) := by
  cases s1 with
  | nil => simp [numInt, takeDigits] at h
  | cons c r =>
    simp only [numInt, List.cons_append, List.head?_cons] at h ⊢
    by_cases h0 : (some c == some '0') = true
    · simp only [h0, if_true, List.isEmpty_cons, Bool.false_eq_true, if_false,
        List.length_singleton, List.drop_succ_cons, List.drop_zero] at h ⊢
      apply numFrac_append _ _ _ _ _ _ _ h
      simp only [List.length_cons, List.length_nil] at hn ⊢
      omega
    · simp only [h0, Bool.false_eq_true, if_false] at h ⊢
      split at h
      · cases h
      · rename_i hemp
        have hl0 := numFrac_len _ _ _ _ _ _ h
        have hl : (takeDigits (c :: r)).length < (c :: r).length := by omega
        have ht := takeDigits_append (c :: r) suf hl
        simp only [List.cons_append] at ht
        rw [ht]
        simp only [hemp, Bool.false_eq_true, if_false]
        have hd : List.drop (takeDigits (c :: r)).length (c :: (r ++ suf)) =
            List.drop (takeDigits (c :: r)).length (c :: r) ++ suf := by
          rw [← List.cons_append, List.drop_append_of_le_length (by omega)]
        rw [hd]
        apply numFrac_append _ _ _ _ _ _ _ h
        simp only [List.length_drop]
        omega

theorem parseNumber_append (s suf : Str) (m e : Int) (n : Nat)
    (h : parseNumber s = some (m, e, n)) (hn : n < s.length) :
    parseNumber (s ++ suf) = some (m, e, n) := by
  have hs : s ≠ [] := by
    intro h0
    rw [h0] at hn
    simp at hn
  rw [parseNumber_stages] at h ⊢
  rw [List.head?_append_of_ne_nil _ hs]
  by_cases hneg : (s.head? == some '-') = true
  · simp only [hneg, if_true] at h ⊢
    rw [List.drop_append_of_le_length (by omega)]
    apply numInt_append _ _ _ _ _ _ h
    simp only [List.length_drop, if_true]
    omega
  · simp only [hneg, Bool.false_eq_true, if_false] at h ⊢
    apply numInt_append _ _ _ _ _ _ h
    simp only [Bool.false_eq_true, if_false]
    omega

theorem parseNumber_head (c : Char) (rest : Str) (r : Int × Int × Nat)
    (h : parseNumber (c :: rest) = some r) : c = '-' ∨ c.isDigit = true := by
  rw [parseNumber_stages] at h
  by_cases hneg : (some c == some '-') = true
  · left
    simpa using hneg
  · right
    simp only [List.head?_cons, hneg, Bool.false_eq_true, if_false] at h
    simp only [numInt, List.head?_cons] at h
    by_cases h0 : (some c == some '0') = true
    · have : c = '0' := by simpa using h0
      subst this
      rfl
    · simp only [h0, Bool.false_eq_true, if_false] at h
      split at h
      · cases h
      · rename_i hemp
        by_contra hd
        simp [takeDigits, List.takeWhile_cons, hd] at hemp

theorem parseMembers_start (f : Nat) (inp : Str) (i : Nat) (acc : List (Str × JVal))
    (v : JVal) (p : Nat) (hd : parseMembers f inp i acc = .done v p) : i < inp.length := by
  cases f with
  | zero => simp [parseMembers] at hd
  | succ f =>
    rw [parseMembers] at hd
    split at hd
    · cases hd
    · rename_i c rest hdrop
      exact lt_length_of_drop hdrop

theorem parseElems_start (f : Nat) (inp : Str) (i : Nat) (acc : List JVal)
    (v : JVal) (p : Nat) (hd : parseElems f inp i acc = .done v p) : i < inp.length := by
  cases f with
  | zero => simp [parseElems] at hd
  | succ f =>
    rw [parseElems] at hd
    split at hd
    · rename_i v1 p1 hv
      exact ((parse_pos f).1 _ _ _ _ hv).2
    · rename_i hx
      exact absurd hd (hx _ _)

theorem prefix_head (L x : Str) (c l0 : Char) (hL : L.head? = some l0)
    (h : L.isPrefixOf (c :: x) = true) : c = l0 := by
  cases L with
  | nil => cases hL
  | cons a as =>
    simp only [List.head?_cons, Option.some.injEq] at hL
    subst hL
    simp only [List.isPrefixOf, Bool.and_eq_true, beq_iff_eq] at h
    exact h.1.symm

theorem prefix_head_ne (L x : Str) (c l0 : Char) (hL : L.head? = some l0) (hne : c ≠ l0) :
    L.isPrefixOf (c :: x) = false := by
  cases hp : L.isPrefixOf (c :: x) with
  | false => rfl
  | true => exact absurd (prefix_head L x c l0 hL hp) hne

theorem prefix_append (L a suf : Str) (h : L.isPrefixOf a = true) :
    L.isPrefixOf (a ++ suf) = true := by
  rw [List.isPrefixOf_iff_prefix] at h ⊢
  exact h.trans (List.prefix_append a suf)



theorem digit_ne (c l : Char) (hl : l.isDigit = false) (hc : c = '-' ∨ c.isDigit = true)
    (hm : l ≠ '-') : c ≠ l := by
  intro h
  subst h
  rcases hc with hc | hc
  · exact hm hc
  · rw [hl] at hc
    cases hc

theorem parse_embed (pre suf : Str) (f : Nat) :
    (∀ inp i v p g, f ≤ g → parseValue f inp i = .done v p →
      (∀ m e, v = .num m e → p < inp.length) →
      parseValue g (pre ++ inp ++ suf) (pre.length + i) = .done v (pre.length + p)) ∧
    (∀ inp i acc v p g, f ≤ g → parseMembers f inp i acc = .done v p →
      parseMembers g (pre ++ inp ++ suf) (pre.length + i) acc = .done v (pre.length + p)) ∧
    (∀ inp i acc v p g, f ≤ g → parseElems f inp i acc = .done v p →
      parseElems g (pre ++ inp ++ suf) (pre.length + i) acc = .done v (pre.length + p)) := by
  induction f with
  | zero =>
    refine ⟨?_, ?_, ?_⟩ <;> intros <;> simp [parseValue, parseMembers, parseElems] at *
  | succ f ih =>
    obtain ⟨ihV, ihM, ihE⟩ := ih
    refine ⟨?_, ?_, ?_⟩
    · intro inp i v p g hg hd hnum
      obtain ⟨g', rfl⟩ : ∃ g', g = g' + 1 := ⟨g - 1, by omega⟩
      have hg' : f ≤ g' := by omega
      rw [parseValue] at hd ⊢
      cases hdrop : inp.drop i with
      | nil => rw [hdrop] at hd; cases hd
      | cons c rest =>
        rw [hdrop] at hd
        rw [drop_mid_cons pre inp suf i c rest hdrop]
        simp only at hd ⊢
        have hlt := lt_length_of_drop hdrop
        have e1 : pre.length + i + 1 = pre.length + (i + 1) := by omega
        rw [e1]
        by_cases h1 : (c == '{') = true
        · simp only [h1, if_true] at hd ⊢
          by_cases h2 : ((inp.drop (skipWs inp (i + 1))).head? == some '}') = true
          · have hk := lt_of_head_eq_some h2
            simp only [h2, if_true] at hd
            rw [skipWs_mid pre inp suf (i + 1) hk, head_mid pre inp suf _ hk]
            simp only [h2, if_true]
            cases hd
            rfl
          · simp only [h2, Bool.false_eq_true, if_false] at hd
            have hk := parseMembers_start _ _ _ _ _ _ hd
            rw [skipWs_mid pre inp suf (i + 1) hk, head_mid pre inp suf _ hk]
            simp only [h2, Bool.false_eq_true, if_false]
            exact ihM _ _ _ _ _ _ hg' hd
        · simp only [h1, Bool.false_eq_true, if_false] at hd ⊢
          by_cases h3 : (c == '[') = true
          · simp only [h3, if_true] at hd ⊢
            by_cases h2 : ((inp.drop (skipWs inp (i + 1))).head? == some ']') = true
            · have hk := lt_of_head_eq_some h2
              simp only [h2, if_true] at hd
              rw [skipWs_mid pre inp suf (i + 1) hk, head_mid pre inp suf _ hk]
              simp only [h2, if_true]
              cases hd
              rfl
            · simp only [h2, Bool.false_eq_true, if_false] at hd
              have hk := parseElems_start _ _ _ _ _ _ hd
              rw [skipWs_mid pre inp suf (i + 1) hk, head_mid pre inp suf _ hk]
              simp only [h2, Bool.false_eq_true, if_false]
              exact ihE _ _ _ _ _ _ hg' hd
          · simp only [h3, Bool.false_eq_true, if_false] at hd ⊢
            by_cases h4 : (c == '"') = true
            · simp only [h4, if_true] at hd ⊢
              cases hps : parseStringBody rest with
              | none => rw [hps] at hd; cases hd
              | some r =>
                rw [hps] at hd
                rw [parseStringBody_append rest suf r hps]
                obtain ⟨us, n⟩ := r
                simp only at hd ⊢
                cases hd
                congr 1
                omega
            · simp only [h4, Bool.false_eq_true, if_false] at hd ⊢
              by_cases h5 : "true".toList.isPrefixOf (c :: rest) = true
              · simp only [h5, if_true] at hd
                have h5' := prefix_append _ _ suf h5
                rw [List.cons_append] at h5'
                simp only [h5', if_true]
                cases hd
                rfl
              · simp only [h5, Bool.false_eq_true, if_false] at hd
                by_cases h6 : "false".toList.isPrefixOf (c :: rest) = true
                · simp only [h6, if_true] at hd
                  have hc : c = 'f' := prefix_head "false".toList _ _ _ rfl h6
                  have h6' := prefix_append _ _ suf h6
                  rw [List.cons_append] at h6'
                  rw [if_neg (by rw [prefix_head_ne "true".toList _ c 't' rfl (by rw [hc]; decide)]; simp),
                    if_pos h6']
                  cases hd
                  rfl
                · simp only [h6, Bool.false_eq_true, if_false] at hd
                  by_cases h7 : "null".toList.isPrefixOf (c :: rest) = true
                  · simp only [h7, if_true] at hd
                    have hc : c = 'n' := prefix_head "null".toList _ _ _ rfl h7
                    have h7' := prefix_append _ _ suf h7
                    rw [List.cons_append] at h7'
                    rw [if_neg (by rw [prefix_head_ne "true".toList _ c 't' rfl (by rw [hc]; decide)]; simp),
                      if_neg (by rw [prefix_head_ne "false".toList _ c 'f' rfl (by rw [hc]; decide)]; simp),
                      if_pos h7']
                    cases hd
                    rfl
                  · simp only [h7, Bool.false_eq_true, if_false] at hd
                    cases hpn : parseNumber (c :: rest) with
                    | none => rw [hpn] at hd; cases hd
                    | some r =>
                      rw [hpn] at hd
                      obtain ⟨m, e, n⟩ := r
                      simp only at hd
                      cases hd
                      have hc := parseNumber_head c rest _ hpn
                      have hn : n < (c :: rest).length := by
                        have := hnum m e rfl
                        have hl := congrArg List.length hdrop
                        simp only [List.length_drop] at hl
                        omega
                      have hpn' := parseNumber_append (c :: rest) suf m e n hpn hn
                      rw [List.cons_append] at hpn'
                      rw [if_neg (by
                          rw [prefix_head_ne "true".toList _ c 't' rfl (digit_ne c 't' rfl hc (by decide))]
                          simp),
                        if_neg (by
                          rw [prefix_head_ne "false".toList _ c 'f' rfl (digit_ne c 'f' rfl hc (by decide))]
                          simp),
                        if_neg (by
                          rw [prefix_head_ne "null".toList _ c 'n' rfl (digit_ne c 'n' rfl hc (by decide))]
                          simp),
                        hpn']
                      simp only
                      congr 1
                      omega
    · intro inp i acc v p g hg hd
      obtain ⟨g', rfl⟩ : ∃ g', g = g' + 1 := ⟨g - 1, by omega⟩
      have hg' : f ≤ g' := by omega
      rw [parseMembers] at hd ⊢
      cases hdrop : inp.drop i with
      | nil => rw [hdrop] at hd; cases hd
      | cons c rest =>
        rw [hdrop] at hd
        rw [drop_mid_cons pre inp suf i c rest hdrop]
        simp only at hd ⊢
        by_cases h1 : (c == '"') = true
        · simp only [h1, if_true] at hd ⊢
          cases hps : parseStringBody rest with
          | none => rw [hps] at hd; cases hd
          | some r =>
            obtain ⟨us, n⟩ := r
            rw [hps] at hd
            rw [parseStringBody_append rest suf _ hps]
            simp only at hd ⊢
            have e1 : pre.length + i + 1 + n = pre.length + (i + 1 + n) := by omega
            rw [e1]
            by_cases h2 : ((inp.drop (skipWs inp (i + 1 + n))).head? == some ':') = true
            · have hk1 := lt_of_head_eq_some h2
              simp only [h2, if_true] at hd
              rw [skipWs_mid _ _ _ _ hk1, head_mid _ _ _ _ hk1]
              simp only [h2, if_true]
              have e2 : pre.length + skipWs inp (i + 1 + n) + 1 =
                  pre.length + (skipWs inp (i + 1 + n) + 1) := by omega
              rw [e2]
              cases hv : parseValue f inp (skipWs inp (skipWs inp (i + 1 + n) + 1)) with
              | fuelOut => rw [hv] at hd; cases hd
              | fail => rw [hv] at hd; cases hd
              | done v1 p1 =>
                rw [hv] at hd
                simp only at hd
                have hq := ((parse_pos f).1 _ _ _ _ hv).2
                rw [skipWs_mid _ _ _ _ hq]
                have e3 : pre.length + skipWs inp p1 + 1 =
                    pre.length + (skipWs inp p1 + 1) := by omega
                by_cases h3 : ((inp.drop (skipWs inp p1)).head? == some ',') = true
                · have hk2 := lt_of_head_eq_some h3
                  have hp1 : p1 < inp.length := by
                    have := le_skipWs inp p1
                    omega
                  rw [ihV _ _ _ _ _ hg' hv (fun _ _ _ => hp1)]
                  simp only [h3, if_true] at hd ⊢
                  rw [skipWs_mid _ _ _ _ hk2, head_mid _ _ _ _ hk2]
                  simp only [h3, if_true]
                  have hr := parseMembers_start _ _ _ _ _ _ hd
                  rw [e3, skipWs_mid _ _ _ _ hr]
                  exact ihM _ _ _ _ _ _ hg' hd
                · simp only [h3, Bool.false_eq_true, if_false] at hd
                  by_cases h4 : ((inp.drop (skipWs inp p1)).head? == some '}') = true
                  · have hk2 := lt_of_head_eq_some h4
                    have hp1 : p1 < inp.length := by
                      have := le_skipWs inp p1
                      omega
                    rw [ihV _ _ _ _ _ hg' hv (fun _ _ _ => hp1)]
                    simp only [h4, if_true] at hd ⊢
                    rw [skipWs_mid _ _ _ _ hk2, head_mid _ _ _ _ hk2]
                    simp only [h3, h4, Bool.false_eq_true, if_false, if_true]
                    cases hd
                    rfl
                  · simp only [h4, Bool.false_eq_true, if_false] at hd
                    cases hd
            · simp only [h2, Bool.false_eq_true, if_false] at hd
              cases hd
        · simp only [h1, Bool.false_eq_true, if_false] at hd
          cases hd
    · intro inp i acc v p g hg hd
      obtain ⟨g', rfl⟩ : ∃ g', g = g' + 1 := ⟨g - 1, by omega⟩
      have hg' : f ≤ g' := by omega
      rw [parseElems] at hd ⊢
      cases hv : parseValue f inp i with
      | fuelOut => rw [hv] at hd; cases hd
      | fail => rw [hv] at hd; cases hd
      | done v1 p1 =>
        rw [hv] at hd
        simp only at hd
        have e3 : pre.length + skipWs inp p1 + 1 =
            pre.length + (skipWs inp p1 + 1) := by omega
        by_cases h3 : ((inp.drop (skipWs inp p1)).head? == some ',') = true
        · have hk2 := lt_of_head_eq_some h3
          have hp1 : p1 < inp.length := by
            have := le_skipWs inp p1
            omega
          rw [ihV _ _ _ _ _ hg' hv (fun _ _ _ => hp1)]
          simp only [h3, if_true] at hd ⊢
          rw [skipWs_mid _ _ _ _ hk2, head_mid _ _ _ _ hk2]
          simp only [h3, if_true]
          have hr := parseElems_start _ _ _ _ _ _ hd
          rw [e3, skipWs_mid _ _ _ _ hr]
          exact ihE _ _ _ _ _ _ hg' hd
        · simp only [h3, Bool.false_eq_true, if_false] at hd
          by_cases h4 : ((inp.drop (skipWs inp p1)).head? == some ']') = true
          · have hk2 := lt_of_head_eq_some h4
            have hp1 : p1 < inp.length := by
              have := le_skipWs inp p1
              omega
            rw [ihV _ _ _ _ _ hg' hv (fun _ _ _ => hp1)]
            simp only [h4, if_true] at hd ⊢
            rw [skipWs_mid _ _ _ _ hk2, head_mid _ _ _ _ hk2]
            simp only [h3, h4, Bool.false_eq_true, if_false, if_true]
            cases hd
            rfl
          · simp only [h4, Bool.false_eq_true, if_false] at hd
            cases hd

theorem jsSpace_range (c : Char) (hc : isJsSpace c = true) : c.toNat ≤ 32 ∨ 160 ≤ c.toNat := by
  simp only [isJsSpace, Bool.or_eq_true, beq_iff_eq, Bool.and_eq_true, decide_eq_true_eq] at hc
  omega

theorem ne_of_toNat_ne (c d : Char) (h : c.toNat ≠ d.toNat) : c ≠ d := by
  intro e
  exact h (by rw [e])

theorem isDigit_range (c : Char) (hc : c.isDigit = true) : 48 ≤ c.toNat ∧ c.toNat ≤ 57 := by
  simp only [Char.isDigit, Bool.and_eq_true, decide_eq_true_eq] at hc
  exact ⟨hc.1, hc.2⟩

theorem parseValue_space_start (f : Nat) (inp : Str) (i : Nat) (c : Char) (rest : Str)
    (hdrop : inp.drop i = c :: rest) (hc : c.toNat ≤ 32 ∨ 160 ≤ c.toNat)
    (v : JVal) (p : Nat) :
    parseValue f inp i ≠ .done v p := by
  cases f with
  | zero => simp [parseValue]
  | succ f =>
    intro hd
    rw [parseValue, hdrop] at hd
    simp only at hd
    have ne : ∀ d : Char, 32 < d.toNat → d.toNat < 160 → c ≠ d := by
      intro d h1 h2
      exact ne_of_toNat_ne _ _ (by omega)
    have n1 : (c == '{') = false := by
      rw [beq_eq_false_iff_ne]
      exact ne _ (by decide) (by decide)
    have n2 : (c == '[') = false := by
      rw [beq_eq_false_iff_ne]
      exact ne _ (by decide) (by decide)
    have n3 : (c == '"') = false := by
      rw [beq_eq_false_iff_ne]
      exact ne _ (by decide) (by decide)
    have n4 := prefix_head_ne "true".toList rest c 't' rfl (ne _ (by decide) (by decide))
    have n5 := prefix_head_ne "false".toList rest c 'f' rfl (ne _ (by decide) (by decide))
    have n6 := prefix_head_ne "null".toList rest c 'n' rfl (ne _ (by decide) (by decide))
    have n7 : parseNumber (c :: rest) = none := by
      cases hpn : parseNumber (c :: rest) with
      | none => rfl
      | some r =>
        rcases parseNumber_head c rest r hpn with h | h
        · exact absurd h (ne _ (by decide) (by decide))
        · have := isDigit_range c h
          omega
    simp only [n1, n2, n3, n4, n5, n6, n7, Bool.false_eq_true, if_false] at hd
    cases hd

theorem skipWs_spaces (ws x : Str) (hws : ∀ c ∈ ws, isJsonSpace c = true) :
    skipWs (ws ++ x) 0 = skipWs (ws ++ x) ws.length := by
  unfold skipWs
  rw [List.drop_zero, List.takeWhile_append_of_pos hws, List.drop_left]
  simp

theorem skipWs_stop (inp : Str) (i : Nat) (c : Char) (rest : Str)
    (hdrop : inp.drop i = c :: rest) (hc : isJsonSpace c = false) : skipWs inp i = i := by
  unfold skipWs
  rw [hdrop]
  simp [List.takeWhile_cons, hc]

theorem jsonParse_space_start (ws : Str) (c : Char) (rest : Str)
    (hws : ∀ x ∈ ws, isJsonSpace x = true) (hc : isJsSpace c = true)
    (hn : isJsonSpace c = false) (v : JVal) :
    jsonParse (ws ++ c :: rest) ≠ .ok v := by
  intro hp
  unfold jsonParse at hp
  have hdrop : (ws ++ c :: rest).drop ws.length = c :: rest := List.drop_left _ _
  rw [skipWs_spaces ws (c :: rest) hws, skipWs_stop _ _ c rest hdrop hn] at hp
  split at hp
  · rename_i v1 p1 hv
    exact parseValue_space_start _ _ _ c rest hdrop (jsSpace_range c hc) v1 p1 hv
  · cases hp

theorem jsonParse_padded (pre J suf : Str) (ps : List (Str × JVal)) (inner : JVal)
    (hJ : jsonParse J = .ok (.obj ps))
    (hpre : ∀ c ∈ pre, isJsSpace c = true)
    (ht : jsonParse (pre ++ J ++ suf) = .ok inner) : inner = .obj ps := by
  cases hdw : pre.dropWhile isJsonSpace with
  | nil =>
    have hall : ∀ c ∈ pre, isJsonSpace c = true := List.dropWhile_eq_nil_iff.mp hdw
    unfold jsonParse at hJ ht
    split at hJ
    · rename_i v p hv
      split at hJ
      · injection hJ with hJ
        subst hJ
        have hi := ((parse_pos _).1 _ _ _ _ hv).2
        have hemb := (parse_embed pre suf (2 * J.length + 2)).1 J (skipWs J 0) (.obj ps) p
          (2 * (pre ++ J ++ suf).length + 2)
          (by simp only [List.length_append]; omega) hv (by intro m e h; cases h)
        have hsk : skipWs (pre ++ J ++ suf) 0 = pre.length + skipWs J 0 := by
          rw [List.append_assoc, skipWs_spaces pre (J ++ suf) hall, ← List.append_assoc]
          exact skipWs_mid pre J suf 0 hi
        rw [hsk, hemb] at ht
        simp only at ht
        split at ht
        · injection ht with ht
          exact ht.symm
        · cases ht
      · cases hJ
    · cases hJ
  | cons c pre2 =>
    have hsplit := List.takeWhile_append_dropWhile isJsonSpace pre
    rw [hdw] at hsplit
    have hc : isJsonSpace c = false := by
      have := List.head?_dropWhile_not isJsonSpace pre
      rw [hdw] at this
      simpa using this
    have hcm : c ∈ pre := by
      rw [← hsplit]
      simp
    have e : pre ++ J ++ suf = pre.takeWhile isJsonSpace ++ c :: (pre2 ++ J ++ suf) := by
      conv_lhs => rw [← hsplit]
      simp
    rw [e] at ht
    exact absurd ht (jsonParse_space_start (pre.takeWhile isJsonSpace) c (pre2 ++ J ++ suf)
      (fun x hx => List.mem_takeWhile_imp hx) (hpre c hcm) hc inner)

theorem all_space_of_trim_nil (x : Str) (h : trim x = []) : ∀ c ∈ x, isJsSpace c = true := by
  have h1 : (trimStart x).reverse.dropWhile isJsSpace = [] := by
    simpa [trim, trimEnd] using h
  have h2 : ∀ c ∈ trimStart x, isJsSpace c = true := by
    intro c hc
    exact List.dropWhile_eq_nil_iff.mp h1 c (List.mem_reverse.mpr hc)
  have h3 : trimStart x = [] := by
    cases hq : trimStart x with
    | nil => rfl
    | cons d r =>
      have hd := List.head?_dropWhile_not isJsSpace x
      unfold trimStart at hq h2
      rw [hq] at hd h2
      have := h2 d (by simp)
      simp only [List.head?_cons] at hd
      rw [this] at hd
      cases hd
  exact List.dropWhile_eq_nil_iff.mp h3

theorem extractEmbedded_blank_text (h : Host) (ps : List (Str × JVal)) (pre S A suf skill : Str)
    (args : List (Str × JVal))
    (ht : lookupProp "text".toList ps = .str (pre ++ skillJson S A ++ suf))
    (hparse : jsonParse (skillJson S A) =
      .ok (.obj [("skill".toList, .str skill), ("args".toList, .obj args)]))
    (hskill : skill ≠ [])
    (hpre : '{' ∉ pre) (hsuf : '}' ∉ suf) (htrim : trim (pre ++ suf) = []) :
    extractEmbedded h (.obj ps) =
      .ok (.obj (assignProp "text".toList (.str ("正在執行: ".toList ++ skill))
        (assignProp "args".toList (.obj args)
          (assignProp "skill".toList (.str skill) ps)))) := by
  obtain ⟨m, hm, hw⟩ := reMatch_skillJson pre S A suf hpre hsuf
  have htr : truthy (.str (pre ++ skillJson S A ++ suf)) = true := by
    simp [truthy, skillJson]
  have hts : truthy (.str skill) = true := by
    cases skill with
    | nil => exact absurd rfl hskill
    | cons c cs => rfl
  have hl1 : lookupProp "text".toList (assignProp "args".toList (.obj args)
      (assignProp "skill".toList (.str skill) ps)) = .str (pre ++ skillJson S A ++ suf) := by
    rw [lookupProp_assignProp_ne _ _ _ _ (by decide),
      lookupProp_assignProp_ne _ _ _ _ (by decide), ht]
  have hl2 : lookupProp "skill".toList (assignProp "args".toList (.obj args)
      (assignProp "skill".toList (.str skill) ps)) = .str skill := by
    rw [lookupProp_assignProp_ne _ _ _ _ (by decide), lookupProp_assignProp_same]
  have hrm := removeFirst_skillJson pre S A suf hpre
  have hl1' : lookupProp ['t', 'e', 'x', 't'] (assignProp ['a', 'r', 'g', 's'] (.obj args)
      (assignProp ['s', 'k', 'i', 'l', 'l'] (.str skill) ps)) =
      .str (pre ++ skillJson S A ++ suf) := hl1
  have hl2' : lookupProp ['s', 'k', 'i', 'l', 'l'] (assignProp ['a', 'r', 'g', 's'] (.obj args)
      (assignProp ['s', 'k', 'i', 'l', 'l'] (.str skill) ps)) = .str skill := hl2
  have hsj : skillJson S A ≠ [] := by simp [skillJson]
  have hrm' : removeFirst (skillJson S A) (pre ++ (skillJson S A ++ suf)) = pre ++ suf := by
    rw [← List.append_assoc]
    exact hrm
  simp only [extractEmbedded, getProp, bind, Except.bind, pure, Except.pure, ht, htr, hm, hw,
    hparse, if_true]
  simp [lookupProp, truthy, hoistEmbedded, setProp, hoistedText, jsOr, getProp, bind,
    Except.bind, pure, Except.pure, hl1', hl2', hrm', htrim, hskill, hsj, toStr]

theorem unwrapDouble_cases (ps : List (Str × JVal)) (t : Str)
    (ht : lookupProp "text".toList ps = .str t) :
    unwrapDouble (.obj ps) = .ok (.obj ps) ∨
    ∃ inner, jsonParse t = .ok inner ∧ unwrapDouble (.obj ps) = .ok inner := by
  simp only [unwrapDouble, getProp, bind, Except.bind, ht, pure, Except.pure]
  split
  · cases hp : jsonParse t with
    | error e => exact Or.inl rfl
    | ok inner =>
      simp only
      split
      · exact Or.inr ⟨inner, rfl, rfl⟩
      · exact Or.inl rfl
  · exact Or.inl rfl

/-! ## Extraction and the characters around the object -/

theorem normalize_of_unwrapped (h : Host) (data : JVal) (skill : Str)
    (args : List (Str × JVal)) (hskill : skill ≠ [])
    (hu : unwrapDouble data =
      .ok (.obj [("skill".toList, .str skill), ("args".toList, .obj args)])) :
    normalizeReply h data =
      .ok (.obj [("skill".toList, .str skill), ("args".toList, .obj args)]) := by
  have hts : truthy (.str skill) = true := by
    cases skill with
    | nil => exact absurd rfl hskill
    | cons c cs => rfl
  have hl : lookupProp "skill".toList
      [("skill".toList, JVal.str skill), ("args".toList, JVal.obj args)] = .str skill := rfl
  have hlt : lookupProp "text".toList
      [("skill".toList, JVal.str skill), ("args".toList, JVal.obj args)] = .undefined := rfl
  simp only [normalizeReply, bind, Except.bind, hu]
  simp only [extractEmbedded, getProp, bind, Except.bind, pure, Except.pure, hlt]
  simp only [skillSentinel, getProp, bind, Except.bind, pure, Except.pure, hl, hts, if_true]

theorem hoisted_reply (ps : List (Str × JVal)) (skill : Str) (args : List (Str × JVal))
    (txt : JVal) (hskill : skill ≠ []) :
    ∃ data, skillSentinel (.obj (assignProp "text".toList txt
        (assignProp "args".toList (.obj args) (assignProp "skill".toList (.str skill) ps)))) =
        .ok data ∧
      getProp data "skill" = .ok (.str skill) ∧ getProp data "args" = .ok (.obj args) := by
  have hts : truthy (.str skill) = true := by
    cases skill with
    | nil => exact absurd rfl hskill
    | cons c cs => rfl
  have hsk : lookupProp "skill".toList (assignProp "text".toList txt
      (assignProp "args".toList (.obj args) (assignProp "skill".toList (.str skill) ps))) =
      .str skill := by
    rw [lookupProp_assignProp_ne _ _ _ _ (by decide),
      lookupProp_assignProp_ne _ _ _ _ (by decide), lookupProp_assignProp_same]
  have har : lookupProp "args".toList (assignProp "text".toList txt
      (assignProp "args".toList (.obj args) (assignProp "skill".toList (.str skill) ps))) =
      .obj args := by
    rw [lookupProp_assignProp_ne _ _ _ _ (by decide), lookupProp_assignProp_same]
  refine ⟨.obj (assignProp "text".toList txt
      (assignProp "args".toList (.obj args) (assignProp "skill".toList (.str skill) ps))),
    ?_, ?_, ?_⟩
  · simp only [skillSentinel, getProp, bind, Except.bind, hsk, hts, if_true]
    rfl
  · simp only [getProp, hsk]
  · simp only [getProp, har]

/-- C12, as amended. When the text of the reply is `prefix + J + suffix`,
where `J` is the text `{"skill":S,"args":A}` of an object with a non-empty
string `skill` and an object `args`, `prefix` has no `{` and `suffix` has no
`}`, the reply of `callAI` has the `skill` and the `args` of that object,
whatever else the prefix and the suffix hold (nothing, white space only, or
other text). -/
theorem embedded_skill_between_braces (h : Host) (api : Api) (u : Str) (s : St) (raw : JVal)
    (ps : List (Str × JVal)) (pre S A suf skill : Str) (args : List (Str × JVal))
    (hraw : api .chat_with_ai (chatArgs h s u) = .ok raw)
    (hpay : parseRaw raw = .ok (.obj ps))
    (ht : lookupProp "text".toList ps = .str (pre ++ skillJson S A ++ suf))
    (hparse : jsonParse (skillJson S A) =
      .ok (.obj [("skill".toList, .str skill), ("args".toList, .obj args)]))
    (hskill : skill ≠ [])
    (hpre : '{' ∉ pre) (hsuf : '}' ∉ suf) :
    ∃ data, (callAI h api u s).1 = .ok data ∧
      getProp data "skill" = .ok (.str skill) ∧
      getProp data "args" = .ok (.obj args) := by
  rw [callAI_result h api u s raw (.obj ps) hraw hpay]
  by_cases htrim : trim (pre ++ suf) = []
  · rcases unwrapDouble_cases ps _ ht with hu | ⟨inner, hpi, hu⟩
    · have he := extractEmbedded_blank_text h ps pre S A suf skill args ht hparse hskill hpre
        hsuf htrim
      obtain ⟨data, hd, h1, h2⟩ := hoisted_reply ps skill args
        (.str ("正在執行: ".toList ++ skill)) hskill
      refine ⟨data, ?_, h1, h2⟩
      simp only [normalizeReply, bind, Except.bind, hu, he]
      exact hd
    · have hsp := all_space_of_trim_nil _ htrim
      have hin := jsonParse_padded pre (skillJson S A) suf _ inner hparse
        (fun c hc => hsp c (List.mem_append_left _ hc)) hpi
      subst hin
      refine ⟨_, normalize_of_unwrapped h (.obj ps) skill args hskill hu, rfl, rfl⟩
  · have hu : unwrapDouble (.obj ps) = .ok (.obj ps) := by
      refine unwrapDouble_free_text ps pre
        ("\"skill\":".toList ++ S ++ ",\"args\":".toList ++ A) suf ?_ hpre hsuf htrim
      rw [ht]
      simp [skillJson]
    have he := extractEmbedded_free_text h ps pre S A suf skill args ht hparse hskill hpre hsuf
      htrim
    obtain ⟨data, hd, h1, h2⟩ := hoisted_reply ps skill args (.str (trim (pre ++ suf))) hskill
    refine ⟨data, ?_, h1, h2⟩
    simp only [normalizeReply, bind, Except.bind, hu, he]
    exact hd

/-- C12 as amended, on the text ` {"skill":"open_url","args":{"url":"http://x"}} `
(white space around the object): skill `open_url`, args `{url: "http://x"}`. -/
theorem embedded_skill_between_braces_witness :
    ∃ data,
      (callAI stdHost
        (replyApi "\x7b\"text\":\" \x7b\\\"skill\\\":\\\"open_url\\\",\\\"args\\\":\x7b\\\"url\\\":\\\"http://x\\\"\x7d\x7d \"\x7d")
        "hi".toList St.init).1 = .ok data ∧
      getProp data "skill" = .ok (.str "open_url".toList) ∧
      getProp data "args" = .ok (.obj [("url".toList, .str "http://x".toList)]) :=
  embedded_skill_between_braces stdHost
    (replyApi "\x7b\"text\":\" \x7b\\\"skill\\\":\\\"open_url\\\",\\\"args\\\":\x7b\\\"url\\\":\\\"http://x\\\"\x7d\x7d \"\x7d")
    "hi".toList St.init _ _ " ".toList "\"open_url\"".toList
    "\x7b\"url\":\"http://x\"\x7d".toList " ".toList "open_url".toList
    [("url".toList, .str "http://x".toList)] rfl rfl rfl rfl (by decide) (by decide) (by decide)

/-- C12 as stated fails. The text
`Use {braces} then {"skill":"open_url","args":{"url":"http://x"}}` contains a
well-formed object with `skill` and `args`, but the pattern matches from the
first `{` of the text to its last `}`; that span is not JSON, nothing is
extracted, and the reply keeps the text and has the skill `null`. -/
theorem embedded_skill_missed :
    jsonParse "\x7b\"skill\":\"open_url\",\"args\":\x7b\"url\":\"http://x\"\x7d\x7d".toList =
      .ok (.obj [("skill".toList, .str "open_url".toList),
        ("args".toList, .obj [("url".toList, .str "http://x".toList)])]) ∧
    "Use \x7bbraces\x7d then \x7b\"skill\":\"open_url\",\"args\":\x7b\"url\":\"http://x\"\x7d\x7d".toList =
      "Use \x7bbraces\x7d then ".toList ++
        "\x7b\"skill\":\"open_url\",\"args\":\x7b\"url\":\"http://x\"\x7d\x7d".toList ++ [] ∧
    (callAI stdHost
      (replyApi "\x7b\"text\":\"Use \x7bbraces\x7d then \x7b\\\"skill\\\":\\\"open_url\\\",\\\"args\\\":\x7b\\\"url\\\":\\\"http://x\\\"\x7d\x7d\"\x7d")
      "hi".toList St.init).1 =
      .ok (.obj [("text".toList, .str
          "Use \x7bbraces\x7d then \x7b\"skill\":\"open_url\",\"args\":\x7b\"url\":\"http://x\"\x7d\x7d".toList),
        ("skill".toList, .null)]) :=
  ⟨rfl, rfl, rfl⟩

/-! ## SkillRegistry.execute -/

theorem includes_of_prefix (p s : Str) (h : p.isPrefixOf s = true) : includes s p = true := by
  cases s with
  | nil => simpa [includes] using h
  | cons c cs => simp [includes, h]

theorem includes_mid (a p b : Str) : includes (a ++ p ++ b) p = true := by
  induction a with
  | nil =>
    apply includes_of_prefix
    rw [List.nil_append]
    exact List.isPrefixOf_iff_prefix.mpr (List.prefix_append p b)
  | cons c cs ih =>
    simp only [List.cons_append, includes, Bool.or_eq_true]
    exact Or.inr ih

/-- C16. For a name that has no entry in the registry, `execute(name, args)`
returns `{success: false, error: 'Skill not found: ' + name}` and calls no
handler; the error text contains `not found` and the name. -/
theorem execute_not_found (skills : SkillMap) (name : Str) (args : JVal)
    (hn : skills.get name = none) :
    SkillRegistry.execute skills name args =
      (.ok (.obj [("success".toList, .bool false),
        ("error".toList, .str ("Skill not found: ".toList ++ name))]), []) ∧
    includes ("Skill not found: ".toList ++ name) "not found".toList = true ∧
    includes ("Skill not found: ".toList ++ name) name = true := by
  refine ⟨?_, ?_, ?_⟩
  · simp only [SkillRegistry.execute, hn]
  · exact includes_mid "Skill ".toList "not found".toList (": ".toList ++ name)
  · have := includes_mid "Skill not found: ".toList name []
    simpa using this

/-- C16, on the registry holding `launch_app` only, asked for `fly`. -/
theorem execute_not_found_witness :
    SkillRegistry.execute
      (SkillRegistry.register [] "launch_app".toList
        ⟨.str "d".toList, .undefined, .fn (fun _ => .ok .null), .undefined, .undefined⟩)
      "fly".toList .undefined =
      (.ok (.obj [("success".toList, .bool false),
        ("error".toList, .str "Skill not found: fly".toList)]), []) :=
  (execute_not_found
    (SkillRegistry.register [] "launch_app".toList
      ⟨.str "d".toList, .undefined, .fn (fun _ => .ok .null), .undefined, .undefined⟩)
    "fly".toList .undefined rfl).1

/-- What `execute` returns for an entry whose handler is the function `f`. -/
theorem execute_handler (skills : SkillMap) (name : Str) (args : JVal) (skill : Skill)
    (f : JVal → Except Thrown JVal)
    (hg : skills.get name = some skill) (hf : skill.handler = .fn f) :
    (∀ r, f (defaultArgs args) = .ok r →
      SkillRegistry.execute skills name args =
        (.ok (.obj [("success".toList, .bool true), ("result".toList, r)]),
          [(name, defaultArgs args)])) ∧
    (∀ e, f (defaultArgs args) = .error (.error e) →
      SkillRegistry.execute skills name args =
        (.ok (.obj [("success".toList, .bool false), ("error".toList, .str e.message)]),
          [(name, defaultArgs args)])) ∧
    (∀ v m, f (defaultArgs args) = .error (.value v) → getProp v "message" = .ok m →
      SkillRegistry.execute skills name args =
        (.ok (.obj [("success".toList, .bool false), ("error".toList, m)]),
          [(name, defaultArgs args)])) ∧
    (∀ v e, f (defaultArgs args) = .error (.value v) → getProp v "message" = .error e →
      SkillRegistry.execute skills name args = (.error e, [(name, defaultArgs args)])) := by
  refine ⟨?_, ?_, ?_, ?_⟩
  · intro r hr
    simp only [SkillRegistry.execute, hg, hf, hr]
  · intro e he
    simp only [SkillRegistry.execute, hg, hf, he, Thrown.message]
  · intro v m hv hm
    simp only [SkillRegistry.execute, hg, hf, hv, Thrown.message, hm]
  · intro v e hv he
    simp only [SkillRegistry.execute, hg, hf, hv, Thrown.message, he]

/-- C17 fails when a handler throws `null` (or `undefined`, as a promise
rejected without a reason does): reading `err.message` in the `catch` block
throws a `TypeError`, which `execute` passes on to its caller. It holds for
the other outcomes: a handler that returns `r` gives `{success: true,
result: r}`, and one that throws an `Error` gives `{success: false, error:
its message}`. -/
theorem execute_rejects_on_null_throw :
    SkillRegistry.execute
      (SkillRegistry.register [] "x".toList
        ⟨.str "d".toList, .undefined, .fn (fun _ => .error (.value .null)), .undefined,
          .undefined⟩)
      "x".toList .undefined =
      (.error (typeError "Cannot read properties of null (reading 'message')"),
        [("x".toList, .obj [])]) ∧
    SkillRegistry.execute
      (SkillRegistry.register [] "x".toList
        ⟨.str "d".toList, .undefined, .fn (fun _ => .error (.value .undefined)), .undefined,
          .undefined⟩)
      "x".toList .undefined =
      (.error (typeError "Cannot read properties of undefined (reading 'message')"),
        [("x".toList, .obj [])]) ∧
    (∀ (skills : SkillMap) (name : Str) (args : JVal) (skill : Skill)
      (f : JVal → Except Thrown JVal) (r : JVal),
      skills.get name = some skill → skill.handler = .fn f → f (defaultArgs args) = .ok r →
      (SkillRegistry.execute skills name args).1 =
        .ok (.obj [("success".toList, .bool true), ("result".toList, r)])) ∧
    (∀ (skills : SkillMap) (name : Str) (args : JVal) (skill : Skill)
      (f : JVal → Except Thrown JVal) (e : JsError),
      skills.get name = some skill → skill.handler = .fn f →
      f (defaultArgs args) = .error (.error e) →
      (SkillRegistry.execute skills name args).1 =
        .ok (.obj [("success".toList, .bool false), ("error".toList, .str e.message)])) := by
  refine ⟨rfl, rfl, ?_, ?_⟩
  · intro skills name args skill f r hg hf hr
    rw [(execute_handler skills name args skill f hg hf).1 r hr]
  · intro skills name args skill f e hg hf he
    rw [(execute_handler skills name args skill f hg hf).2.1 e he]

/-! ## SkillRegistry.register -/

theorem SkillMap.get_set_same (m : SkillMap) (k : Str) (v : Skill) :
    (m.set k v).get k = some v := by
  induction m with
  | nil => simp [SkillMap.set, SkillMap.get]
  | cons e r ih =>
    obtain ⟨k1, v1⟩ := e
    by_cases hk : (k1 == k) = true
    · simp [SkillMap.set, SkillMap.get, hk]
    · simp [SkillMap.set, SkillMap.get, hk, ih]

theorem SkillMap.get_set_ne (m : SkillMap) (k k2 : Str) (v : Skill) (hne : k2 ≠ k) :
    (m.set k v).get k2 = m.get k2 := by
  induction m with
  | nil =>
    have : (k == k2) = false := by simpa using fun h => hne h.symm
    simp [SkillMap.set, SkillMap.get, this]
  | cons e r ih =>
    obtain ⟨k1, v1⟩ := e
    by_cases hk : (k1 == k) = true
    · have e1 : k1 = k := by simpa using hk
      have : (k1 == k2) = false := by
        rw [e1]
        simpa using fun h => hne h.symm
      simp [SkillMap.set, SkillMap.get, hk, this]
    · by_cases hk2 : (k1 == k2) = true
      · simp [SkillMap.set, SkillMap.get, hk, hk2]
      · simp [SkillMap.set, SkillMap.get, hk, hk2, ih]

theorem SkillMap.keys_set (m : SkillMap) (k : Str) (v : Skill) :
    (m.set k v).map Prod.fst =
      if k ∈ m.map Prod.fst then m.map Prod.fst else m.map Prod.fst ++ [k] := by
  induction m with
  | nil => simp [SkillMap.set]
  | cons e r ih =>
    obtain ⟨k1, v1⟩ := e
    by_cases hk : (k1 == k) = true
    · have e1 : k1 = k := by simpa using hk
      subst e1
      simp only [SkillMap.set, hk, if_true, List.map_cons, List.mem_cons, true_or]
    · have e1 : k1 ≠ k := by simpa using hk
      have e2 : k ≠ k1 := fun h => e1 h.symm
      simp only [SkillMap.set, hk, Bool.false_eq_true, if_false, List.map_cons, ih,
        List.mem_cons, e2, false_or]
      split <;> simp

/-- Names in the order in which each was first seen. -/
theorem foldl_first_seen (names : List Str) :
    names.foldl (fun ks n => if n ∈ ks then ks else ks ++ [n]) [] =
      (names.reverse.dedup).reverse := by
  induction names using List.reverseRecOn with
  | nil => rfl
  | append_singleton l n ih =>
    rw [List.foldl_append, List.foldl_cons, List.foldl_nil, ih, List.reverse_append,
      List.reverse_singleton, List.singleton_append]
    by_cases hm : n ∈ l
    · have hm1 : n ∈ l.reverse := List.mem_reverse.mpr hm
      have hm2 : n ∈ (l.reverse.dedup).reverse :=
        List.mem_reverse.mpr (List.mem_dedup.mpr hm1)
      rw [if_pos hm2, List.dedup_cons_of_mem hm1]
    · have hm1 : n ∉ l.reverse := fun h => hm (List.mem_reverse.mp h)
      have hm2 : n ∉ (l.reverse.dedup).reverse :=
        fun h => hm1 (List.mem_dedup.mp (List.mem_reverse.mp h))
      rw [if_neg hm2, List.dedup_cons_of_not_mem hm1]
      simp

theorem registerAll_keys (skills : SkillMap) (calls : List (Str × SkillDefinition)) :
    (SkillRegistry.registerAll skills calls).map Prod.fst =
      (calls.map Prod.fst).foldl (fun ks n => if n ∈ ks then ks else ks ++ [n])
        (skills.map Prod.fst) := by
  induction calls generalizing skills with
  | nil => rfl
  | cons c rest ih =>
    obtain ⟨n, d⟩ := c
    simp only [SkillRegistry.registerAll, List.map_cons, List.foldl_cons]
    rw [ih, SkillRegistry.register, SkillMap.keys_set]

theorem registerAll_get (skills : SkillMap) (calls : List (Str × SkillDefinition))
    (name : Str) :
    (SkillRegistry.registerAll skills calls).get name =
      match calls.reverse.find? (fun c => c.1 == name) with
      | some c => some (SkillRegistry.entry name c.2)
      | none => skills.get name := by
  induction calls generalizing skills with
  | nil => rfl
  | cons c rest ih =>
    obtain ⟨n, d⟩ := c
    simp only [SkillRegistry.registerAll, List.reverse_cons, List.find?_append]
    rw [ih]
    cases hf : rest.reverse.find? (fun c => c.1 == name) with
    | some c => simp
    | none =>
      by_cases hn : (n == name) = true
      · have e1 : n = name := by simpa using hn
        subst e1
        simp [SkillRegistry.register, SkillMap.get_set_same]
      · have e1 : name ≠ n := by
          intro h
          exact hn (by simp [h])
        simp [hn, SkillRegistry.register, SkillMap.get_set_ne _ _ _ _ e1]

theorem execute_congr (skills skills2 : SkillMap) (name : Str) (args : JVal)
    (hg : skills.get name = skills2.get name) :
    SkillRegistry.execute skills name args = SkillRegistry.execute skills2 name args := by
  simp only [SkillRegistry.execute, hg]

/-- C18. After any sequence of `register` calls on a new map, the registry
holds one entry per registered name, no name twice. The entry of a name is
built from the last call for that name: its `name`, the `description` and
the `handler` of that definition, `parameters` or `{}` when that is falsy,
`category` or `'general'` when that is falsy, `confirmRequired` or `false`
when that is falsy; so a definition that gives none of the three gets `{}`,
`'general'` and `false`. `execute(name)` calls the handler registered last,
once, with the arguments, and wraps what it returns or the `Error` it throws.
A `register` call leaves the entry of every other name as it was. -/
theorem register_last_write_wins (calls : List (Str × SkillDefinition)) :
    ((SkillRegistry.registerAll [] calls).map Prod.fst).Nodup ∧
    (∀ name, name ∈ (SkillRegistry.registerAll [] calls).map Prod.fst ↔
      name ∈ calls.map Prod.fst) ∧
    (∀ name, (SkillRegistry.registerAll [] calls).get name =
      (calls.reverse.find? (fun c => c.1 == name)).map
        (fun c => ({ name := name
                     description := c.2.description
                     parameters := if truthy c.2.parameters then c.2.parameters else .obj []
                     handler := c.2.handler
                     category :=
                       if truthy c.2.category then c.2.category else .str "general".toList
                     confirmRequired :=
                       if truthy c.2.confirmRequired then c.2.confirmRequired
                       else .bool false } : Skill))) ∧
    (∀ name c, calls.reverse.find? (fun c => c.1 == name) = some c →
      c.2.parameters = .undefined → c.2.category = .undefined →
      c.2.confirmRequired = .undefined →
      (SkillRegistry.registerAll [] calls).get name =
        some { name := name, description := c.2.description, parameters := .obj [],
               handler := c.2.handler, category := .str "general".toList,
               confirmRequired := .bool false }) ∧
    (∀ name args c f, calls.reverse.find? (fun c => c.1 == name) = some c →
      c.2.handler = .fn f →
      (∀ r, f (defaultArgs args) = .ok r →
        SkillRegistry.execute (SkillRegistry.registerAll [] calls) name args =
          (.ok (.obj [("success".toList, .bool true), ("result".toList, r)]),
            [(name, defaultArgs args)])) ∧
      (∀ e, f (defaultArgs args) = .error (.error e) →
        SkillRegistry.execute (SkillRegistry.registerAll [] calls) name args =
          (.ok (.obj [("success".toList, .bool false), ("error".toList, .str e.message)]),
            [(name, defaultArgs args)]))) ∧
    (∀ (skills : SkillMap) (name other : Str) (d : SkillDefinition), other ≠ name →
      (SkillRegistry.register skills name d).get other = skills.get other) := by
  have hk : (SkillRegistry.registerAll [] calls).map Prod.fst =
      ((calls.map Prod.fst).reverse.dedup).reverse := by
    rw [registerAll_keys, ← foldl_first_seen]
    rfl
  have hg : ∀ name, (SkillRegistry.registerAll [] calls).get name =
      (calls.reverse.find? (fun c => c.1 == name)).map
        (fun c => SkillRegistry.entry name c.2) := by
    intro name
    rw [registerAll_get]
    cases calls.reverse.find? (fun c => c.1 == name) <;> rfl
  refine ⟨?_, ?_, ?_, ?_, ?_, ?_⟩
  · rw [hk]
    exact List.nodup_reverse.mpr (List.nodup_dedup _)
  · intro name
    rw [hk, List.mem_reverse, List.mem_dedup, List.mem_reverse]
  · intro name
    rw [hg]
    rfl
  · intro name c hc hp hcat hconf
    rw [hg, hc]
    simp only [Option.map, SkillRegistry.entry, hp, hcat, hconf, jsOr, truthy,
      Bool.false_eq_true, if_false]
  · intro name args c f hc hf
    have hget : (SkillRegistry.registerAll [] calls).get name =
        some (SkillRegistry.entry name c.2) := by rw [hg, hc]; rfl
    have hh : (SkillRegistry.entry name c.2).handler = .fn f := hf
    have := execute_handler (SkillRegistry.registerAll [] calls) name args _ f hget hh
    exact ⟨this.1, this.2.1⟩
  · intro skills name other d hne
    exact SkillMap.get_set_ne _ _ _ _ hne

theorem joinWith_intercalate (sep : Str) (l : List Str) :
    joinWith sep l = List.intercalate sep l := by
  induction l with
  | nil => rfl
  | cons x r ih =>
    cases r with
    | nil => simp [joinWith, List.intercalate]
    | cons y r2 =>
      rw [joinWith, ih]
      simp [List.intercalate, List.intersperse]

theorem joinWith_snoc (sep : Str) (l : List Str) (x : Str) (hl : l ≠ []) :
    joinWith sep (l ++ [x]) = joinWith sep l ++ sep ++ x := by
  induction l with
  | nil => exact absurd rfl hl
  | cons a r ih =>
    cases r with
    | nil => simp [joinWith]
    | cons b r2 =>
      have := ih (by simp)
      simp only [List.cons_append] at this
      show a ++ sep ++ joinWith sep (b :: (r2 ++ [x])) = _
      rw [this]
      simp [joinWith]

/-- C19. `list()` gives one object per entry in the order of the map, which
after a sequence of `register` calls on a new map is the order in which each
name was first registered. `toPromptDescription()` is the lines
`- name: description (params: <JSON of parameters>)`, one per entry in that
order, with one newline between two lines and none after the last. -/
theorem list_and_prompt (h : Host) (skills : SkillMap) (calls : List (Str × SkillDefinition)) :
    SkillRegistry.list skills = skills.map (fun e =>
      .obj [("name".toList, .str e.1), ("description".toList, e.2.description),
        ("parameters".toList, e.2.parameters), ("category".toList, e.2.category)]) ∧
    (SkillRegistry.list (SkillRegistry.registerAll [] calls)).map (fun s => propOf s "name") =
      (((calls.map Prod.fst).reverse.dedup).reverse).map JVal.str ∧
    SkillRegistry.toPromptDescription h skills =
      List.intercalate ['\n'] (skills.map (fun e =>
        "- ".toList ++ e.1 ++ ": ".toList ++ toStr h e.2.description ++
          " (params: ".toList ++ toStr h (h.jsonStringify e.2.parameters) ++ ")".toList)) ∧
    SkillRegistry.toPromptDescription h [] = [] ∧
    (∀ e : Str × Skill, SkillRegistry.toPromptDescription h [e] =
      "- ".toList ++ e.1 ++ ": ".toList ++ toStr h e.2.description ++
        " (params: ".toList ++ toStr h (h.jsonStringify e.2.parameters) ++ ")".toList) ∧
    (∀ (e : Str × Skill), skills ≠ [] →
      SkillRegistry.toPromptDescription h (skills ++ [e]) =
        SkillRegistry.toPromptDescription h skills ++ ['\n'] ++
          ("- ".toList ++ e.1 ++ ": ".toList ++ toStr h e.2.description ++
            " (params: ".toList ++ toStr h (h.jsonStringify e.2.parameters) ++ ")".toList)) := by
  have hk : (SkillRegistry.registerAll [] calls).map Prod.fst =
      ((calls.map Prod.fst).reverse.dedup).reverse := by
    rw [registerAll_keys, ← foldl_first_seen]
    rfl
  have hline : ∀ sk : SkillMap, (SkillRegistry.list sk).map (fun s =>
      promptLine h (propOf s "name") (propOf s "description") (propOf s "parameters")) =
      sk.map (fun e =>
        "- ".toList ++ e.1 ++ ": ".toList ++ toStr h e.2.description ++
          " (params: ".toList ++ toStr h (h.jsonStringify e.2.parameters) ++ ")".toList) := by
    intro sk
    simp only [SkillRegistry.list, List.map_map]
    rfl
  refine ⟨rfl, ?_, ?_, rfl, fun e => rfl, ?_⟩
  · rw [← hk]
    simp only [SkillRegistry.list, List.map_map]
    rfl
  · rw [SkillRegistry.toPromptDescription, hline, joinWith_intercalate]
  · intro e hne
    simp only [SkillRegistry.toPromptDescription, hline, List.map_append, List.map_cons,
      List.map_nil]
    rw [joinWith_snoc _ _ _ (by simpa using hne)]

/-! ## The settings -/

theorem parseValue_ne_undefined (f : Nat) (inp : Str) (i : Nat) (v : JVal) (j : Nat)
    (hd : parseValue f inp i = .done v j) : v ≠ .undefined := by
  cases f with
  | zero => simp [parseValue] at hd
  | succ f =>
    rw [parseValue] at hd
    split at hd
    · cases hd
    · split at hd
      · split at hd
        · injection hd with hv hj
          subst hv
          intro hx; cases hx
        · obtain ⟨ps, k, rfl, -, -⟩ := parseMembers_done _ _ _ _ _ _ hd
          intro hx; cases hx
      · split at hd
        · split at hd
          · injection hd with hv hj
            subst hv
            intro hx; cases hx
          · obtain ⟨xs, rfl⟩ := parseElems_done _ _ _ _ _ _ hd
            intro hx; cases hx
        · split at hd
          · split at hd
            · injection hd with hv hj
              subst hv
              intro hx; cases hx
            · cases hd
          · split at hd
            · injection hd with hv hj
              subst hv
              intro hx; cases hx
            · split at hd
              · injection hd with hv hj
                subst hv
                intro hx; cases hx
              · split at hd
                · injection hd with hv hj
                  subst hv
                  intro hx; cases hx
                · split at hd
                  · injection hd with hv hj
                    subst hv
                    intro hx; cases hx
                  · cases hd

/-- The settings are never `undefined`: they are what `JSON.parse` returns,
or `{}`. -/
theorem loadSettings_ne_undefined (file : Option Str) : loadSettings file ≠ .undefined := by
  unfold loadSettings
  cases file with
  | none => intro hx; cases hx
  | some s =>
    simp only []
    cases hp : jsonParse s with
    | error e => intro hx; cases hx
    | ok v =>
      simp only []
      unfold jsonParse at hp
      split at hp
      · rename_i v' p hpv
        split at hp
        · cases hp
          exact parseValue_ne_undefined _ _ _ _ _ hpv
        · cases hp
      · cases hp

/-- The read `settings.apiUrl` succeeds unless the settings are `null`. -/
theorem settings_apiUrl (file : Option Str) (hnn : loadSettings file ≠ .null) :
    getProp (loadSettings file) "apiUrl" = .ok (propOf (loadSettings file) "apiUrl") := by
  have hu := loadSettings_ne_undefined file
  cases hs : loadSettings file with
  | null => exact absurd hs hnn
  | undefined => exact absurd hs hu
  | bool b => rfl
  | num m e => rfl
  | str s => rfl
  | arr xs ps => rfl
  | obj ps => rfl

/-! ## The chat handler without an endpoint -/

/-- C20, as the code has it. When the settings are not `null` and hold no
truthy `apiUrl` (none, or an empty one), the chat handler resolves with the
JSON of `{text: '[Error] 尚未設定 Colab API URL，請點擊齒輪設定。'}` for every
`messagesJson` and `skillsJson` (which it does not parse: malformed ones give
the same reply) and makes no request. -/
theorem chat_not_configured (h : Host) (file : Option Str) (net : Fetch)
    (messagesJson skillsJson : JVal)
    (hnn : loadSettings file ≠ .null)
    (hurl : truthy (propOf (loadSettings file) "apiUrl") = false) :
    chatWithAiHandler h file net messagesJson skillsJson =
      (.ok (h.jsonStringify (.obj [("text".toList,
        .str "[Error] 尚未設定 Colab API URL，請點擊齒輪設定。".toList)])), []) := by
  have hf : truthy (jsOr (propOf (loadSettings file) "apiUrl") (.str [])) = false := by
    simp only [jsOr, hurl, Bool.false_eq_true, if_false]
    rfl
  simp only [chatWithAiHandler, settings_apiUrl file hnn, hf, Bool.not_false, if_true]

/-- C20, with no settings file (the settings are `{}`) and arguments that are
not JSON: the reply is the text
`{"text":"[Error] 尚未設定 Colab API URL，請點擊齒輪設定。"}` and no request is made. -/
theorem chat_not_configured_witness :
    loadSettings none ≠ .null ∧
    chatWithAiHandler stdHost none (fun _ _ => .error ⟨.undefined, [], []⟩)
      (.str "not json".toList) (.str "\x7b".toList) =
      (.ok (.str "\x7b\"text\":\"[Error] 尚未設定 Colab API URL，請點擊齒輪設定。\"\x7d".toList), []) :=
  ⟨(by intro hx; cases hx),
   chat_not_configured stdHost none (fun _ _ => .error ⟨.undefined, [], []⟩)
    (.str "not json".toList) (.str "\x7b".toList) (by intro hx; cases hx) rfl⟩

/-- C20 does not hold for every settings file. When the file holds the JSON
value `null`, the settings have no `apiUrl`, yet the handler does not return
the fixed reply: the read `settings.apiUrl`, which stands before the `try`
block, throws and the handler rejects with that `TypeError`. -/
theorem chat_null_settings :
    loadSettings (some "null".toList) = .null ∧
    ∀ (net : Fetch) (messagesJson skillsJson : JVal),
      chatWithAiHandler stdHost (some "null".toList) net messagesJson skillsJson =
        (.error (NodeError.ofJs
          (typeError "Cannot read properties of null (reading 'apiUrl')")), []) :=
  ⟨rfl, fun _ _ _ => rfl⟩

/-! ## The chat handler with an endpoint -/

/-- An error of `JSON.parse` is a `SyntaxError`. -/
theorem jsonParse_error_eq (s : Str) (e : JsError) (hp : jsonParse s = .error e) :
    e = syntaxError := by
  unfold jsonParse at hp
  split at hp
  · split at hp
    · cases hp
    · cases hp; rfl
  · cases hp; rfl

/-- An error of the parse of an argument is a `SyntaxError`. -/
theorem parseRaw_error_eq (v : JVal) (e : JsError) (hp : parseRaw v = .error e) :
    e = syntaxError := by
  cases v with
  | str r => exact jsonParse_error_eq r e hp
  | _ => cases hp

/-- With an endpoint, the handler resolves with what the `try` block returns,
or with the reply its `catch` clause makes of the error thrown. -/
theorem chatWithAiHandler_configured (h : Host) (file : Option Str) (net : Fetch)
    (messagesJson skillsJson : JVal) (ps : List (Str × JVal))
    (hset : loadSettings file = .obj ps)
    (hurl : truthy (lookupProp "apiUrl".toList ps) = true) :
    (chatWithAiHandler h file net messagesJson skillsJson).1 =
      match (chatRequest h net (lookupProp "apiUrl".toList ps) messagesJson skillsJson).1 with
      | .ok v => .ok v
      | .error err =>
        if strictEqStr err.code "ECONNREFUSED" || err.name == "FetchError".toList ||
            strictEqStr err.code "ENOTFOUND" then
          .ok (h.jsonStringify (.obj [("text".toList,
            .str "[Error] 無法連線到 AI 後端，請確認 Colab 是否已啟動。".toList)]))
        else
          .ok (h.jsonStringify (.obj [("text".toList,
            .str ("[Error] ".toList ++ err.message))])) := by
  have hj : jsOr (lookupProp "apiUrl".toList ps) (.str []) = lookupProp "apiUrl".toList ps := by
    simp only [jsOr, hurl, if_true]
  simp only [chatWithAiHandler, hset, getProp, hj, hurl, Bool.not_true, Bool.false_eq_true,
    if_false]
  rcases hr : chatRequest h net (lookupProp "apiUrl".toList ps) messagesJson skillsJson
    with ⟨r, reqs⟩
  cases r with
  | ok v => rfl
  | error err =>
    simp only []
    split <;> rfl

/-- C21. With an endpoint configured (the settings hold a truthy `apiUrl`),
the chat handler never rejects, and: malformed `messagesJson` or `skillsJson`
gives `[Error] ` followed by the message of the parse error; a response
whose `ok` is false (a status `s` outside 200..299) gives `[Error] API: `
followed by `s`; a response whose `ok` is true gives the JSON of the body it
carries; an error thrown by the request or by the read of the body gives
the fixed text `[Error] 無法連線到 AI 後端，請確認 Colab 是否已啟動。` when its code is
`ECONNREFUSED` or `ENOTFOUND` or its name is `FetchError`, and `[Error] `
followed by its message otherwise. Each reply text is returned as the JSON
of `{text}`. -/
theorem chat_failure_classes (h : Host) (file : Option Str) (net : Fetch)
    (messagesJson skillsJson : JVal) (ps : List (Str × JVal))
    (hset : loadSettings file = .obj ps)
    (hurl : truthy (lookupProp "apiUrl".toList ps) = true) :
    (∃ v, (chatWithAiHandler h file net messagesJson skillsJson).1 = .ok v) ∧
    (∀ e, parseRaw messagesJson = .error e ∨
        ((∃ m, parseRaw messagesJson = .ok m) ∧ parseRaw skillsJson = .error e) →
      (chatWithAiHandler h file net messagesJson skillsJson).1 =
        .ok (h.jsonStringify (.obj [("text".toList, .str ("[Error] ".toList ++ e.message))]))) ∧
    (∀ messages skills, parseRaw messagesJson = .ok messages →
      parseRaw skillsJson = .ok skills →
      (∀ response,
        net (toStr h (lookupProp "apiUrl".toList ps) ++ "/chat".toList)
          (h.jsonStringify (.obj [("messages".toList, messages), ("skills".toList, skills)])) =
            .ok response →
        (response.ok = false →
          (chatWithAiHandler h file net messagesJson skillsJson).1 =
            .ok (h.jsonStringify (.obj [("text".toList,
              .str ("[Error] API: ".toList ++ toStr h response.status))]))) ∧
        (∀ v, response.ok = true → response.json = .ok v →
          (chatWithAiHandler h file net messagesJson skillsJson).1 = .ok (h.jsonStringify v))) ∧
      (∀ err,
        net (toStr h (lookupProp "apiUrl".toList ps) ++ "/chat".toList)
          (h.jsonStringify (.obj [("messages".toList, messages), ("skills".toList, skills)])) =
            .error err ∨
        (∃ response,
          net (toStr h (lookupProp "apiUrl".toList ps) ++ "/chat".toList)
            (h.jsonStringify (.obj [("messages".toList, messages), ("skills".toList, skills)])) =
              .ok response ∧ response.ok = true ∧ response.json = .error err) →
        (chatWithAiHandler h file net messagesJson skillsJson).1 =
          .ok (h.jsonStringify (.obj [("text".toList, .str
            (if strictEqStr err.code "ECONNREFUSED" || strictEqStr err.code "ENOTFOUND" ||
                err.name == "FetchError".toList then
              "[Error] 無法連線到 AI 後端，請確認 Colab 是否已啟動。".toList
            else "[Error] ".toList ++ err.message))])))) := by
  have hmain := chatWithAiHandler_configured h file net messagesJson skillsJson ps hset hurl
  refine ⟨?_, ?_, ?_⟩
  · rw [hmain]
    cases (chatRequest h net (lookupProp "apiUrl".toList ps) messagesJson skillsJson).1 with
    | ok v => exact ⟨v, rfl⟩
    | error err =>
      simp only []
      split
      · exact ⟨_, rfl⟩
      · exact ⟨_, rfl⟩
  · intro e he
    have hreq : (chatRequest h net (lookupProp "apiUrl".toList ps) messagesJson skillsJson).1 =
        .error (NodeError.ofJs e) := by
      rcases he with he | ⟨⟨m, hm⟩, he⟩
      · simp only [chatRequest, he]
      · simp only [chatRequest, hm, he]
    have hse : e = syntaxError := by
      rcases he with he | ⟨_, he⟩
      · exact parseRaw_error_eq _ _ he
      · exact parseRaw_error_eq _ _ he
    rw [hmain, hreq]
    subst hse
    rfl
  · intro messages skills hm hk
    refine ⟨?_, ?_⟩
    · intro response hnet
      refine ⟨?_, ?_⟩
      · intro hok
        rw [hmain]
        simp only [chatRequest, hm, hk, hnet, hok, Bool.false_eq_true, if_false]
      · intro v hok hjson
        rw [hmain]
        simp only [chatRequest, hm, hk, hnet, hok, if_true, hjson]
    · intro err herr
      have hreq : (chatRequest h net (lookupProp "apiUrl".toList ps) messagesJson skillsJson).1 =
          .error err := by
        rcases herr with hnet | ⟨response, hnet, hok, hjson⟩
        · simp only [chatRequest, hm, hk, hnet]
        · simp only [chatRequest, hm, hk, hnet, hok, if_true, hjson]
      rw [hmain, hreq]
      simp only []
      cases strictEqStr err.code "ECONNREFUSED" <;>
      cases strictEqStr err.code "ENOTFOUND" <;>
      cases (err.name == "FetchError".toList) <;> rfl

/-- C21, with the settings `{"apiUrl":"http://c"}` and a `messagesJson` that is
not JSON: no request is needed to see that the handler resolves with the JSON
of `{text: '[Error] ' + message}` for the message of the parse error. -/
theorem chat_failure_classes_witness :
    loadSettings (some "\x7b\"apiUrl\":\"http://c\"\x7d".toList) =
      .obj [("apiUrl".toList, .str "http://c".toList)] ∧
    truthy (lookupProp "apiUrl".toList [("apiUrl".toList, .str "http://c".toList)]) = true ∧
    (chatWithAiHandler stdHost (some "\x7b\"apiUrl\":\"http://c\"\x7d".toList)
      (fun _ _ => .error ⟨.undefined, [], []⟩) (.str "not json".toList) (.str "[]".toList)).1 =
      .ok (.str "\x7b\"text\":\"[Error] Unexpected token in JSON\"\x7d".toList) :=
  ⟨rfl, rfl,
    (chat_failure_classes stdHost (some "\x7b\"apiUrl\":\"http://c\"\x7d".toList)
      (fun _ _ => .error ⟨.undefined, [], []⟩) (.str "not json".toList) (.str "[]".toList)
      [("apiUrl".toList, .str "http://c".toList)] rfl rfl).2.1 syntaxError (Or.inl rfl)⟩

/-! ## The health check -/

/-- C22, as the code has it. With settings that are not `null`, the health
check never rejects. Without a truthy `apiUrl` it resolves with the JSON of
`{connected: false, message: '未設定'}` and makes no request. With one it makes
the single request `GET <apiUrl>/health`; when that completes with an `ok`
status and a JSON body other than `null`, it resolves with the JSON of
`{connected: true, message: '已連線 - ' + (body.model || 'AI Ready')}`; when the
request fails, the status is not `ok`, the body cannot be read, or the body
is `null` (the read of `body.model` then throws), it resolves with the JSON
of `{connected: false, message: '未連線 - 請啟動 Colab'}`. -/
theorem health_check_cases (h : Host) (file : Option Str) (net : Fetch)
    (hnn : loadSettings file ≠ .null) :
    (∃ v, (checkHealthHandler h file net).1 = .ok v) ∧
    (truthy (propOf (loadSettings file) "apiUrl") = false →
      checkHealthHandler h file net =
        (.ok (h.jsonStringify (.obj [("connected".toList, .bool false),
          ("message".toList, .str "未設定".toList)])), [])) ∧
    (truthy (propOf (loadSettings file) "apiUrl") = true →
      (checkHealthHandler h file net).2 =
        [(toStr h (propOf (loadSettings file) "apiUrl") ++ "/health".toList, .undefined)] ∧
      (∀ response data,
        net (toStr h (propOf (loadSettings file) "apiUrl") ++ "/health".toList) .undefined =
          .ok response →
        response.ok = true → response.json = .ok data →
        (∀ model, getProp data "model" = .ok model →
          (checkHealthHandler h file net).1 =
            .ok (h.jsonStringify (.obj [("connected".toList, .bool true),
              ("message".toList, .str ("已連線 - ".toList ++
                toStr h (jsOr model (.str "AI Ready".toList))))]))) ∧
        ((data = .null ∨ data = .undefined) →
          (checkHealthHandler h file net).1 =
            .ok (h.jsonStringify (.obj [("connected".toList, .bool false),
              ("message".toList, .str "未連線 - 請啟動 Colab".toList)])))) ∧
      (((∃ err, net (toStr h (propOf (loadSettings file) "apiUrl") ++ "/health".toList)
            .undefined = .error err) ∨
        (∃ response,
          net (toStr h (propOf (loadSettings file) "apiUrl") ++ "/health".toList) .undefined =
            .ok response ∧
          (response.ok = false ∨ ∃ err, response.json = .error err))) →
        (checkHealthHandler h file net).1 =
          .ok (h.jsonStringify (.obj [("connected".toList, .bool false),
            ("message".toList, .str "未連線 - 請啟動 Colab".toList)])))) := by
  have hget := settings_apiUrl file hnn
  refine ⟨?_, ?_, ?_⟩
  · simp only [checkHealthHandler, hget]
    split
    · exact ⟨_, rfl⟩
    · split
      · exact ⟨_, rfl⟩
      · split
        · split
          · exact ⟨_, rfl⟩
          · split
            · exact ⟨_, rfl⟩
            · exact ⟨_, rfl⟩
        · exact ⟨_, rfl⟩
  · intro hu
    have hf : truthy (jsOr (propOf (loadSettings file) "apiUrl") (.str [])) = false := by
      simp only [jsOr, hu, Bool.false_eq_true, if_false]; rfl
    simp only [checkHealthHandler, hget, hf, Bool.not_false, if_true]
  · intro hu
    have hj : jsOr (propOf (loadSettings file) "apiUrl") (.str []) =
        propOf (loadSettings file) "apiUrl" := by
      simp only [jsOr, hu, if_true]
    refine ⟨?_, ?_, ?_⟩
    · simp only [checkHealthHandler, hget, hj, hu, Bool.not_true, Bool.false_eq_true, if_false]
      split
      · rfl
      · split
        · split
          · rfl
          · split <;> rfl
        · rfl
    · intro response data hnet hok hjson
      refine ⟨?_, ?_⟩
      · intro model hmodel
        simp only [checkHealthHandler, hget, hj, hu, Bool.not_true, Bool.false_eq_true,
          if_false, hnet, hok, if_true, hjson, hmodel]
      · intro hd
        simp only [checkHealthHandler, hget, hj, hu, Bool.not_true, Bool.false_eq_true,
          if_false, hnet, hok, if_true, hjson]
        rcases hd with hd | hd <;> subst hd <;> rfl
    · intro hfail
      simp only [checkHealthHandler, hget, hj, hu, Bool.not_true, Bool.false_eq_true, if_false]
      rcases hfail with ⟨err, hnet⟩ | ⟨response, hnet, hok | ⟨err, hjson⟩⟩
      · simp only [hnet]
      · simp only [hnet, hok, Bool.false_eq_true, if_false]
      · simp only [hnet, hjson]
        split <;> rfl

/-- C22, with the settings `{"apiUrl":"http://c"}` and a backend that answers
200 with the body `{"model":"gemma"}`: the handler resolves with
`{"connected":true,"message":"已連線 - gemma"}`. -/
theorem health_check_cases_witness :
    loadSettings (some "\x7b\"apiUrl\":\"http://c\"\x7d".toList) ≠ .null ∧
    (checkHealthHandler stdHost (some "\x7b\"apiUrl\":\"http://c\"\x7d".toList)
      (fun _ _ => .ok ⟨true, .num 200 0,
        .ok (.obj [("model".toList, .str "gemma".toList)])⟩)).1 =
      .ok (.str "\x7b\"connected\":true,\"message\":\"已連線 - gemma\"\x7d".toList) :=
  ⟨(by intro hx; cases hx),
    ((health_check_cases stdHost (some "\x7b\"apiUrl\":\"http://c\"\x7d".toList)
      (fun _ _ => .ok ⟨true, .num 200 0,
        .ok (.obj [("model".toList, .str "gemma".toList)])⟩)
      (by intro hx; cases hx)).2.2 rfl).2.1
      ⟨true, .num 200 0, .ok (.obj [("model".toList, .str "gemma".toList)])⟩
      (.obj [("model".toList, .str "gemma".toList)]) rfl rfl rfl |>.1
      (.str "gemma".toList) rfl⟩

/-- C22 does not hold as stated. An endpoint is configured and
`GET http://c/health` completes with status 200 and the readable JSON body
`null`, yet the handler resolves with
`{"connected":false,"message":"未連線 - 請啟動 Colab"}`: the read of `data.model`
throws and the `catch` clause drops the error. With the body `{"model":""}`,
whose `model` is present, the message is `已連線 - AI Ready`. And when the
settings file holds the JSON value `null`, the handler throws: the read
`settings.apiUrl` stands before the `try` block. -/
theorem health_null_body :
    (checkHealthHandler stdHost (some "\x7b\"apiUrl\":\"http://c\"\x7d".toList)
      (fun _ _ => .ok ⟨true, .num 200 0, jsonParse "null".toList |>.mapError NodeError.ofJs⟩)) =
      (.ok (.str "\x7b\"connected\":false,\"message\":\"未連線 - 請啟動 Colab\"\x7d".toList),
        [("http://c/health".toList, .undefined)]) ∧
    (checkHealthHandler stdHost (some "\x7b\"apiUrl\":\"http://c\"\x7d".toList)
      (fun _ _ => .ok ⟨true, .num 200 0,
        jsonParse "\x7b\"model\":\"\"\x7d".toList |>.mapError NodeError.ofJs⟩)) =
      (.ok (.str "\x7b\"connected\":true,\"message\":\"已連線 - AI Ready\"\x7d".toList),
        [("http://c/health".toList, .undefined)]) ∧
    (∀ net : Fetch, checkHealthHandler stdHost (some "null".toList) net =
      (.error (NodeError.ofJs
        (typeError "Cannot read properties of null (reading 'apiUrl')")), [])) :=
  ⟨rfl, rfl, fun _ => rfl⟩

/-! ## The advertised names and the cases of the switch -/

theorem quiet_pure {α : Type} (a : α) : Quiet (Pure.pure a : M α) := fun _ => rfl

theorem quiet_liftE {α : Type} (x : Except JsError α) : Quiet (liftE x) := fun _ => rfl

theorem quiet_bind {α β : Type} {x : M α} {f : α → M β} (hx : Quiet x)
    (hf : ∀ a, Quiet (f a)) : Quiet (x >>= f) := by
  intro s
  have h1 := hx s
  simp only [run_bind]
  rcases hxs : x s with ⟨r, s1⟩
  rw [hxs] at h1
  simp only at h1
  subst h1
  cases r with
  | ok a => exact hf a s1
  | error e => rfl

theorem callsOnce_liftE {α β : Type} (cap : Cap) (x : Except JsError α) {f : α → M β}
    (hf : ∀ a, CallsOnce cap (f a)) : CallsOnce cap (liftE x >>= f) := by
  intro s
  simp only [run_bind, run_liftE]
  cases x with
  | ok a => exact hf a s
  | error e => exact Or.inl ⟨e, rfl⟩

theorem callsOnce_callApi {β : Type} (api : Api) (cap : Cap) (as : List JVal) {f : JVal → M β}
    (hf : ∀ a, Quiet (f a)) : CallsOnce cap (callApi api cap as >>= f) := by
  intro s
  refine Or.inr ⟨as, ?_⟩
  simp only [run_bind, run_callApi]
  cases api cap as with
  | ok a => exact hf a _
  | error e => rfl

/-- What `executeAISkill` makes of a `switch` that calls one capability. -/
theorem executeAISkill_callsOnce (h : Host) (api : Api) (skillName args : JVal) (cap : Cap)
    (hb : CallsOnce cap (executeAISkillBody h api skillName args)) (s : St) :
    (∃ as, (executeAISkill h api skillName args s).2.log = s.log ++ [.call cap as]) ∨
    (∃ e, executeAISkill h api skillName args s =
      (.ok (.str ("技能執行失敗: ".toList ++ errText e)), s)) := by
  rcases hb s with ⟨e, he⟩ | ⟨as, has⟩
  · exact Or.inr ⟨e, by simp only [executeAISkill, run_tryCatchM, he]; rfl⟩
  · refine Or.inl ⟨as, ?_⟩
    simp only [executeAISkill, run_tryCatchM]
    rcases hxs : executeAISkillBody h api skillName args s with ⟨r, s1⟩
    rw [hxs] at has
    simp only at has
    subst has
    cases r <;> rfl

/-- Each advertised name selects the case of the capability of that name. -/
theorem executeAISkillBody_callsOnce (h : Host) (api : Api) (args : JVal) (cap : Cap)
    (hc : cap ≠ .chat_with_ai) :
    CallsOnce cap (executeAISkillBody h api (.str cap.name.toList) args) := by
  cases cap <;> first
    | exact absurd rfl hc
    | (simp [executeAISkillBody, strictEqStr, Cap.name]
       repeat' first
         | exact quiet_pure _
         | exact quiet_liftE _
         | apply quiet_bind
         | apply callsOnce_liftE
         | apply callsOnce_callApi
         | intro _)

/-- The advertised names are the names of the 20 capabilities other than
`chat_with_ai`. -/
theorem advertisedNames_caps :
    advertisedNames =
      ([.launch_app, .open_url, .open_path, .run_command, .clipboard_write, .clipboard_read,
        .system_info, .create_ppt, .create_docx, .create_xlsx, .write_file, .read_file,
        .list_files, .take_screenshot, .get_datetime, .search_web, .fetch_news, .kill_process,
        .set_volume, .notify] : List Cap).map (fun c => JVal.str c.name.toList) := rfl

/-- C27. The names of the catalog that `callAI` sends are, in order, the 20
names that have a `case` in the `switch` of `executeAISkill`, none of them
twice: every advertised name is equal (`===`) to a case label and every case
label is advertised. For an advertised name the `switch` does not reach its
default arm (the one returning `'未知技能: ' + name` without touching the
bridge): whatever the arguments and the bridge, `executeAISkill` calls the
bridge capability of that name, once, or fails on reading its arguments and
returns `'技能執行失敗: ' + message` without a call. -/
theorem catalog_matches_switch :
    advertisedNames = handledSkills.map (fun k => JVal.str k.toList) ∧
    handledSkills.length = 20 ∧ handledSkills.Nodup ∧
    (∀ n ∈ advertisedNames, ∃ k ∈ handledSkills, strictEqStr n k = true) ∧
    (∀ k ∈ handledSkills, JVal.str k.toList ∈ advertisedNames) ∧
    (∀ n ∈ advertisedNames, ∀ (h : Host) (api : Api) (args : JVal) (s : St),
      ∃ cap : Cap, JVal.str cap.name.toList = n ∧
        ((∃ as, (executeAISkill h api n args s).2.log = s.log ++ [.call cap as]) ∨
         (∃ e, executeAISkill h api n args s =
           (.ok (.str ("技能執行失敗: ".toList ++ errText e)), s)))) := by
  have hnames : advertisedNames = handledSkills.map (fun k => JVal.str k.toList) := rfl
  refine ⟨hnames, rfl, by decide, ?_, ?_, ?_⟩
  · intro n hn
    rw [hnames] at hn
    obtain ⟨k, hk, rfl⟩ := List.mem_map.mp hn
    exact ⟨k, hk, by simp [strictEqStr]⟩
  · intro k hk
    rw [hnames]
    exact List.mem_map.mpr ⟨k, hk, rfl⟩
  · intro n hn h api args s
    rw [advertisedNames_caps] at hn
    obtain ⟨cap, hcap, rfl⟩ := List.mem_map.mp hn
    have hc : cap ≠ .chat_with_ai := by
      intro hc
      subst hc
      revert hcap
      decide
    exact ⟨cap, rfl, executeAISkill_callsOnce h api _ args cap
      (executeAISkillBody_callsOnce h api args cap hc) s⟩

/-! ## The reply for a payload whose text is a bare skill object -/

set_option maxRecDepth 100000 in
/-- C24 fails on the code at the payload
`{"text":"{\"skill\":\"open_url\",\"args\":{\"url\":\"http://x\"}}"}`, whose text
is exactly a JSON object carrying the skill. The double-encoding step puts
the inner object in the place of the payload, so the reply of `callAI` is
`{skill: "open_url", args: {url: "http://x"}}` and has no `text`: reading it
gives `undefined`, the entry pushed on the history has the content `''`, and
`sendMessage` shows the message
`undefined\n<div class="skill-result">已開啟 http://x</div>`. When the same
object follows the words `好的 `, the extraction step gives the reply the text
`好的`. -/
theorem bare_skill_object_reply :
    (callAI stdHost
      (replyApi "\x7b\"text\":\"\x7b\\\"skill\\\":\\\"open_url\\\",\\\"args\\\":\x7b\\\"url\\\":\\\"http://x\\\"\x7d\x7d\"\x7d")
      "hello".toList St.init).1 =
      .ok (.obj [("skill".toList, .str "open_url".toList),
        ("args".toList, .obj [("url".toList, .str "http://x".toList)])]) ∧
    getProp (.obj [("skill".toList, .str "open_url".toList),
        ("args".toList, .obj [("url".toList, .str "http://x".toList)])]) "text" =
      .ok .undefined ∧
    (callAI stdHost
      (replyApi "\x7b\"text\":\"\x7b\\\"skill\\\":\\\"open_url\\\",\\\"args\\\":\x7b\\\"url\\\":\\\"http://x\\\"\x7d\x7d\"\x7d")
      "hello".toList St.init).2.conversationHistory =
      [historyEntry "user" (.str "hello".toList), historyEntry "assistant" (.str [])] ∧
    (sendMessage stdHost
        (replyApi "\x7b\"text\":\"\x7b\\\"skill\\\":\\\"open_url\\\",\\\"args\\\":\x7b\\\"url\\\":\\\"http://x\\\"\x7d\x7d\"\x7d")
        "hello".toList St.init).2.log.drop 5 =
      [.call .open_url [.str "http://x".toList],
       .message "assistant".toList
        (.str "undefined\n<div class=\"skill-result\">已開啟 http://x</div>".toList) false,
       .speak .undefined] ∧
    (callAI stdHost
      (replyApi "\x7b\"text\":\"好的 \x7b\\\"skill\\\":\\\"open_url\\\",\\\"args\\\":\x7b\\\"url\\\":\\\"http://x\\\"\x7d\x7d\"\x7d")
      "hello".toList St.init).1 =
      .ok (.obj [("text".toList, .str "好的".toList), ("skill".toList, .str "open_url".toList),
        ("args".toList, .obj [("url".toList, .str "http://x".toList)])]) := by
  exact ⟨rfl, rfl, rfl, rfl, rfl⟩

/-! ## getAllTools -/

/-- The entry of a tool that is neither `null` nor `undefined`. -/
theorem toolEntry_ok (serverId tool : JVal) (h1 : tool ≠ .null) (h2 : tool ≠ .undefined) :
    toolEntry serverId tool = .ok (describeTool serverId tool) := by
  cases tool with
  | null => exact absurd rfl h1
  | undefined => exact absurd rfl h2
  | bool b => rfl
  | num m e => rfl
  | str s => rfl
  | arr xs ps =>
    simp only [toolEntry, getProp, describeTool, propOf, bind, Except.bind, pure, Except.pure]
    by_cases hc : truthy (lookupProp "inputSchema".toList ps) = true
    · simp only [hc, if_true, jsOr]
    · simp only [hc, Bool.false_eq_true, if_false, jsOr]
  | obj ps =>
    simp only [toolEntry, getProp, describeTool, propOf, bind, Except.bind, pure, Except.pure]
    by_cases hc : truthy (lookupProp "inputSchema".toList ps) = true
    · simp only [hc, if_true, jsOr]
    · simp only [hc, Bool.false_eq_true, if_false, jsOr]

theorem pushTools_ok (serverId : JVal) (elems tools : List JVal)
    (hel : ∀ t ∈ elems, t ≠ .null ∧ t ≠ .undefined) :
    pushTools serverId elems tools = .ok (tools ++ elems.map (describeTool serverId)) := by
  induction elems generalizing tools with
  | nil => simp [pushTools]
  | cons t rest ih =>
    have ht := hel t (List.mem_cons_self _ _)
    simp only [pushTools, toolEntry_ok serverId t ht.1 ht.2, bind, Except.bind]
    rw [ih _ (fun x hx => hel x (List.mem_cons_of_mem _ hx))]
    simp

theorem getAllToolsLoop_ok (servers : McpServers) (tools : List JVal)
    (hok : ToolListsOk servers) :
    getAllToolsLoop servers tools = .ok (tools ++ connectedTools servers) := by
  induction servers generalizing tools with
  | nil => simp [getAllToolsLoop, connectedTools]
  | cons p rest ih =>
    obtain ⟨serverId, server⟩ := p
    have hrest : ToolListsOk rest := fun q hq => hok q (List.mem_cons_of_mem _ hq)
    by_cases hc : server.status = "connected".toList
    · obtain ⟨elems, props, htools, hel⟩ := hok (serverId, server) (List.mem_cons_self _ _) hc
      simp only at htools
      have hne : (server.status != "connected".toList) = false := by rw [hc]; rfl
      simp only [getAllToolsLoop, hne, Bool.false_eq_true, if_false, htools, iterate, bind,
        Except.bind, pushTools_ok serverId elems tools hel]
      rw [ih _ hrest, List.append_assoc]
      simp only [connectedTools, hc, if_true, htools, elementsOf]
    · have hne : (server.status != "connected".toList) = true := by
        rw [bne_iff_ne]; exact hc
      simp only [getAllToolsLoop, hne, if_true, connectedTools, hc, if_false, List.nil_append]
      exact ih _ hrest

/-- C25, as the code has it. In a state where the tools of every connected
server are an array with no `null` or `undefined` element, `getAllTools()`
returns exactly the entries of the connected servers: one
`{server: serverId, name, description, parameters}` per tool, servers in the
order of the map and tools in their stored order, with `parameters` equal to
`tool.inputSchema || tool.parameters || {}`. A server whose status is not
`connected` (`registered`, `connecting`, `error`) contributes no entry,
whatever its tools are. -/
theorem getAllTools_connected (servers : McpServers) (hok : ToolListsOk servers) :
    MCPClient.getAllTools servers = .ok (.arr (connectedTools servers) []) ∧
    (∀ (before after : McpServers) (serverId : JVal) (server : McpServer),
      server.status ≠ "connected".toList →
      connectedTools (before ++ (serverId, server) :: after) =
        connectedTools (before ++ after)) ∧
    (∀ (before after : McpServers) (serverId : JVal) (server : McpServer),
      server.status = "connected".toList →
      connectedTools (before ++ (serverId, server) :: after) =
        connectedTools before ++ (elementsOf server.tools).map (describeTool serverId) ++
          connectedTools after) := by
  have happ : ∀ a b : McpServers, connectedTools (a ++ b) = connectedTools a ++ connectedTools b := by
    intro a b
    induction a with
    | nil => rfl
    | cons p r ih =>
      obtain ⟨i, sv⟩ := p
      simp only [List.cons_append, connectedTools]
      rw [show r.append b = r ++ b from rfl, ih, List.append_assoc]
  refine ⟨?_, ?_, ?_⟩
  · simp only [MCPClient.getAllTools, getAllToolsLoop_ok servers [] hok, List.nil_append]
    rfl
  · intro before after serverId server hs
    simp only [happ, connectedTools, hs, if_false, List.nil_append]
  · intro before after serverId server hs
    simp only [happ, connectedTools, hs, if_true, List.append_assoc]

/-- C25, in a state with a registered server that already lists a tool and a
connected server with two tools, one described by `inputSchema` and one with
neither `inputSchema` nor `parameters`. -/
theorem getAllTools_connected_witness :
    MCPClient.getAllTools
      [(.str "a".toList, ⟨.obj [], .arr [.obj [("name".toList, .str "x".toList)]] [],
          "registered".toList⟩),
       (.str "b".toList, ⟨.obj [],
          .arr [.obj [("name".toList, .str "read".toList),
                  ("inputSchema".toList, .obj [("path".toList, .str "string".toList)])],
                .obj [("name".toList, .str "ping".toList),
                  ("description".toList, .str "answers".toList)]] [],
          "connected".toList⟩)] =
      .ok (.arr [
        .obj [("server".toList, .str "b".toList), ("name".toList, .str "read".toList),
          ("description".toList, .undefined),
          ("parameters".toList, .obj [("path".toList, .str "string".toList)])],
        .obj [("server".toList, .str "b".toList), ("name".toList, .str "ping".toList),
          ("description".toList, .str "answers".toList),
          ("parameters".toList, .obj [])]] []) :=
  (getAllTools_connected _ (by
    intro p hp hc
    simp only [List.mem_cons, List.mem_singleton, List.not_mem_nil, or_false] at hp
    rcases hp with rfl | rfl
    · exact absurd hc (by decide)
    · refine ⟨_, _, rfl, ?_⟩
      intro t ht
      simp only [List.mem_cons, List.mem_singleton, List.not_mem_nil, or_false] at ht
      rcases ht with rfl | rfl <;> exact ⟨(by intro h; cases h), (by intro h; cases h)⟩)).1

/-- C25 does not hold in every state. A connected server whose tool list is
`[null]` (what `connectServer` stores when the server answers
`{"tools":[null]}`) makes `getAllTools()` throw the `TypeError` of reading
`name` on `null`; so does one whose `tools` is the number 5, which is not
iterable. -/
theorem getAllTools_throws :
    MCPClient.getAllTools
      [(.str "b".toList, ⟨.obj [], .arr [.null] [], "connected".toList⟩)] =
      .error (typeError "Cannot read properties of null (reading 'name')") ∧
    MCPClient.getAllTools
      [(.str "b".toList, ⟨.obj [], .num 5 0, "connected".toList⟩)] =
      .error (typeError "server.tools is not iterable") :=
  ⟨rfl, rfl⟩

/-! ## What the search pattern captures -/

theorem run_litList {α : Type} (ic : Bool) (w : Str) :
    ∀ (s : Str) (cap : Option Str) (k : Str → Option Str → Option α),
      Re.run ic (w.foldr (fun c r => Re.seq (.chr c) r) .eps) s cap k =
        match stripWord ic w s with
        | some t => k t cap
        | none => none := by
  induction w with
  | nil => intro s cap k; rfl
  | cons c w ih =>
    intro s cap k
    cases s with
    | nil => rfl
    | cons d s =>
      simp only [List.foldr_cons, Re.run, stripWord]
      by_cases hc : charMatches ic c d = true
      · simp only [hc, if_true]
        exact ih s cap k
      · simp only [hc, Bool.false_eq_true, if_false]

theorem run_alts_lit {α : Type} (ic : Bool) (ws : List String) :
    ∀ (w : String) (s : Str) (cap : Option Str) (k : Str → Option Str → Option α),
      Re.run ic (Re.alts ((w :: ws).map Re.lit)) s cap k =
        (w :: ws).findSome? (fun w => (stripWord ic w.toList s).bind (fun t => k t cap)) := by
  induction ws with
  | nil =>
    intro w s cap k
    simp only [List.map, Re.alts, Re.lit, run_litList, List.findSome?]
    cases stripWord ic w.toList s with
    | none => rfl
    | some t =>
      simp only [Option.bind]
      cases k t cap <;> rfl
  | cons w2 ws ih =>
    intro w s cap k
    have hunf : Re.alts ((w :: w2 :: ws).map Re.lit) =
        .alt (Re.lit w) (Re.alts ((w2 :: ws).map Re.lit)) := rfl
    rw [hunf]
    simp only [Re.run, ih]
    conv_rhs => rw [List.findSome?_cons]
    simp only [Re.lit, run_litList]
    cases stripWord ic w.toList s with
    | none => rfl
    | some t =>
      simp only [Option.bind]
      cases k t cap <;> rfl

theorem stripWord_append (ic : Bool) (w w' t : Str)
    (hw : List.Forall₂ (fun c d => charMatches ic c d = true) w w') :
    stripWord ic w (w' ++ t) = some t := by
  induction hw with
  | nil => cases t <;> rfl
  | @cons c d l l' hcd _ ih =>
    simp only [List.cons_append, stripWord, hcd, if_true]
    exact ih

theorem stripWord_some (ic : Bool) (w : Str) :
    ∀ (s t : Str), stripWord ic w s = some t →
      ∃ w', s = w' ++ t ∧ List.Forall₂ (fun c d => charMatches ic c d = true) w w' := by
  induction w with
  | nil =>
    intro s t hs
    cases s with
    | nil =>
      simp only [stripWord, Option.some.injEq] at hs
      subst hs
      exact ⟨[], rfl, List.Forall₂.nil⟩
    | cons d s =>
      simp only [stripWord, Option.some.injEq] at hs
      subst hs
      exact ⟨[], rfl, List.Forall₂.nil⟩
  | cons c w ih =>
    intro s t hs
    cases s with
    | nil => simp [stripWord] at hs
    | cons d s =>
      simp only [stripWord] at hs
      by_cases hc : charMatches ic c d = true
      · simp only [hc, if_true] at hs
        obtain ⟨w', hw', hf⟩ := ih s t hs
        exact ⟨d :: w', by rw [hw']; rfl, List.Forall₂.cons hc hf⟩
      · simp only [hc, Bool.false_eq_true, if_false] at hs
        cases hs

theorem stripWord_overlap (w1 : Str) :
    ∀ (w2 s t1 t2 : Str), stripWord true w1 s = some t1 → stripWord true w2 s = some t2 →
      overlap w1 w2 = true := by
  induction w1 with
  | nil => intro w2 s t1 t2 _ _; cases w2 <;> rfl
  | cons c w1 ih =>
    intro w2 s t1 t2 h1 h2
    cases w2 with
    | nil => rfl
    | cons d w2 =>
      cases s with
      | nil => simp [stripWord] at h1
      | cons x s =>
        simp only [stripWord] at h1 h2
        by_cases hc : charMatches true c x = true
        · by_cases hd : charMatches true d x = true
          · simp only [hc, hd, if_true] at h1 h2
            simp only [charMatches, if_true, beq_iff_eq] at hc hd
            simp only [overlap, hc, hd, beq_self_eq_true, Bool.true_and]
            exact ih w2 s t1 t2 h1 h2
          · simp only [hd, Bool.false_eq_true, if_false] at h2
            cases h2
        · simp only [hc, Bool.false_eq_true, if_false] at h1
          cases h1

theorem searchKeywords_apart :
    ∀ a ∈ searchKeywords, ∀ b ∈ searchKeywords, a ≠ b → overlap a.toList b.toList = false := by
  decide

theorem findSome_unique {α β : Type} (f : α → Option β) (l : List α) (x : α) (hx : x ∈ l)
    (hf : ∀ y ∈ l, y ≠ x → f y = none) : l.findSome? f = f x := by
  induction l with
  | nil => cases hx
  | cons y r ih =>
    rw [List.findSome?_cons]
    by_cases hy : y = x
    · subst hy
      cases hfy : f y with
      | some b => rfl
      | none =>
        simp only
        by_cases hmem : y ∈ r
        · exact (ih hmem (fun z hz hne => hf z (List.mem_cons_of_mem _ hz) hne)).trans hfy
        · have hall : ∀ z ∈ r, f z = none := fun z hz =>
            hf z (List.mem_cons_of_mem _ hz) (fun h => hmem (h ▸ hz))
          clear ih hx hf
          induction r with
          | nil => rfl
          | cons z r ihr =>
            rw [List.findSome?_cons, hall z (List.mem_cons_self _ _)]
            exact ihr (fun h => hmem (List.mem_cons_of_mem _ h))
              (fun w hw => hall w (List.mem_cons_of_mem _ hw))
    · rw [hf y (List.mem_cons_self _ _) hy]
      rcases List.mem_cons.mp hx with h | h
      · exact absurd h.symm hy
      · exact ih h (fun z hz hne => hf z (List.mem_cons_of_mem _ hz) hne)

/-- Greedy repetition takes the whole run when the continuation accepts what
follows it. -/
theorem starRun_longest {α : Type} (p : Char → Bool) (k : Str → Option α) (u t : Str) (x : α)
    (hu : ∀ c ∈ u, p c = true) (ht : ∀ d r, t = d :: r → p d = false)
    (hk : k t = some x) : starRun p k (u ++ t) = some x := by
  induction u with
  | nil =>
    cases t with
    | nil => simpa [starRun] using hk
    | cons d r =>
      simp only [List.nil_append, starRun, ht d r rfl, Bool.false_eq_true, if_false]
      exact hk
  | cons c cs ih =>
    have hc : p c = true := hu c (List.mem_cons_self _ _)
    have ih' := ih (fun d hd => hu d (List.mem_cons_of_mem _ hd))
    simp only [List.cons_append, starRun, hc, if_true]
    rw [show cs.append t = cs ++ t from rfl, ih']

theorem isJsSpace_of_lineTerminator (c : Char) (hc : isLineTerminator c = true) :
    isJsSpace c = true := by
  simp only [isLineTerminator, Bool.or_eq_true, beq_iff_eq] at hc
  simp only [isJsSpace, Bool.or_eq_true, beq_iff_eq, Bool.and_eq_true, decide_eq_true_eq]
  rcases hc with ((hc | hc) | hc) | hc <;> simp [hc]

theorem dot_of_not_space (c : Char) (hc : isJsSpace c = false) : dot c = true := by
  cases hl : isLineTerminator c with
  | false => simp [dot, hl]
  | true => rw [isJsSpace_of_lineTerminator c hl] at hc; cases hc

theorem searchRe_unfold :
    searchRe = .seq (Re.alts (searchKeywords.map Re.lit))
      (.seq (.star isJsSpace) (.group (.seq (.cls dot) (.star dot)))) := rfl

/-- The match of the search pattern at the head of `s`: the first keyword, in
the order of the alternation, after which the rest of the pattern matches. -/
theorem exec_searchRe (s : Str) :
    Re.exec true searchRe s =
      searchKeywords.findSome? (fun w => (stripWord true w.toList s).bind (fun t =>
        Re.run true (.seq (.star isJsSpace) (.group (.seq (.cls dot) (.star dot)))) t none
          (fun t cap => some ⟨s.take (s.length - t.length), groupValue cap⟩))) := by
  unfold Re.exec
  rw [searchRe_unfold]
  exact run_alts_lit true _ "搜尋" s none _

/-- After the keyword: the white space is skipped and the group takes the
rest of the line, from the first character that is not white space. -/
theorem run_search_tail {α : Type} (ws : Str) (c : Char) (line rest : Str)
    (K : Str → Option Str → Option α) (x : α)
    (hws : ∀ y ∈ ws, isJsSpace y = true) (hc : isJsSpace c = false)
    (hline : ∀ y ∈ line, isLineTerminator y = false)
    (hrest : ∀ d r, rest = d :: r → isLineTerminator d = true)
    (hK : K rest (some (c :: line)) = some x) :
    Re.run true (.seq (.star isJsSpace) (.group (.seq (.cls dot) (.star dot))))
      (ws ++ c :: (line ++ rest)) none K = some x := by
  simp only [Re.run]
  apply starRun_longest isJsSpace _ ws (c :: (line ++ rest)) x hws
  · intro d r hd
    cases hd
    exact hc
  · simp only [dot_of_not_space c hc, if_true]
    apply starRun_longest dot _ line rest x
    · intro y hy
      simp [dot, hline y hy]
    · intro d r hd
      simp [dot, hrest d r hd]
    · have hl : (c :: (line ++ rest)).length - rest.length = (c :: line).length := by
        simp only [List.length_cons, List.length_append]
        omega
      rw [hl]
      have ht : (c :: (line ++ rest)).take (c :: line).length = c :: line := by
        rw [show c :: (line ++ rest) = (c :: line) ++ rest from rfl, List.take_left]
      rw [ht]
      exact hK

/-- The match at the head of a text that starts with a keyword, white space
and a character that is not white space. -/
theorem exec_search_keyword (k : String) (kw ws : Str) (c : Char) (line rest : Str)
    (hk : k ∈ searchKeywords) (hkw : SameWord k kw)
    (hws : ∀ y ∈ ws, isJsSpace y = true) (hc : isJsSpace c = false)
    (hline : ∀ y ∈ line, isLineTerminator y = false)
    (hrest : ∀ d r, rest = d :: r → isLineTerminator d = true) :
    Re.exec true searchRe (kw ++ (ws ++ c :: (line ++ rest))) =
      some ⟨kw ++ (ws ++ c :: line), .str (c :: line)⟩ := by
  rw [exec_searchRe]
  rw [findSome_unique _ searchKeywords k hk]
  · rw [stripWord_append true k.toList kw _ hkw]
    simp only [Option.bind]
    apply run_search_tail ws c line rest _ _ hws hc hline hrest
    simp only [groupValue, Option.some.injEq, MatchResult.mk.injEq, and_true]
    have hl : (kw ++ (ws ++ c :: (line ++ rest))).length - rest.length =
        (kw ++ (ws ++ c :: line)).length := by
      simp only [List.length_cons, List.length_append]
      omega
    rw [hl, show kw ++ (ws ++ c :: (line ++ rest)) = (kw ++ (ws ++ c :: line)) ++ rest by simp,
      List.take_left]
  · intro y hy hne
    cases hsy : stripWord true y.toList (kw ++ (ws ++ c :: (line ++ rest))) with
    | none => rfl
    | some t =>
      have hov := stripWord_overlap y.toList k.toList _ t _
        hsy (stripWord_append true k.toList kw _ hkw)
      rw [searchKeywords_apart y hy k hk hne] at hov
      cases hov

/-- No match starts where no keyword starts. -/
theorem exec_search_none (s : Str)
    (hno : ∀ k ∈ searchKeywords, stripWord true k.toList s = none) :
    Re.exec true searchRe s = none := by
  rw [exec_searchRe]
  rw [List.findSome?_eq_none_iff]
  intro k hk
  rw [hno k hk]
  rfl

theorem reMatch_skip (ic : Bool) (r : Re) (pre s : Str)
    (hpre : ∀ i, i < pre.length → Re.exec ic r ((pre ++ s).drop i) = none) :
    reMatch ic r (pre ++ s) = reMatch ic r s := by
  induction pre with
  | nil => rfl
  | cons p pre ih =>
    have h0 := hpre 0 (by simp)
    simp only [List.drop_zero] at h0
    simp only [List.cons_append] at h0 ⊢
    simp only [reMatch, h0]
    apply ih
    intro i hi
    have := hpre (i + 1) (by simp; omega)
    simpa using this

theorem reMatch_of_exec (ic : Bool) (r : Re) (s : Str) (m : MatchResult)
    (hm : Re.exec ic r s = some m) : reMatch ic r s = some m := by
  cases s with
  | nil => simpa [reMatch] using hm
  | cons c cs => simp only [reMatch, hm]

/-- The match of the search pattern in a text whose leftmost keyword is
followed, after white space, by a character that is not white space. -/
theorem reMatch_search (pre : Str) (k : String) (kw ws : Str) (c : Char) (line rest : Str)
    (hk : k ∈ searchKeywords) (hkw : SameWord k kw)
    (hws : ∀ y ∈ ws, isJsSpace y = true) (hc : isJsSpace c = false)
    (hline : ∀ y ∈ line, isLineTerminator y = false)
    (hrest : ∀ d r, rest = d :: r → isLineTerminator d = true)
    (hpre : ∀ (a w' b : Str) (k' : String), k' ∈ searchKeywords → SameWord k' w' →
      pre ++ (kw ++ (ws ++ c :: (line ++ rest))) = a ++ (w' ++ b) → pre.length ≤ a.length) :
    reMatch true searchRe (pre ++ (kw ++ (ws ++ c :: (line ++ rest)))) =
      some ⟨kw ++ (ws ++ c :: line), .str (c :: line)⟩ := by
  rw [reMatch_skip true searchRe pre _]
  · exact reMatch_of_exec _ _ _ _ (exec_search_keyword k kw ws c line rest hk hkw hws hc hline hrest)
  · intro i hi
    apply exec_search_none
    intro k' hk'
    cases hsw : stripWord true k'.toList ((pre ++ (kw ++ (ws ++ c :: (line ++ rest)))).drop i) with
    | none => rfl
    | some t =>
      obtain ⟨w', hw', hf⟩ := stripWord_some true _ _ _ hsw
      have hsplit := (List.take_append_drop i (pre ++ (kw ++ (ws ++ c :: (line ++ rest))))).symm
      rw [hw'] at hsplit
      have := hpre _ w' t k' hk' hf hsplit
      rw [List.length_take] at this
      omega

/-! ## The declarative reading of the search pattern and of the guard -/

theorem reMatch_some_exec (ic : Bool) (r : Re) (s : Str) (m : MatchResult)
    (hm : reMatch ic r s = some m) : ∃ a s', s = a ++ s' ∧ Re.exec ic r s' = some m := by
  induction s with
  | nil => exact ⟨[], [], rfl, by simpa [reMatch] using hm⟩
  | cons c cs ih =>
    simp only [reMatch] at hm
    split at hm
    · rename_i m' hm'
      cases hm
      exact ⟨[], c :: cs, rfl, hm'⟩
    · obtain ⟨a, s', hs, he⟩ := ih hm
      exact ⟨c :: a, s', by rw [hs]; rfl, he⟩

theorem Re.matches_litList_inv (ic : Bool) (w : Str) :
    ∀ (s t : Str), Re.Matches ic (w.foldr (fun c r => Re.seq (.chr c) r) .eps) s t →
      ∃ w', s = w' ++ t ∧ List.Forall₂ (fun c d => charMatches ic c d = true) w w' := by
  induction w with
  | nil =>
    intro s t hm
    simp only [List.foldr_nil, Re.Matches] at hm
    subst hm
    exact ⟨[], rfl, List.Forall₂.nil⟩
  | cons c w ih =>
    intro s t hm
    obtain ⟨m, ⟨d, hs, hd⟩, hrest⟩ := hm
    obtain ⟨w', hw', hf⟩ := ih m t hrest
    exact ⟨d :: w', by rw [hs, hw']; rfl, List.Forall₂.cons hd hf⟩

theorem Re.matches_alts_lit_inv (ws : List String) (w0 : String) (s t : Str)
    (hm : Re.Matches true (Re.alts ((w0 :: ws).map Re.lit)) s t) :
    ∃ w ∈ w0 :: ws, ∃ w', s = w' ++ t ∧ SameWord w w' := by
  induction ws generalizing w0 with
  | nil =>
    obtain ⟨w', hw', hf⟩ := Re.matches_litList_inv true w0.toList s t hm
    exact ⟨w0, List.mem_cons_self _ _, w', hw', hf⟩
  | cons w1 ws ih =>
    have hunf : Re.alts ((w0 :: w1 :: ws).map Re.lit) =
        .alt (Re.lit w0) (Re.alts ((w1 :: ws).map Re.lit)) := rfl
    rw [hunf] at hm
    rcases hm with hm | hm
    · obtain ⟨w', hw', hf⟩ := Re.matches_litList_inv true w0.toList s t hm
      exact ⟨w0, List.mem_cons_self _ _, w', hw', hf⟩
    · obtain ⟨w, hw, w', hw', hf⟩ := ih w1 hm
      exact ⟨w, List.mem_cons_of_mem _ hw, w', hw', hf⟩

/-- The search pattern matches exactly the texts that hold a keyword followed,
after any white space, by a character that is not a line terminator. -/
theorem reMatch_search_isSome (text : Str) :
    (reMatch true searchRe text).isSome = true ↔ HasSearchPhrase text := by
  constructor
  · intro hsome
    obtain ⟨m, hm⟩ := Option.isSome_iff_exists.mp hsome
    obtain ⟨a, s', hs, he⟩ := reMatch_some_exec true searchRe text m hm
    obtain ⟨t, hmat, _⟩ := Re.exec_whole true searchRe s' m he
    rw [searchRe_unfold] at hmat
    obtain ⟨m1, hm1, m2, ⟨ws, hws, hsp⟩, m3, ⟨d, hd, hdot⟩, _⟩ := hmat
    obtain ⟨k, hk, kw, hkw, hsame⟩ := Re.matches_alts_lit_inv _ "搜尋" s' m1 hm1
    refine ⟨a, kw, ws, d, m3, k, ?_, hk, hsame, hsp, ?_⟩
    · rw [hs, hkw, hws, hd]
      simp
    · simpa [dot] using hdot
  · rintro ⟨a, kw, ws, d, b, k, rfl, hk, hsame, hsp, hd⟩
    have hm : Re.Matches true searchRe (kw ++ (ws ++ d :: b)) b := by
      rw [searchRe_unfold]
      refine ⟨ws ++ d :: b, Re.matches_alts_lit _ k kw _ hk hsame, d :: b, ⟨ws, rfl, hsp⟩,
        b, ⟨d, rfl, by simp [dot, hd]⟩, ⟨[], rfl, by simp⟩⟩
    have := reMatch_isSome true searchRe a _ b hm
    simpa [List.append_assoc] using this

theorem compositeRe_unfold :
    compositeRe = .seq (Re.alts (["然後", "再", "接著", "並", "且"].map Re.lit))
      (.seq (.star dot) (.seq (Re.alts (["做成", "製作", "建立", "產生"].map Re.lit))
        (.seq (.star dot)
          (Re.alts (["簡報", "文件", "報告", "PPT", "Word", "Excel"].map Re.lit))))) := rfl

/-- The guard matches exactly the texts that hold the composite phrase. -/
theorem reMatch_composite_isSome (text : Str) :
    (reMatch true compositeRe text).isSome = true ↔ HasCompositePhrase text := by
  constructor
  · intro hsome
    obtain ⟨m, hm⟩ := Option.isSome_iff_exists.mp hsome
    obtain ⟨a, s', hs, he⟩ := reMatch_some_exec true compositeRe text m hm
    obtain ⟨t, hmat, _⟩ := Re.exec_whole true compositeRe s' m he
    rw [compositeRe_unfold] at hmat
    obtain ⟨m1, hm1, m2, ⟨b, hb, hbdot⟩, m3, hm3, m4, ⟨c, hc, hcdot⟩, hm5⟩ := hmat
    obtain ⟨conn0, hconn0, conn, hconn, hsc⟩ := Re.matches_alts_lit_inv _ _ s' m1 hm1
    obtain ⟨verb0, hverb0, verb, hverb, hsv⟩ := Re.matches_alts_lit_inv _ _ m2 m3 hm3
    obtain ⟨noun0, hnoun0, noun, hnoun, hsn⟩ := Re.matches_alts_lit_inv _ _ m4 t hm5
    refine ⟨a, conn, b, verb, c, noun, t, conn0, verb0, noun0, ?_, hconn0, hsc, hverb0, hsv,
      hnoun0, hsn, ?_, ?_⟩
    · rw [hs, hconn, hb, hverb, hc, hnoun]
      simp
    · intro x hx
      simpa [dot] using hbdot x hx
    · intro x hx
      simpa [dot] using hcdot x hx
  · exact compositeRe_matches text

/-! ## A keyword followed by white space only -/

theorem starRun_none {α : Type} (p : Char → Bool) (k : Str → Option α) (v : Str)
    (hv : ∀ y ∈ v, p y = true) (hk : ∀ a t, v = a ++ t → k t = none) :
    starRun p k v = none := by
  induction v with
  | nil => simpa [starRun] using hk [] [] rfl
  | cons d r ih =>
    have hd : p d = true := hv d (List.mem_cons_self _ _)
    have ihr := ih (fun y hy => hv y (List.mem_cons_of_mem _ hy))
      (fun a t hat => hk (d :: a) t (by rw [hat]; rfl))
    simp only [starRun, hd, if_true, ihr]
    exact hk [] (d :: r) rfl

theorem starRun_prepend {α : Type} (p : Char → Bool) (k : Str → Option α) (u s : Str) (x : α)
    (hu : ∀ y ∈ u, p y = true) (hs : starRun p k s = some x) :
    starRun p k (u ++ s) = some x := by
  induction u with
  | nil => exact hs
  | cons c cs ih =>
    have hc : p c = true := hu c (List.mem_cons_self _ _)
    have ih' := ih (fun d hd => hu d (List.mem_cons_of_mem _ hd))
    simp only [List.cons_append, starRun, hc, if_true]
    rw [show cs.append s = cs ++ s from rfl, ih']

/-- After the keyword, when only white space follows: the repetition gives
back its last character that is not a line terminator, and the group is that
one character. -/
theorem run_search_blank {α : Type} (ws : Str) (c : Char) (v : Str)
    (K : Str → Option Str → Option α) (x : α)
    (hws : ∀ y ∈ ws, isJsSpace y = true) (hc : isJsSpace c = true)
    (hcl : isLineTerminator c = false)
    (hv : ∀ y ∈ v, isLineTerminator y = true)
    (hK : K v (some [c]) = some x) :
    Re.run true (.seq (.star isJsSpace) (.group (.seq (.cls dot) (.star dot))))
      (ws ++ c :: v) none K = some x := by
  have hdotc : dot c = true := by simp [dot, hcl]
  have hgroup : ∀ t, (∀ y ∈ t, isLineTerminator y = true) →
      Re.run true (.group (.seq (.cls dot) (.star dot))) t none K = none := by
    intro t ht
    cases t with
    | nil => rfl
    | cons d r =>
      have hd : dot d = false := by simp [dot, ht d (List.mem_cons_self _ _)]
      simp only [Re.run, hd, Bool.false_eq_true, if_false]
  have hvnone : starRun isJsSpace
      (fun t => Re.run true (.group (.seq (.cls dot) (.star dot))) t none K) v = none := by
    apply starRun_none
    · intro y hy
      exact isJsSpace_of_lineTerminator y (hv y hy)
    · intro a t hat
      apply hgroup
      intro y hy
      exact hv y (by rw [hat]; exact List.mem_append_right _ hy)
  show starRun isJsSpace
      (fun t => Re.run true (.group (.seq (.cls dot) (.star dot))) t none K) (ws ++ c :: v) =
    some x
  apply starRun_prepend isJsSpace _ ws (c :: v) x hws
  simp only [starRun, hc, if_true, hvnone]
  simp only [Re.run, hdotc, if_true]
  have hstar := starRun_longest dot
    (fun t => K t (some ((c :: v).take ((c :: v).length - t.length)))) [] v x
    (by simp) (by intro d r hd; simp [dot, hv d (by rw [hd]; exact List.mem_cons_self _ _)])
    (by
      have hl : (c :: v).length - v.length = 1 := by
        simp only [List.length_cons]
        omega
      simp only [hl, List.take_succ_cons, List.take_zero]
      exact hK)
  simpa using hstar

/-- The match at the head of a text that starts with a keyword. -/
theorem exec_search_at (k : String) (kw tail : Str) (m : MatchResult)
    (hk : k ∈ searchKeywords) (hkw : SameWord k kw)
    (htail : Re.run true (.seq (.star isJsSpace) (.group (.seq (.cls dot) (.star dot))))
      tail none (fun t cap => some ⟨(kw ++ tail).take ((kw ++ tail).length - t.length),
        groupValue cap⟩) = some m) :
    Re.exec true searchRe (kw ++ tail) = some m := by
  rw [exec_searchRe]
  rw [findSome_unique _ searchKeywords k hk]
  · rw [stripWord_append true k.toList kw _ hkw]
    simp only [Option.bind]
    exact htail
  · intro y hy hne
    cases hsy : stripWord true y.toList (kw ++ tail) with
    | none => rfl
    | some t =>
      have hov := stripWord_overlap y.toList k.toList _ t _
        hsy (stripWord_append true k.toList kw _ hkw)
      rw [searchKeywords_apart y hy k hk hne] at hov
      cases hov

/-- The match in a text whose leftmost keyword is followed by white space
only, one character of it not being a line terminator. -/
theorem reMatch_search_blank (pre : Str) (k : String) (kw ws : Str) (c : Char) (v : Str)
    (hk : k ∈ searchKeywords) (hkw : SameWord k kw)
    (hws : ∀ y ∈ ws, isJsSpace y = true) (hc : isJsSpace c = true)
    (hcl : isLineTerminator c = false)
    (hv : ∀ y ∈ v, isLineTerminator y = true)
    (hpre : ∀ (a w' b : Str) (k' : String), k' ∈ searchKeywords → SameWord k' w' →
      pre ++ (kw ++ (ws ++ c :: v)) = a ++ (w' ++ b) → pre.length ≤ a.length) :
    reMatch true searchRe (pre ++ (kw ++ (ws ++ c :: v))) =
      some ⟨kw ++ (ws ++ [c]), .str [c]⟩ := by
  rw [reMatch_skip true searchRe pre _]
  · apply reMatch_of_exec
    apply exec_search_at k kw (ws ++ c :: v) _ hk hkw
    apply run_search_blank ws c v _ _ hws hc hcl hv
    simp only [groupValue, Option.some.injEq, MatchResult.mk.injEq, and_true]
    have hl : (kw ++ (ws ++ c :: v)).length - v.length = (kw ++ (ws ++ [c])).length := by
      simp only [List.length_cons, List.length_append, List.length_nil]
      omega
    rw [hl, show kw ++ (ws ++ c :: v) = (kw ++ (ws ++ [c])) ++ v by simp, List.take_left]
  · intro i hi
    apply exec_search_none
    intro k' hk'
    cases hsw : stripWord true k'.toList ((pre ++ (kw ++ (ws ++ c :: v))).drop i) with
    | none => rfl
    | some t =>
      obtain ⟨w', hw', hf⟩ := stripWord_some true _ _ _ hsw
      have hsplit := (List.take_append_drop i (pre ++ (kw ++ (ws ++ c :: v)))).symm
      rw [hw'] at hsplit
      have := hpre _ w' t k' hk' hf hsplit
      rw [List.length_take] at this
      omega

/-! ## The search branch -/

theorem searchBranch_run (h : Host) (api : Api) (m : MatchResult) (s : St) :
    (searchBranch h api m s).2 = { s with log := s.log ++ [.call .search_web [m.group1]] } ∧
    (∀ v, api .search_web [m.group1] = .ok v →
      (searchBranch h api m s).1 =
        .ok (skillResult (.str ("已搜尋: ".toList ++ toStr h m.group1))
          (.str ("已搜尋".toList ++ toStr h m.group1)))) ∧
    (∀ e, api .search_web [m.group1] = .error e → (searchBranch h api m s).1 = .error e) := by
  simp only [searchBranch, run_bind, run_callApi]
  cases api .search_web [m.group1] with
  | ok v => exact ⟨rfl, fun _ _ => rfl, fun e he => (by cases he)⟩
  | error e0 => exact ⟨rfl, fun v hv => (by cases hv), fun e he => (by cases he; rfl)⟩

/-- C26, as the code has it. For an input to which none of the branches
before the search branch applies (launch, system information, clipboard,
screenshot, date and time), `tryLocalSkill` calls `search_web` if and only if
the input matches the search pattern and not the composite guard. The search
pattern is a keyword (`搜尋`, `搜索`, `查詢`, `search`, `幫我查`, `幫我搜`, up to
the case of ASCII letters) followed, after any white space (line breaks
included), by a character that is not a line terminator. In that case the
call is `search_web(q)` for the captured text `q` of the leftmost match, it
is the only call, and when it resolves the result is
`{message: '已搜尋: ' + q, speakText: '已搜尋' + q, isSkill: true}` (when it is
rejected `tryLocalSkill` throws). When the leftmost keyword is followed,
after white space, by a character that is not white space, `q` runs from
that character to the end of its line, in its original case; when only
white space follows it, `q` is the last character of that white space that
is not a line terminator. -/
theorem search_branch_taken (h : Host) (api : Api) (text : Str) (s : St)
    (hl : launchPatterns.find? (fun it => someIncluded (h.toLowerCase text) it.patterns) = none)
    (h1 : someIncluded (h.toLowerCase text) systemInfoPhrases = false)
    (h2 : someIncluded (h.toLowerCase text) clipboardPhrases = false)
    (h3 : someIncluded (h.toLowerCase text) screenshotPhrases = false)
    (h4 : someIncluded (h.toLowerCase text) datetimePhrases = false) :
    ((∃ as, Event.call .search_web as ∈ (tryLocalSkill h api text s).2.log.drop s.log.length) ↔
      (HasSearchPhrase text ∧ ¬ HasCompositePhrase text)) ∧
    (HasSearchPhrase text → ¬ HasCompositePhrase text →
      ∃ m, reMatch true searchRe text = some m ∧
        (tryLocalSkill h api text s).2 =
          { s with log := s.log ++ [.call .search_web [m.group1]] } ∧
        (∀ v, api .search_web [m.group1] = .ok v →
          (tryLocalSkill h api text s).1 =
            .ok (skillResult (.str ("已搜尋: ".toList ++ toStr h m.group1))
              (.str ("已搜尋".toList ++ toStr h m.group1)))) ∧
        (∀ e, api .search_web [m.group1] = .error e →
          (tryLocalSkill h api text s).1 = .error e)) ∧
    (∀ (pre : Str) (k : String) (kw ws : Str) (c : Char) (line rest : Str),
      text = pre ++ (kw ++ (ws ++ c :: (line ++ rest))) →
      k ∈ searchKeywords → SameWord k kw →
      (∀ y ∈ ws, isJsSpace y = true) → isJsSpace c = false →
      (∀ y ∈ line, isLineTerminator y = false) →
      (∀ d r, rest = d :: r → isLineTerminator d = true) →
      (∀ (a w' b : Str) (k' : String), k' ∈ searchKeywords → SameWord k' w' →
        text = a ++ (w' ++ b) → pre.length ≤ a.length) →
      reMatch true searchRe text = some ⟨kw ++ (ws ++ c :: line), .str (c :: line)⟩) ∧
    (∀ (pre : Str) (k : String) (kw ws : Str) (c : Char) (v : Str),
      text = pre ++ (kw ++ (ws ++ c :: v)) →
      k ∈ searchKeywords → SameWord k kw →
      (∀ y ∈ ws, isJsSpace y = true) → isJsSpace c = true → isLineTerminator c = false →
      (∀ y ∈ v, isLineTerminator y = true) →
      (∀ (a w' b : Str) (k' : String), k' ∈ searchKeywords → SameWord k' w' →
        text = a ++ (w' ++ b) → pre.length ≤ a.length) →
      reMatch true searchRe text = some ⟨kw ++ (ws ++ [c]), .str [c]⟩) := by
  have hrun := tryLocalSkill_no_launch h api text hl
  simp only [h1, h2, h3, h4, Bool.false_eq_true, if_false] at hrun
  have htaken : HasSearchPhrase text → ¬ HasCompositePhrase text →
      ∃ m, reMatch true searchRe text = some m ∧
        tryLocalSkill h api text = searchBranch h api m := by
    intro hsp hnc
    obtain ⟨m, hm⟩ := Option.isSome_iff_exists.mp ((reMatch_search_isSome text).mpr hsp)
    have hg : (reMatch true compositeRe text).isNone = true := by
      cases hre : reMatch true compositeRe text with
      | none => rfl
      | some m' =>
        exact absurd ((reMatch_composite_isSome text).mp (by rw [hre]; rfl)) hnc
    refine ⟨m, hm, ?_⟩
    rw [hrun]
    simp only [hg, if_true, hm]
  refine ⟨⟨?_, ?_⟩, ?_, ?_, ?_⟩
  · rintro ⟨as, hmem⟩
    by_cases hg : (reMatch true compositeRe text).isNone = true
    · cases hre : reMatch true searchRe text with
      | some m =>
        refine ⟨(reMatch_search_isSome text).mp (by rw [hre]; rfl), ?_⟩
        intro hc
        have := (reMatch_composite_isSome text).mpr hc
        cases hcomp : reMatch true compositeRe text with
        | none => rw [hcomp] at this; cases this
        | some m' => rw [hcomp] at hg; cases hg
      | none =>
        rw [hrun] at hmem
        simp only [hg, if_true, hre] at hmem
        obtain ⟨evs, he1, he2⟩ := tryLocalSkillTail_tracks h api text (h.toLowerCase text) s
        rw [he1] at hmem
        simp only [List.drop_left] at hmem
        exact absurd rfl (he2 _ _ hmem).1.1
    · rw [hrun] at hmem
      simp only [hg, Bool.false_eq_true, if_false] at hmem
      obtain ⟨evs, he1, he2⟩ := tryLocalSkillTail_tracks h api text (h.toLowerCase text) s
      rw [he1] at hmem
      simp only [List.drop_left] at hmem
      exact absurd rfl (he2 _ _ hmem).1.1
  · rintro ⟨hsp, hnc⟩
    obtain ⟨m, _, heq⟩ := htaken hsp hnc
    refine ⟨[m.group1], ?_⟩
    rw [heq, (searchBranch_run h api m s).1]
    simp
  · intro hsp hnc
    obtain ⟨m, hm, heq⟩ := htaken hsp hnc
    rw [heq]
    exact ⟨m, hm, searchBranch_run h api m s⟩
  · intro pre k kw ws c line rest htext hk hkw hws hc hline hrest hpre
    subst htext
    exact reMatch_search pre k kw ws c line rest hk hkw hws hc hline hrest hpre
  · intro pre k kw ws c v htext hk hkw hws hc hcl hv hpre
    subst htext
    exact reMatch_search_blank pre k kw ws c v hk hkw hws hc hcl hv hpre

/-- C26, at the input `搜尋台灣新聞` with a bridge whose calls all resolve: the
result is the search result for `q = 台灣新聞`. At the bare keyword `搜尋` no
`search_web` call is made. -/
theorem search_branch_taken_witness :
    (tryLocalSkill stdHost okApi "搜尋台灣新聞".toList St.init).1 =
      .ok (.obj [("message".toList, .str "已搜尋: 台灣新聞".toList),
        ("speakText".toList, .str "已搜尋台灣新聞".toList), ("isSkill".toList, .bool true)]) ∧
    ¬ ∃ as, Event.call .search_web as ∈
      (tryLocalSkill stdHost okApi "搜尋".toList St.init).2.log.drop St.init.log.length := by
  constructor
  · obtain ⟨m, hm, -, hok, -⟩ :=
      (search_branch_taken stdHost okApi "搜尋台灣新聞".toList St.init rfl rfl rfl rfl rfl).2.1
        ((reMatch_search_isSome _).mp rfl)
        (fun hc => absurd ((reMatch_composite_isSome _).mpr hc) (by decide))
    have hm' : m = ⟨"搜尋台灣新聞".toList, .str "台灣新聞".toList⟩ :=
      Option.some.inj (hm.symm.trans rfl)
    subst hm'
    exact hok _ rfl
  · intro hcall
    have hsp :=
      ((search_branch_taken stdHost okApi "搜尋".toList St.init rfl rfl rfl rfl rfl).1.mp hcall).1
    exact absurd ((reMatch_search_isSome _).mpr hsp) (by decide)

/-- C26 does not hold as stated. In `搜尋\n台灣新聞` no character follows the
keyword on its line, yet the pattern matches (its `\s*` runs over the line
break) and `search_web` is called with `台灣新聞`. In `搜尋 ` (the keyword and
one blank) the text after the keyword and the white space is empty, yet the
pattern matches, giving the blank back to the group: `search_web` is called
with `q = ' '`. -/
theorem search_across_line_break :
    tryLocalSkill stdHost okApi "搜尋\n台灣新聞".toList St.init =
      (.ok (.obj [("message".toList, .str "已搜尋: 台灣新聞".toList),
        ("speakText".toList, .str "已搜尋台灣新聞".toList), ("isSkill".toList, .bool true)]),
       { St.init with log := [.call .search_web [.str "台灣新聞".toList]] }) ∧
    tryLocalSkill stdHost okApi "搜尋 ".toList St.init =
      (.ok (.obj [("message".toList, .str "已搜尋:  ".toList),
        ("speakText".toList, .str "已搜尋 ".toList), ("isSkill".toList, .bool true)]),
       { St.init with log := [.call .search_web [.str " ".toList]] }) :=
  ⟨rfl, rfl⟩

/-! ## Handlers that read their argument outside a try block -/

/-- C23 fails on the code. The handler of `skill:launch-app` called without a
name (`appName` is `undefined`, as when the remote reply asks for `launch_app`
with empty arguments) does not resolve with `{success: false, message}`: it
rejects with the `TypeError` of reading `toLowerCase` on `undefined`, before
any command is run, and so it does for every `appName` that is not a string.
The handler of `skill:clipboard-write` rejects when `clipboard.writeText`
throws. The handlers of `skill:open-path` and `skill:open-url`, which keep the
call inside `try`, resolve with an object `{success, message}` whatever the
argument and the outcome are, the failure as `success = false` with the
message of the error; the launch handler does so too for a string name when
`exec` accepts its commands. -/
theorem launch_app_rejects (h : Host) (exec : Command → ExecOutcome) :
    launchAppHandler h exec .undefined =
      (.rejected (NodeError.ofJs
        (typeError "Cannot read properties of undefined (reading 'toLowerCase')")), []) ∧
    (∀ appName, isString appName = false →
      ∃ e, launchAppHandler h exec appName = (.rejected e, [])) ∧
    (∀ (writeText : JVal → Except NodeError Unit) (text : JVal) (err : NodeError),
      writeText text = .error err → clipboardWriteHandler writeText text = .rejected err) ∧
    (∀ (openPath : JVal → Except NodeError Unit) (filePath : JVal),
      (∃ b msg, openPathHandler h openPath filePath = .resolved (envelope b msg)) ∧
      (∀ err, openPath filePath = .error err →
        openPathHandler h openPath filePath = .resolved (envelope false err.message))) ∧
    (∀ (openExternal : JVal → Except NodeError Unit) (url : JVal),
      (∃ b msg, openUrlHandler h openExternal url = .resolved (envelope b msg)) ∧
      (∀ err, openExternal url = .error err →
        openUrlHandler h openExternal url = .resolved (envelope false err.message))) ∧
    (∀ name : Str, (∀ c e, exec c ≠ .threw e) →
      ∃ b msg, (launchAppHandler h exec (.str name)).1 = .resolved (envelope b msg)) := by
  refine ⟨rfl, ?_, ?_, ?_, ?_, ?_⟩
  · intro appName hs
    cases appName with
    | str s => cases hs
    | undefined => exact ⟨_, rfl⟩
    | null => exact ⟨_, rfl⟩
    | bool b => exact ⟨_, rfl⟩
    | num m e => exact ⟨_, rfl⟩
    | arr xs ps => exact ⟨_, rfl⟩
    | obj ps => exact ⟨_, rfl⟩
  · intro writeText text err he
    simp only [clipboardWriteHandler, he]
  · intro openPath filePath
    refine ⟨?_, ?_⟩
    · simp only [openPathHandler]
      cases openPath filePath with
      | ok u => exact ⟨_, _, rfl⟩
      | error err => exact ⟨_, _, rfl⟩
    · intro err he
      simp only [openPathHandler, he]
  · intro openExternal url
    refine ⟨?_, ?_⟩
    · simp only [openUrlHandler]
      cases openExternal url with
      | ok u => exact ⟨_, _, rfl⟩
      | error err => exact ⟨_, _, rfl⟩
    · intro err he
      simp only [openUrlHandler, he]
  · intro name hex
    simp only [launchAppHandler]
    cases h1 : exec (Command.text ("start \"\" \"".toList ++
        (launchCommand (h.toLowerCase name) name).toStr ++ "\"".toList)) with
    | threw e => exact absurd h1 (hex _ e)
    | succeeded => exact ⟨_, _, rfl⟩
    | failed =>
      simp only []
      cases h2 : exec (launchCommand (h.toLowerCase name) name) with
      | threw e => exact absurd h2 (hex _ e)
      | succeeded => exact ⟨_, _, rfl⟩
      | failed => exact ⟨_, _, rfl⟩

/-! ## Values thrown into the catch clause of executeAISkill -/

theorem runT_bind {α β : Type} (x : MT α) (f : α → MT β) (s : St) :
    (x >>= f) s =
      match x s with
      | (.ok a, s1) => f a s1
      | (.error e, s1) => (.error e, s1) := rfl

theorem agree_pure {α : Type} (a : α) : Agree (Pure.pure a : M α) (Pure.pure a : MT α) :=
  fun _ => rfl

theorem agree_liftE {α : Type} (x : Except JsError α) : Agree (liftE x) (liftT x) := by
  intro s
  cases x <;> rfl

theorem agree_callApi (api : Api) (cap : Cap) (as : List JVal) :
    Agree (callApi api cap as) (callAny api.toAny cap as) := by
  intro s
  simp only [callAny, Api.toAny, run_callApi]
  cases api cap as <;> rfl

theorem agree_bind {α β : Type} {x : M α} {y : MT α} {f : α → M β} {g : α → MT β}
    (hx : Agree x y) (hf : ∀ a, Agree (f a) (g a)) : Agree (x >>= f) (y >>= g) := by
  intro s
  rw [runT_bind, hx s, run_bind]
  rcases x s with ⟨r, s1⟩
  cases r with
  | ok a => exact hf a s1
  | error e => rfl

theorem agree_ite {α : Type} {c : Prop} [Decidable c] {x x2 : M α} {y y2 : MT α}
    (h1 : Agree x y) (h2 : Agree x2 y2) :
    Agree (if c then x else x2) (if c then y else y2) := by
  split <;> assumption

theorem executeAISkillBody_agree (h : Host) (api : Api) (skillName args : JVal) :
    Agree (executeAISkillBody h api skillName args)
      (executeAISkillBodyAny h api.toAny skillName args) := by
  unfold executeAISkillBody executeAISkillBodyAny
  repeat' first
    | exact agree_pure _
    | exact agree_liftE _
    | exact agree_callApi _ _ _
    | apply agree_bind
    | apply agree_ite
    | intro _

/-- On a bridge that rejects with `Error` objects only, the two models of
`executeAISkill` are the same function. -/
theorem executeAISkill_agree (h : Host) (api : Api) (skillName args : JVal) :
    Agree (executeAISkill h api skillName args)
      (executeAISkillAny h api.toAny skillName args) := by
  intro s
  have hb := executeAISkillBody_agree h api skillName args s
  simp only [executeAISkillAny, hb, executeAISkill, run_tryCatchM]
  rcases executeAISkillBody h api skillName args s with ⟨r, s1⟩
  cases r with
  | ok a => rfl
  | error e => rfl

theorem fromBridge_pure {α : Type} (api : AnyApi) (a : α) :
    FromBridge api (Pure.pure a : MT α) := by
  intro s v hv
  cases hv

theorem fromBridge_liftT {α : Type} (api : AnyApi) (x : Except JsError α) :
    FromBridge api (liftT x) := by
  intro s v hv
  cases x <;> cases hv

theorem fromBridge_callAny (api : AnyApi) (cap : Cap) (as : List JVal) :
    FromBridge api (callAny api cap as) := by
  intro s v hv
  exact ⟨cap, as, hv⟩

theorem fromBridge_bind {α β : Type} {api : AnyApi} {y : MT α} {g : α → MT β}
    (hy : FromBridge api y) (hg : ∀ a, FromBridge api (g a)) : FromBridge api (y >>= g) := by
  intro s v hv
  rw [runT_bind] at hv
  have h1 := hy s v
  rcases hys : y s with ⟨r, s1⟩
  rw [hys] at hv h1
  cases r with
  | ok a => exact hg a s1 v hv
  | error e => exact h1 (by simpa using hv)

theorem fromBridge_ite {α : Type} {api : AnyApi} {c : Prop} [Decidable c] {y y2 : MT α}
    (h1 : FromBridge api y) (h2 : FromBridge api y2) :
    FromBridge api (if c then y else y2) := by
  split <;> assumption

theorem executeAISkillBodyAny_fromBridge (h : Host) (api : AnyApi) (skillName args : JVal) :
    FromBridge api (executeAISkillBodyAny h api skillName args) := by
  unfold executeAISkillBodyAny
  repeat' first
    | exact fromBridge_pure _ _
    | exact fromBridge_liftT _ _
    | exact fromBridge_callAny _ _ _
    | apply fromBridge_bind
    | apply fromBridge_ite
    | intro _

/-- C8 fails on the code. When a bridge call is rejected with `null` (or with
no reason at all, which is `undefined`), the `catch` clause of
`executeAISkill` reads `err.message` on it and throws in its turn, so
`executeAISkill` rejects with a `TypeError` instead of returning a string:
so it is for `launch_app` and the name `notepad`, after the call was made.
For every other way the bridge may behave `executeAISkill` returns a value,
whatever the skill name and the arguments are: when no call is rejected with
`null` or `undefined`, nothing is thrown; and a value thrown by the `switch`
is turned into `'技能執行失敗: ' + (err.message || err)`, for an `Error` as for a
rejection with a string or another value. -/
theorem executeAISkill_rejects_on_null (h : Host) (api : AnyApi) (skillName args : JVal)
    (s : St) :
    executeAISkillAny stdHost (fun _ _ => .error (.value .null)) (.str "launch_app".toList)
      (.obj [("name".toList, .str "notepad".toList)]) St.init =
      (.error (.error (typeError "Cannot read properties of null (reading 'message')")),
        { St.init with log := [.call .launch_app [.str "notepad".toList]] }) ∧
    (executeAISkillAny stdHost (fun _ _ => .error (.value .undefined))
      (.str "launch_app".toList) (.obj [("name".toList, .str "notepad".toList)]) St.init).1 =
      .error (.error (typeError "Cannot read properties of undefined (reading 'message')")) ∧
    ((∀ cap as v, api cap as = .error (.value v) → v ≠ .null ∧ v ≠ .undefined) →
      ∃ r, (executeAISkillAny h api skillName args s).1 = .ok r) ∧
    (∀ err t, (executeAISkillBodyAny h api skillName args s).1 = .error err →
      caughtText h err = .ok t →
      (executeAISkillAny h api skillName args s).1 = .ok (.str ("技能執行失敗: ".toList ++ t))) ∧
    (∀ e, caughtText h (.error e) =
      .ok (if e.message.isEmpty then e.toStr else e.message)) ∧
    (∀ t : Str, caughtText h (.value (.str t)) = .ok t) := by
  refine ⟨rfl, rfl, ?_, ?_, ?_, ?_⟩
  · intro hapi
    simp only [executeAISkillAny]
    have hfrom := executeAISkillBodyAny_fromBridge h api skillName args s
    rcases hb : executeAISkillBodyAny h api skillName args s with ⟨r, s1⟩
    rw [hb] at hfrom
    cases r with
    | ok v => exact ⟨v, rfl⟩
    | error err =>
      cases err with
      | error e => exact ⟨_, rfl⟩
      | value v =>
        obtain ⟨cap, as, hc⟩ := hfrom v rfl
        obtain ⟨h1, h2⟩ := hapi cap as v hc
        cases v with
        | null => exact absurd rfl h1
        | undefined => exact absurd rfl h2
        | bool b => exact ⟨_, rfl⟩
        | num m e => exact ⟨_, rfl⟩
        | str t => exact ⟨_, rfl⟩
        | arr xs ps => exact ⟨_, rfl⟩
        | obj ps => exact ⟨_, rfl⟩
  · intro err t hb ht
    simp only [executeAISkillAny]
    rcases hbs : executeAISkillBodyAny h api skillName args s with ⟨r, s1⟩
    rw [hbs] at hb
    simp only at hb
    subst hb
    simp only [ht]
  · intro e
    rfl
  · intro t
    simp only [caughtText, getProp, jsOr, truthy, Bool.false_eq_true, if_false, toStr]

end DigitalAssistant
